import Mathlib

/-!
# katacant: tokenizer, parser and sampler of the quiz trainer

A shallow embedding of `src/main.c`:

* `gamedata_tokenize` (lines 294-356), the scanner of the data file;
* `token_expect`, `token_accept`, `token_peek` (lines 358-390);
* `gamedata_parse_row`, `gamedata_parse` (lines 392-449);
* `ask_queries` (lines 197-233), the sampler.

Conventions of the embedding.

* The input stream `FILE *data` is the list of the bytes not yet read; `fgetc`
  takes the head, `EOF` is the empty list and `ungetc` puts a byte back in front.
* A growable array `DA (T)` is a `List T`.  A `string` is the list of the bytes
  stored in it, the terminating NUL included.  In the tokenizer `DA_APPEND` is
  `da_append`, which does not return on an array of `2 ^ 31` entries.  In the
  parser it is the append of lists: the record array and the answer arrays get
  at most one entry per token read, so on a token array that the tokenizer has
  returned, and from an empty record set, they stay below that size.
* `unsigned` counters wrap modulo `2 ^ 32`.
* What `FERROR` writes to `stderr` is kept as a list of `diagnostic` values, one
  per message, in the order written.
* The loops whose termination is not structural run on a fuel counter and answer
  `none` when it runs out; the entry points supply enough fuel, and their result
  is proved not to depend on the fuel from that amount on.  In the tokenizer
  `none` then stands for a call that does not return.
-/

namespace Katacant

/-! ## Data model -/

/-- The `enum token_kind` generated by the `TOKEN_KINDS` X-macro. -/
inductive token_kind where
  | STRING
  | COLON
  | COMMA
  | SEMICOLON
  deriving DecidableEq, Repr

/-- The `struct token`: kind, text (`{ 0 }`, the empty array, for a delimiter)
and source position. -/
structure token where
  kind : token_kind
  s : List Nat
  line : Nat
  column : Nat
  deriving DecidableEq, Repr

/-- The `struct query`: a key and its accepted answers. -/
structure query where
  key : List Nat
  values : List (List Nat)
  deriving DecidableEq, Repr

/-- One message of the form
`Unexpected token in gamemode data at PATH:line:column: Expected E, got A`
written by `FERROR`; the path is the constant `gamemode_description[mode].datapath`. -/
structure diagnostic where
  line : Nat
  column : Nat
  expected : token_kind
  actual : token_kind
  deriving DecidableEq, Repr

/-- Addition of `unsigned` values. -/
def uadd (a b : Nat) : Nat := (a + b) % 4294967296

/-- The `isspace` of the C locale: space, `\t`, `\n`, `\v`, `\f`, `\r`. -/
def isspace (c : Nat) : Bool := c == 32 || (9 ≤ c && c ≤ 13)

/-- The test `c == ',' || c == ';' || c == ':'` that ends a string. -/
def is_delim (c : Nat) : Bool := c == 44 || c == 59 || c == 58

/-! ## Tokenizer -/

/-- The macro `DA_APPEND (da, v)`.  `DA_RESERVE` doubles the `unsigned` capacity
32, 64, ... until it holds `len + 1` entries; with `len = 2 ^ 31` the doubling
wraps to 0 and its `while` never ends, so the append does not return: `none`.
(A failing `realloc` ends the program by `FATAL` and is left out.) -/
def da_append {α : Type} (da : List α) (v : α) : Option (List α) :=
  if da.length < 2147483648 then some (da ++ [v]) else none

/-- The inner loop of the `default:` case of `gamedata_tokenize`:
`while (c != EOF && c != ',' && c != ';' && c != ':') { column += 1; DA_APPEND (&s, c); c = fgetc (data); }`
followed by `if (c != EOF) ungetc (c, data);`.  The first argument is the
stream with the current character `c` in front; the result is the text read,
the column counter and the stream left, `none` when an append does not
return. -/
def read_string : List Nat → List Nat → Nat → Option (List Nat × Nat × List Nat)
  | [], s, column => some (s, column, [])
  | c :: data, s, column =>
    if c = 44 ∨ c = 59 ∨ c = 58 then some (s, column, c :: data)
    else
      match da_append s c with
      | none => none
      | some s1 => read_string data s1 (uadd column 1)

/-- The `for (;;)` loop of `gamedata_tokenize`: `none` when it does not return.
The first argument is fuel, one unit per turn; every turn reads at least one
byte. -/
def tokenize_loop : Nat → List Nat → Nat → Nat → List token → Option (List token)
  | 0, _, _, _, _ => none
  | _ + 1, [], _, _, out_tokens => some out_tokens
  | fuel + 1, c :: data, line, column, out_tokens =>
    if isspace c then
      if c = 10 then tokenize_loop fuel data (uadd line 1) 1 out_tokens
      else tokenize_loop fuel data line (uadd column 1) out_tokens
    else if c = 44 then
      match da_append out_tokens ⟨token_kind.COMMA, [], line, column⟩ with
      | none => none
      | some out1 => tokenize_loop fuel data line (uadd column 1) out1
    else if c = 59 then
      match da_append out_tokens ⟨token_kind.SEMICOLON, [], line, column⟩ with
      | none => none
      | some out1 => tokenize_loop fuel data line (uadd column 1) out1
    else if c = 58 then
      match da_append out_tokens ⟨token_kind.COLON, [], line, column⟩ with
      | none => none
      | some out1 => tokenize_loop fuel data line (uadd column 1) out1
    else
      match read_string (c :: data) [] column with
      | none => none
      | some (s, column1, data1) =>
        match da_append s 0 with
        | none => none
        | some s0 =>
          match da_append out_tokens ⟨token_kind.STRING, s0, line, column⟩ with
          | none => none
          | some out1 => tokenize_loop fuel data1 line column1 out1

/-- The function `gamedata_tokenize`: `some` of the token array when it returns
(it only ever returns `true`), `none` when it does not return because an array
has reached `2 ^ 31` entries.  One unit of fuel per byte and one for the final
`EOF` is enough: with that much fuel the result does not depend on the fuel. -/
def gamedata_tokenize (data : List Nat) (out_tokens : List token) : Option (List token) :=
  tokenize_loop (data.length + 1) data 1 1 out_tokens

/-! ## Parser -/

/-- The function `token_expect`: `none` for `false`, else the new index and the
token; a token of the wrong kind adds a message, the end of the tokens does not. -/
def token_expect (tokens : List token) (index : Nat) (kind : token_kind)
    (err : List diagnostic) : Option (Nat × token) × List diagnostic :=
  match tokens[index]? with
  | none => (none, err)
  | some t =>
    if t.kind ≠ kind then (none, err ++ [⟨t.line, t.column, kind, t.kind⟩])
    else (some (index + 1, t), err)

/-- The function `token_accept`. -/
def token_accept (tokens : List token) (index : Nat) (kind : token_kind) :
    Option (Nat × token) :=
  match tokens[index]? with
  | none => none
  | some t => if t.kind ≠ kind then none else some (index + 1, t)

/-- The function `token_peek`. -/
def token_peek (tokens : List token) (index : Nat) : Option token :=
  tokens[index]?

/-- The function `query_append_value`. -/
def query_append_value (q : query) (v : List Nat) : query :=
  { q with values := q.values ++ [v] }

/-- The `for (;;)` loop of `gamedata_parse_row` reading `, value`, with the index,
the query and the messages as it leaves them: `false` when an expected string is
missing (the row then does `return false`), `true` at the `break`. -/
def parse_row_values : Nat → List token → Nat → query → List diagnostic →
    Option (Bool × Nat × query × List diagnostic)
  | 0, _, _, _, _ => none
  | fuel + 1, tokens, i, q, err =>
    match token_accept tokens i token_kind.COMMA with
    | none => some (true, i, q, err)
    | some (i1, _) =>
      match token_expect tokens i1 token_kind.STRING err with
      | (none, err1) => some (false, i1, q, err1)
      | (some (i2, t), err1) => parse_row_values fuel tokens i2 (query_append_value q t.s) err1

/-- The function `gamedata_parse_row`: the value returned, the index, the record
array and the messages written. -/
def gamedata_parse_row (tokens : List token) (i : Nat) (out_queries : List query)
    (err : List diagnostic) : Option (Bool × Nat × List query × List diagnostic) :=
  match token_expect tokens i token_kind.STRING err with
  | (none, err1) => some (false, i, out_queries, err1)
  | (some (i1, t), err1) =>
    let q : query := ⟨t.s, []⟩
    match token_expect tokens i1 token_kind.COLON err1 with
    | (none, err2) => some (false, i1, out_queries, err2)
    | (some (i2, _), err2) =>
      match token_expect tokens i2 token_kind.STRING err2 with
      | (none, err3) => some (false, i2, out_queries, err3)
      | (some (i3, t3), err3) =>
        match parse_row_values (tokens.length + 1) tokens i3 (query_append_value q t3.s) err3 with
        | none => none
        | some (false, i4, _, err4) => some (false, i4, out_queries, err4)
        | some (true, i4, q4, err4) =>
          match token_expect tokens i4 token_kind.SEMICOLON err4 with
          | (none, err5) => some (false, i4, out_queries, err5)
          | (some (i5, _), err5) => some (true, i5, out_queries ++ [q4], err5)

/-- The `while (i < tokens.len)` loop of `gamedata_parse`. -/
def parse_loop : Nat → List token → Nat → List query → List diagnostic →
    Option (Bool × List query × List diagnostic)
  | 0, _, _, _, _ => none
  | fuel + 1, tokens, i, out_queries, err =>
    match token_peek tokens i with
    | none => some (true, out_queries, err)
    | some t =>
      if t.kind ≠ token_kind.STRING then
        some (false, out_queries, err ++ [⟨t.line, t.column, token_kind.STRING, t.kind⟩])
      else
        match gamedata_parse_row tokens i out_queries err with
        | none => none
        | some (false, _, out1, err1) => some (false, out1, err1)
        | some (true, i1, out1, err1) => parse_loop fuel tokens i1 out1 err1

/-- The function `gamedata_parse`: the value returned, the record array
`out_queries` as the call leaves it, and the messages written. -/
def gamedata_parse (tokens : List token) (out_queries : List query) :
    Option (Bool × List query × List diagnostic) :=
  parse_loop (tokens.length + 1) tokens 0 out_queries []

/-! ## The parser as an automaton

The cursor of `gamedata_parse` is always in one of five places of a row.  The
function `run` is the parser read off as a transition function on the tokens not
yet consumed; it is the device of the proofs below, where it is shown to compute
what `gamedata_parse` computes. -/

/-- The places of a row at which the parser can stand, with the part of the
`struct query q` built so far. -/
inductive row_state where
  | row_start
  | after_key (key : List Nat)
  | after_colon (key : List Nat)
  | after_answer (q : query)
  | after_comma (q : query)
  deriving DecidableEq, Repr

/-- The message of `token_expect` for token `t` where `kind` was expected. -/
def unexpected (kind : token_kind) (t : token) : diagnostic :=
  ⟨t.line, t.column, kind, t.kind⟩

/-- The parser as a transition function over the remaining tokens. -/
def run : row_state → List token → List query → List diagnostic →
    Bool × List query × List diagnostic
  | row_state.row_start, [], out, err => (true, out, err)
  | row_state.after_key _, [], out, err => (false, out, err)
  | row_state.after_colon _, [], out, err => (false, out, err)
  | row_state.after_answer _, [], out, err => (false, out, err)
  | row_state.after_comma _, [], out, err => (false, out, err)
  | row_state.row_start, t :: ts, out, err =>
    if t.kind = token_kind.STRING then run (row_state.after_key t.s) ts out err
    else (false, out, err ++ [unexpected token_kind.STRING t])
  | row_state.after_key key, t :: ts, out, err =>
    if t.kind = token_kind.COLON then run (row_state.after_colon key) ts out err
    else (false, out, err ++ [unexpected token_kind.COLON t])
  | row_state.after_colon key, t :: ts, out, err =>
    if t.kind = token_kind.STRING then run (row_state.after_answer ⟨key, [t.s]⟩) ts out err
    else (false, out, err ++ [unexpected token_kind.STRING t])
  | row_state.after_answer q, t :: ts, out, err =>
    if t.kind = token_kind.COMMA then run (row_state.after_comma q) ts out err
    else if t.kind = token_kind.SEMICOLON then run row_state.row_start ts (out ++ [q]) err
    else (false, out, err ++ [unexpected token_kind.SEMICOLON t])
  | row_state.after_comma q, t :: ts, out, err =>
    if t.kind = token_kind.STRING then
      run (row_state.after_answer (query_append_value q t.s)) ts out err
    else (false, out, err ++ [unexpected token_kind.STRING t])

/-! ## The grammar of the data file

`file := row*`, `row := STRING COLON STRING (COMMA STRING)* SEMICOLON`, written
down from the specification, over sequences of token kinds. -/

/-- The repetition `(COMMA STRING)*` with `n` turns. -/
def comma_strings (n : Nat) : List token_kind :=
  (List.replicate n [token_kind.COMMA, token_kind.STRING]).flatten

/-- A row: `STRING COLON STRING (COMMA STRING)* SEMICOLON`. -/
def is_row (ks : List token_kind) : Prop :=
  ∃ n, ks = [token_kind.STRING, token_kind.COLON, token_kind.STRING] ++ comma_strings n ++
    [token_kind.SEMICOLON]

/-- A file: a concatenation of zero or more rows. -/
def is_file (ks : List token_kind) : Prop :=
  ∃ rows : List (List token_kind), (∀ r ∈ rows, is_row r) ∧ ks = rows.flatten

/-- The texts of the STRING tokens of a token sequence, in order. -/
def strings (r : List token) : List (List Nat) :=
  (r.filter (fun t => t.kind = token_kind.STRING)).map token.s

/-- The record a row stands for: the text of its first STRING token is the key,
the texts of its other STRING tokens are the answers. -/
def record_of_row (r : List token) : query :=
  ⟨(strings r).headD [], (strings r).tail⟩

/-- The kinds that lead from a place of a row to its `(COMMA STRING)*` part. -/
def row_tail : row_state → List token_kind
  | row_state.row_start => [token_kind.STRING, token_kind.COLON, token_kind.STRING]
  | row_state.after_key _ => [token_kind.COLON, token_kind.STRING]
  | row_state.after_colon _ => [token_kind.STRING]
  | row_state.after_answer _ => []
  | row_state.after_comma _ => [token_kind.STRING]

/-- The kinds `ks` complete the row from the place `st`. -/
def completes (st : row_state) (ks : List token_kind) : Prop :=
  ∃ n, ks = row_tail st ++ comma_strings n ++ [token_kind.SEMICOLON]

/-- The record that the tokens `r` complete from the place `st`. -/
def finish : row_state → List token → query
  | row_state.row_start, r => record_of_row r
  | row_state.after_key key, r => ⟨key, strings r⟩
  | row_state.after_colon key, r => ⟨key, strings r⟩
  | row_state.after_answer q, r => ⟨q.key, q.values ++ strings r⟩
  | row_state.after_comma q, r => ⟨q.key, q.values ++ strings r⟩

/-! ## The tokenizer as a function of the text

The loops of the tokenizer on arrays that always grow, and the tokens
`tokens_of` that they give for the text `data` read from line `line` and column
`column`.  These are the device of the proofs: `gamedata_tokenize`, when it
returns, appends exactly `tokens_of` to the token array, and it returns on every
text that is shorter than `2 ^ 31` bytes. -/

/-- The string loop of `gamedata_tokenize` on an array that always grows: the
text read, the column counter and the stream left. -/
def scan_string : List Nat → List Nat → Nat → List Nat × Nat × List Nat
  | [], s, column => (s, column, [])
  | c :: data, s, column =>
    if c = 44 ∨ c = 59 ∨ c = 58 then (s, column, c :: data)
    else scan_string data (s ++ [c]) (uadd column 1)

/-- The `for (;;)` loop of `gamedata_tokenize` on arrays that always grow. -/
def scan_loop : Nat → List Nat → Nat → Nat → List token → Option (List token)
  | 0, _, _, _, _ => none
  | _ + 1, [], _, _, out_tokens => some out_tokens
  | fuel + 1, c :: data, line, column, out_tokens =>
    if isspace c then
      if c = 10 then scan_loop fuel data (uadd line 1) 1 out_tokens
      else scan_loop fuel data line (uadd column 1) out_tokens
    else if c = 44 then
      scan_loop fuel data line (uadd column 1)
        (out_tokens ++ [⟨token_kind.COMMA, [], line, column⟩])
    else if c = 59 then
      scan_loop fuel data line (uadd column 1)
        (out_tokens ++ [⟨token_kind.SEMICOLON, [], line, column⟩])
    else if c = 58 then
      scan_loop fuel data line (uadd column 1)
        (out_tokens ++ [⟨token_kind.COLON, [], line, column⟩])
    else
      let r := scan_string (c :: data) [] column
      scan_loop fuel r.2.2 line r.2.1
        (out_tokens ++ [⟨token_kind.STRING, r.1 ++ [0], line, column⟩])

/-- The tokens scanned from `data` with the counters at `line` and `column`. -/
def tokens_of (data : List Nat) (line column : Nat) : List token :=
  (scan_loop (data.length + 1) data line column []).getD []

/-- The kind of the token emitted for a delimiter character. -/
def delim_kind (c : Nat) : token_kind :=
  if c = 44 then token_kind.COMMA
  else if c = 59 then token_kind.SEMICOLON
  else token_kind.COLON

/-! ## Data files written from records -/

/-- A key with its answers, as texts (without the terminating NUL). -/
structure record where
  key : List Nat
  answers : List (List Nat)
  deriving DecidableEq, Repr

/-- A text that can be written to a data file as it is: not empty, without
`,`, `;`, `:` and not starting with a whitespace character. -/
def valid_text (s : List Nat) : Prop :=
  s ≠ [] ∧ (∀ c ∈ s, is_delim c = false) ∧ isspace (s.headD 0) = false

instance (s : List Nat) : Decidable (valid_text s) := by
  unfold valid_text; infer_instance

/-- A record that can be written to a data file: at least one answer, and the key
and every answer a `valid_text`. -/
def valid_record (r : record) : Prop :=
  r.answers ≠ [] ∧ valid_text r.key ∧ ∀ a ∈ r.answers, valid_text a

instance (r : record) : Decidable (valid_record r) := by
  unfold valid_record; infer_instance

/-- A record in the file grammar: `key ':' answer1 (',' answerK)* ';'`. -/
def serialize_record (r : record) : List Nat :=
  r.key ++ [58] ++ List.intercalate [44] r.answers ++ [59]

/-- A list of records in the file grammar. -/
def serialize (rs : List record) : List Nat :=
  (rs.map serialize_record).flatten

/-- The `struct query` holding the texts of a record (each with its NUL). -/
def query_of_record (r : record) : query :=
  ⟨r.key ++ [0], r.answers.map (fun a => a ++ [0])⟩

/-- A key or an answer as it stands in a data file: the whitespace `lead` in
front of it, its `text`, and the whitespace `trail` between it and the delimiter
that follows. -/
structure padded where
  lead : List Nat
  text : List Nat
  trail : List Nat
  deriving DecidableEq, Repr

/-- A row as it stands in a data file: the key and the answers, each with the
whitespace around it. -/
structure padded_row where
  key : padded
  answers : List padded
  deriving DecidableEq, Repr

/-- The whitespace of a `padded` is whitespace and its text is a `valid_text`. -/
def valid_padded (p : padded) : Prop :=
  (∀ c ∈ p.lead, isspace c = true) ∧ valid_text p.text ∧ ∀ c ∈ p.trail, isspace c = true

instance (p : padded) : Decidable (valid_padded p) := by
  unfold valid_padded; infer_instance

/-- A row that can be written to a data file: at least one answer, and the key
and every answer a `valid_padded`. -/
def valid_padded_row (r : padded_row) : Prop :=
  r.answers ≠ [] ∧ valid_padded r.key ∧ ∀ a ∈ r.answers, valid_padded a

instance (r : padded_row) : Decidable (valid_padded_row r) := by
  unfold valid_padded_row; infer_instance

/-- The bytes of a key or an answer in the file, with the whitespace around it. -/
def padded_bytes (p : padded) : List Nat :=
  p.lead ++ p.text ++ p.trail

/-- A row written with whitespace around the delimiters:
`key ':' answer1 (',' answerK)* ';'`, each part with its whitespace. -/
def padded_row_bytes (r : padded_row) : List Nat :=
  padded_bytes r.key ++ [58] ++ List.intercalate [44] (r.answers.map padded_bytes) ++ [59]

/-- A data file written with whitespace around the delimiters: the rows, and the
whitespace `fin` behind the last row. -/
def padded_file (rows : List padded_row) (fin : List Nat) : List Nat :=
  (rows.map padded_row_bytes).flatten ++ fin

/-- A text with the whitespace that stands between it and the next delimiter. -/
def text_with_trail (p : padded) : List Nat :=
  p.text ++ p.trail

/-- The record of a row in which every key and answer keeps the whitespace
between it and the next delimiter. -/
def record_with_trail (r : padded_row) : record :=
  ⟨text_with_trail r.key, r.answers.map text_with_trail⟩

/-- A text without whitespace around it. -/
def unpadded (s : List Nat) : padded :=
  ⟨[], s, []⟩

/-- A record as a row without whitespace around the delimiters. -/
def unpadded_row (r : record) : padded_row :=
  ⟨unpadded r.key, r.answers.map unpadded⟩

/-- The text is at its end or at a delimiter. -/
def at_boundary (rest : List Nat) : Prop :=
  rest = [] ∨ ∃ d r, rest = d :: r ∧ is_delim d = true

/-! ## Where a parse error is reported -/

/-- One transition of `run`: the next place and the record set, `none` when the
token is not accepted at this place. -/
def step : row_state → token → List query → Option (row_state × List query)
  | row_state.row_start, t, out =>
    if t.kind = token_kind.STRING then some (row_state.after_key t.s, out) else none
  | row_state.after_key key, t, out =>
    if t.kind = token_kind.COLON then some (row_state.after_colon key, out) else none
  | row_state.after_colon key, t, out =>
    if t.kind = token_kind.STRING then some (row_state.after_answer ⟨key, [t.s]⟩, out) else none
  | row_state.after_answer q, t, out =>
    if t.kind = token_kind.COMMA then some (row_state.after_comma q, out)
    else if t.kind = token_kind.SEMICOLON then some (row_state.row_start, out ++ [q])
    else none
  | row_state.after_comma q, t, out =>
    if t.kind = token_kind.STRING then
      some (row_state.after_answer (query_append_value q t.s), out)
    else none

/-- The place and the record set after the tokens `pre`, `none` when one of them
is not accepted. -/
def advance : row_state → List token → List query → Option (row_state × List query)
  | st, [], out => some (st, out)
  | st, t :: ts, out =>
    match step st t out with
    | none => none
    | some (st1, out1) => advance st1 ts out1

/-- The kind named as expected in the message written at a place. -/
def expected : row_state → token_kind
  | row_state.row_start => token_kind.STRING
  | row_state.after_key _ => token_kind.COLON
  | row_state.after_colon _ => token_kind.STRING
  | row_state.after_answer _ => token_kind.SEMICOLON
  | row_state.after_comma _ => token_kind.STRING

/-- The kinds `ks` are the beginning of a file of the grammar. -/
def viable (ks : List token_kind) : Prop :=
  ∃ more, is_file (ks ++ more)

/-- The kind the grammar asks for after the kinds `ks`: STRING at a row start
(nothing or a SEMICOLON before) and after COLON or COMMA, COLON after a key (a
STRING at a row start), SEMICOLON after an answer (any other STRING). -/
def expected_after (ks : List token_kind) : token_kind :=
  match ks.reverse with
  | [] => token_kind.STRING
  | token_kind.SEMICOLON :: _ => token_kind.STRING
  | token_kind.COLON :: _ => token_kind.STRING
  | token_kind.COMMA :: _ => token_kind.STRING
  | [token_kind.STRING] => token_kind.COLON
  | token_kind.STRING :: token_kind.SEMICOLON :: _ => token_kind.COLON
  | token_kind.STRING :: _ :: _ => token_kind.SEMICOLON

/-- The kinds read so far, last first, at each place of a row. -/
def place : row_state → List token_kind → Prop
  | row_state.row_start, rev => rev = [] ∨ ∃ tl, rev = token_kind.SEMICOLON :: tl
  | row_state.after_key _, rev =>
    rev = [token_kind.STRING] ∨ ∃ tl, rev = token_kind.STRING :: token_kind.SEMICOLON :: tl
  | row_state.after_colon _, rev => ∃ tl, rev = token_kind.COLON :: tl
  | row_state.after_answer _, rev =>
    ∃ tl, rev = token_kind.STRING :: token_kind.COLON :: tl ∨
      rev = token_kind.STRING :: token_kind.COMMA :: tl
  | row_state.after_comma _, rev => ∃ tl, rev = token_kind.COMMA :: tl

/-! ## Positions in the text, as the specification counts them -/

/-- The line of the character at `offset`: 1 plus the number of newline
characters in front of it. -/
def line_of (data : List Nat) (offset : Nat) : Nat :=
  1 + ((data.take offset).filter (fun c => c = 10)).length

/-- The column of the character at `offset`: 1 plus the number of characters
between the last newline in front of it (or the start of the text) and it. -/
def column_of (data : List Nat) (offset : Nat) : Nat :=
  1 + ((data.take offset).reverse.takeWhile (fun c => c ≠ 10)).length

/-! ## Texts that the grammar rejects -/

/-- A row misses its closing `;`: behind the last `;`, or in a text without
`;`, there is a character that is no whitespace. -/
def missing_semicolon (text : List Nat) : Prop :=
  ∃ pre post, text = pre ++ post ∧ 59 ∉ post ∧ ∃ c ∈ post, isspace c = false

/-- A `,` whose next character that is no whitespace is a delimiter or the end of
the text. -/
def dangling_comma (text : List Nat) : Prop :=
  ∃ pre ws post, text = pre ++ 44 :: (ws ++ post) ∧ (∀ c ∈ ws, isspace c = true) ∧
    at_boundary post

/-- A row whose key is not followed by `:`: a text at the start of the file or
behind a `;` that runs up to a `,`, a `;` or the end of the text. -/
def key_without_colon (text : List Nat) : Prop :=
  ∃ pre ws key post, text = pre ++ (ws ++ (key ++ post)) ∧
    (pre = [] ∨ ∃ p, pre = p ++ [59]) ∧ (∀ c ∈ ws, isspace c = true) ∧ valid_text key ∧
    (post = [] ∨ ∃ r, post = 44 :: r ∨ post = 59 :: r)

/-! ## Delimiter tokens -/

/-- The token is a COMMA, SEMICOLON or COLON token. -/
def delimiter_token (t : token) : Bool :=
  decide (t.kind ≠ token_kind.STRING)

/-! ## The STRING tokens of a text -/

/-- The text of a STRING token as the tokenizer leaves it: characters that form
a `valid_text`, followed by the terminating NUL. -/
def string_token_text (t : token) : Prop :=
  ∃ w, t.s = w ++ [0] ∧ valid_text w

/-- No STRING token stands right in front of another one. -/
def no_adjacent_strings (toks : List token) : Prop :=
  ∀ pre a b post, toks = pre ++ a :: b :: post →
    a.kind = token_kind.STRING → b.kind ≠ token_kind.STRING

/-! ## Sampler

The function `ask_queries` (lines 197-233).

* The records `q.items` are the list `q`, and `q.len` is its length.
* `malloc` is `none` when it returns `NULL`, and `some cells` when it returns a
  buffer of `len` cells, the cell `i` holding the indeterminate value `cells i`.
* `rand c` is the value of the call number `c` of `rand ()` in this run, counted
  from 0; it is not negative, so the conversion to `unsigned` keeps it.
* `user a record` is the value of the call number `a` of `query_ask`, which
  prints the key of `record`, reads what the user types and compares it.
* The result is the value returned and the indices of the records passed to
  `query_ask`, in order; `none` stands for undefined behaviour: a remainder by
  zero or an access outside the index buffer or outside `q.items`.
* A `for` loop with a fixed number of turns takes the number of turns left as
  its first counter.  No `unsigned` operation of the function can wrap: `i`, `j`
  and `k` stay below or at `len`, `n - len` is computed under `n > len`, and the
  sum is at most `n`.
-/

/-- The statements `tmp = idx[i]; idx[i] = idx[j]; idx[j] = tmp;`. -/
def swap_idx (idx : List Nat) (i j : Nat) : Option (List Nat) :=
  match idx[i]?, idx[j]? with
  | some a, some b => some ((idx.set i b).set j a)
  | _, _ => none

/-- The loop `for (unsigned i = 0; i < len; ++i) idx[i] = i;` from the turn `i`
on, with `steps` turns left. -/
def init_loop : Nat → Nat → List Nat → Option (List Nat)
  | 0, _, idx => some idx
  | steps + 1, i, idx =>
    if i < idx.length then init_loop steps (i + 1) (idx.set i i) else none

/-- The shuffle loop `for (unsigned i = 0; i < k; ++i)` from the turn `i` on,
with `steps` turns left and `calls` calls of `rand` made: the index buffer and
the number of calls of `rand` at the end. -/
def shuffle_loop (len : Nat) (rand : Nat → Nat) :
    Nat → Nat → Nat → List Nat → Option (List Nat × Nat)
  | 0, _, calls, idx => some (idx, calls)
  | steps + 1, i, calls, idx =>
    if len - i = 0 then none
    else
      match swap_idx idx i (i + rand calls % (len - i)) with
      | none => none
      | some idx1 => shuffle_loop len rand steps (i + 1) (calls + 1) idx1

/-- The loop `for (unsigned i = 0; i < k; ++i) sum += query_ask (q.items[idx[i]]) ? 1 : 0;`
from the turn `i` on: the number of questions asked, the sum and the indices
presented at the end. -/
def ask_loop (q : List query) (idx : List Nat) (user : Nat → query → Bool) :
    Nat → Nat → Nat → Nat → List Nat → Option (Nat × Nat × List Nat)
  | 0, _, asked, sum, presented => some (asked, sum, presented)
  | steps + 1, i, asked, sum, presented =>
    match idx[i]? with
    | none => none
    | some r =>
      match q[r]? with
      | none => none
      | some record =>
        ask_loop q idx user steps (i + 1) (asked + 1)
          (uadd sum (if user asked record then 1 else 0)) (presented ++ [r])

/-- The loop `for (unsigned i = 0; i < extra; ++i)` of the overflow. -/
def extra_loop (q : List query) (rand : Nat → Nat) (user : Nat → query → Bool) :
    Nat → Nat → Nat → Nat → List Nat → Option (Nat × List Nat)
  | 0, _, _, sum, presented => some (sum, presented)
  | steps + 1, calls, asked, sum, presented =>
    if q.length = 0 then none
    else
      match q[rand calls % q.length]? with
      | none => none
      | some record =>
        extra_loop q rand user steps (calls + 1) (asked + 1)
          (uadd sum (if user asked record then 1 else 0))
          (presented ++ [rand calls % q.length])

/-- The function `ask_queries`: the value returned and the indices presented. -/
def ask_queries (q : List query) (n : Nat) (malloc : Option (Nat → Nat))
    (rand : Nat → Nat) (user : Nat → query → Bool) : Option (Nat × List Nat) :=
  if q.length = 0 ∨ n = 0 then some (0, [])
  else
    let len := q.length
    let k := if n < len then n else len
    match malloc with
    | none => some (0, [])
    | some cells =>
      match init_loop len 0 ((List.range len).map cells) with
      | none => none
      | some idx0 =>
        match shuffle_loop len rand k 0 0 idx0 with
        | none => none
        | some (idx, calls) =>
          match ask_loop q idx user k 0 0 0 [] with
          | none => none
          | some (asked, sum, presented) =>
            if n > len then extra_loop q rand user (n - len) calls asked sum presented
            else some (sum, presented)

/-- The indices that `ask_queries` presents when the index buffer is allocated,
as a function of the record count, the requested count and the draws: the first
`min n len` cells of the shuffled identity, then the draws of the overflow. -/
def sample (len n : Nat) (rand : Nat → Nat) : List Nat :=
  if len = 0 ∨ n = 0 then []
  else
    match shuffle_loop len rand (min n len) 0 0 (List.range len) with
    | none => []
    | some (idx, _) =>
      idx.take (min n len) ++
        (List.range (n - len)).map (fun t => rand (min n len + t) % len)

/-! ## The sampler as the specification words it

"For `i` in `0..m`, pick a uniformly random `j` in `[i, N)`, swap positions `i`
and `j`, and take position `i`'s value as the i-th sampled index", with `j` picked
from the draw as the code picks it. -/

/-- The partial Fisher-Yates procedure that takes the value of position `i` right
after the swap number `i`, from the turn `i` on with `steps` turns left. -/
def fisher_yates_spec (len : Nat) (rand : Nat → Nat) :
    Nat → Nat → Nat → List Nat → List Nat → Option (List Nat)
  | 0, _, _, _, sampled => some sampled
  | steps + 1, i, calls, idx, sampled =>
    if len - i = 0 then none
    else
      match swap_idx idx i (i + rand calls % (len - i)) with
      | none => none
      | some idx1 =>
        match idx1[i]? with
        | none => none
        | some v => fisher_yates_spec len rand steps (i + 1) (calls + 1) idx1 (sampled ++ [v])

/-- The fresh pass of the specification: `m = min n len` turns on the identity. -/
def fresh_pass_spec (len n : Nat) (rand : Nat → Nat) : Option (List Nat) :=
  fisher_yates_spec len rand (min n len) 0 0 (List.range len) []

/-! ## Columns in bytes and in characters -/

/-- The number of UTF-8 characters (code points) of a byte sequence: the bytes
that are no continuation bytes `10xxxxxx`. -/
def code_points (bytes : List Nat) : Nat :=
  (bytes.filter (fun b => decide (¬ (128 ≤ b ∧ b < 192)))).length

/-- Behind the text `pre` the scan is not inside a STRING: behind the last
delimiter of `pre`, or from its start when it has none, there is only
whitespace. -/
def outside_string (pre : List Nat) : Prop :=
  ∃ p ws, pre = p ++ ws ∧ (p = [] ∨ ∃ p0 d, p = p0 ++ [d] ∧ is_delim d = true) ∧
    ∀ c ∈ ws, isspace c = true

/-- The text `head` ends a line outside a STRING: it is empty, or it ends with a
newline that the scan meets outside a STRING. -/
def line_start (head : List Nat) : Prop :=
  head = [] ∨ ∃ h, head = h ++ [10] ∧ outside_string h

/-- A token starts at the first byte of `rest`, read behind the text `mid` of the
same line: `rest` starts with a delimiter, or it starts with another character
that is no whitespace and the scan of `mid` has not left it inside a STRING. -/
def token_start (mid rest : List Nat) : Prop :=
  (∃ d r, rest = d :: r ∧ is_delim d = true) ∨
    ((∃ x r, rest = x :: r ∧ isspace x = false ∧ is_delim x = false) ∧ outside_string mid)

/-! # Theorems -/

/-! ## The parser computes `run` -/

theorem getElem?_of_drop_nil {tokens : List token} {i : Nat} (h : tokens.drop i = []) :
    tokens[i]? = none := by
  rw [List.drop_eq_nil_iff] at h
  exact List.getElem?_eq_none h

theorem getElem?_of_drop_cons {tokens : List token} {i : Nat} {t : token} {ts : List token}
    (h : tokens.drop i = t :: ts) : tokens[i]? = some t ∧ tokens.drop (i + 1) = ts := by
  induction tokens generalizing i with
  | nil => simp at h
  | cons a l ih =>
    cases i with
    | zero => simp at h; simp [h.1, h.2]
    | succ n => simp at h; simpa using ih h

theorem token_expect_nil {tokens : List token} {i : Nat} (kind : token_kind)
    (err : List diagnostic) (h : tokens.drop i = []) :
    token_expect tokens i kind err = (none, err) := by
  simp [token_expect, getElem?_of_drop_nil h]

theorem token_expect_cons {tokens : List token} {i : Nat} {t : token} {ts : List token}
    (kind : token_kind) (err : List diagnostic) (h : tokens.drop i = t :: ts) :
    token_expect tokens i kind err =
      if t.kind = kind then (some (i + 1, t), err) else (none, err ++ [unexpected kind t]) := by
  simp only [token_expect, (getElem?_of_drop_cons h).1, unexpected]
  by_cases hk : t.kind = kind <;> simp [hk]

theorem token_accept_nil {tokens : List token} {i : Nat} (kind : token_kind)
    (h : tokens.drop i = []) : token_accept tokens i kind = none := by
  simp [token_accept, getElem?_of_drop_nil h]

theorem token_accept_cons {tokens : List token} {i : Nat} {t : token} {ts : List token}
    (kind : token_kind) (h : tokens.drop i = t :: ts) :
    token_accept tokens i kind = if t.kind = kind then some (i + 1, t) else none := by
  simp only [token_accept, (getElem?_of_drop_cons h).1]
  by_cases hk : t.kind = kind <;> simp [hk]

/-- The comma loop of a row, from the state after an answer: with enough fuel it
either fails as `run` fails, or stops in front of a token that is no comma, with
the tokens in between consumed as `run` consumes them. -/
theorem parse_row_values_run (tokens : List token) (out : List query) :
    ∀ (fuel i : Nat) (q : query) (err : List diagnostic),
      (tokens.drop i).length < fuel →
      (∃ i1 q1 err1, parse_row_values fuel tokens i q err = some (false, i1, q1, err1) ∧
          run (row_state.after_answer q) (tokens.drop i) out err = (false, out, err1)) ∨
      (∃ i1 q1, parse_row_values fuel tokens i q err = some (true, i1, q1, err) ∧
          (tokens.drop i1).length ≤ (tokens.drop i).length ∧
          (∀ t ts, tokens.drop i1 = t :: ts → t.kind ≠ token_kind.COMMA) ∧
          run (row_state.after_answer q) (tokens.drop i) out err =
            run (row_state.after_answer q1) (tokens.drop i1) out err) := by
  intro fuel
  induction fuel with
  | zero => intro i q err h; omega
  | succ fuel ih =>
    intro i q err h
    rcases hd : tokens.drop i with _ | ⟨t, ts⟩
    · right
      refine ⟨i, q, ?_, by rw [hd], ?_, by rw [hd]⟩
      · simp [parse_row_values, token_accept_nil _ hd]
      · intro t ts h2; rw [hd] at h2; cases h2
    · have hd1 := (getElem?_of_drop_cons hd).2
      by_cases hk : t.kind = token_kind.COMMA
      · -- a comma: a string must follow
        rcases hd2 : tokens.drop (i + 1) with _ | ⟨t2, ts2⟩
        · left
          refine ⟨i + 1, q, err, ?_, ?_⟩
          · simp [parse_row_values, token_accept_cons _ hd, hk, token_expect_nil _ _ hd2]
          · rw [hd1] at hd2; subst hd2; simp [run, hk]
        · have hts : ts = t2 :: ts2 := by rw [hd1] at hd2; exact hd2
          subst hts
          by_cases hk2 : t2.kind = token_kind.STRING
          · have hd3 := (getElem?_of_drop_cons hd2).2
            have hlen : (tokens.drop (i + 1 + 1)).length < fuel := by
              rw [hd3]; rw [hd] at h; simp at h; omega
            have hstep : parse_row_values (fuel + 1) tokens i q err =
                parse_row_values fuel tokens (i + 1 + 1) (query_append_value q t2.s) err := by
              simp [parse_row_values, token_accept_cons _ hd, hk, token_expect_cons _ _ hd2, hk2]
            have hrun : run (row_state.after_answer q) (t :: t2 :: ts2) out err =
                run (row_state.after_answer (query_append_value q t2.s)) ts2 out err := by
              simp [run, hk, hk2]
            rcases ih (i + 1 + 1) (query_append_value q t2.s) err hlen with
              ⟨i1, q1, err1, h1, h2⟩ | ⟨i1, q1, h1, h2, h3, h4⟩
            · left
              refine ⟨i1, q1, err1, by rw [hstep, h1], ?_⟩
              rw [hrun, ← hd3, h2]
            · right
              refine ⟨i1, q1, by rw [hstep, h1], ?_, h3, ?_⟩
              · rw [hd3] at h2; simp only [List.length_cons]; omega
              · rw [hrun, ← hd3, h4]
          · left
            refine ⟨i + 1, q, err ++ [unexpected token_kind.STRING t2], ?_, ?_⟩
            · simp [parse_row_values, token_accept_cons _ hd, hk, token_expect_cons _ _ hd2, hk2]
            · simp [run, hk, hk2]
      · right
        refine ⟨i, q, ?_, by rw [hd], ?_, by rw [hd]⟩
        · simp [parse_row_values, token_accept_cons _ hd, hk]
        · intro t2 ts2 h2; rw [hd] at h2; cases h2; exact hk

/-- One call of `gamedata_parse_row` in front of a token: it returns, and either
fails as `run` fails, leaving the records alone, or adds one record and leaves
the cursor where `run` is back at a row start. -/
theorem gamedata_parse_row_run (tokens : List token) (i : Nat) (out : List query)
    (err : List diagnostic) (t : token) (ts : List token) (hd : tokens.drop i = t :: ts) :
    (∃ i1 err1, gamedata_parse_row tokens i out err = some (false, i1, out, err1) ∧
        run row_state.row_start (t :: ts) out err = (false, out, err1)) ∨
    (∃ i1 q, gamedata_parse_row tokens i out err = some (true, i1, out ++ [q], err) ∧
        (tokens.drop i1).length < (t :: ts).length ∧
        run row_state.row_start (t :: ts) out err =
          run row_state.row_start (tokens.drop i1) (out ++ [q]) err) := by
  have hd1 := (getElem?_of_drop_cons hd).2
  by_cases hk : t.kind = token_kind.STRING
  swap
  · left
    exact ⟨i, err ++ [unexpected token_kind.STRING t],
      by simp [gamedata_parse_row, token_expect_cons _ _ hd, hk], by simp [run, hk]⟩
  rcases ts with _ | ⟨t2, ts2⟩
  · left
    exact ⟨i + 1, err,
      by simp [gamedata_parse_row, token_expect_cons _ _ hd, hk, token_expect_nil _ _ hd1],
      by simp [run, hk]⟩
  have hd2 := (getElem?_of_drop_cons hd1).2
  by_cases hk2 : t2.kind = token_kind.COLON
  swap
  · left
    exact ⟨i + 1, err ++ [unexpected token_kind.COLON t2],
      by simp [gamedata_parse_row, token_expect_cons _ _ hd, hk, token_expect_cons _ _ hd1, hk2],
      by simp [run, hk, hk2]⟩
  rcases ts2 with _ | ⟨t3, ts3⟩
  · left
    exact ⟨i + 1 + 1, err,
      by simp [gamedata_parse_row, token_expect_cons _ _ hd, hk, token_expect_cons _ _ hd1, hk2,
        token_expect_nil _ _ hd2],
      by simp [run, hk, hk2]⟩
  have hd3 := (getElem?_of_drop_cons hd2).2
  by_cases hk3 : t3.kind = token_kind.STRING
  swap
  · left
    exact ⟨i + 1 + 1, err ++ [unexpected token_kind.STRING t3],
      by simp [gamedata_parse_row, token_expect_cons _ _ hd, hk, token_expect_cons _ _ hd1, hk2,
        token_expect_cons _ _ hd2, hk3],
      by simp [run, hk, hk2, hk3]⟩
  have hfuel : (tokens.drop (i + 1 + 1 + 1)).length < tokens.length + 1 := by
    rw [List.length_drop]; omega
  have hrow : gamedata_parse_row tokens i out err =
      match parse_row_values (tokens.length + 1) tokens (i + 1 + 1 + 1)
          (query_append_value ⟨t.s, []⟩ t3.s) err with
      | none => none
      | some (false, i4, _, err4) => some (false, i4, out, err4)
      | some (true, i4, q4, err4) =>
        match token_expect tokens i4 token_kind.SEMICOLON err4 with
        | (none, err5) => some (false, i4, out, err5)
        | (some (i5, _), err5) => some (true, i5, out ++ [q4], err5) := by
    simp [gamedata_parse_row, token_expect_cons _ _ hd, hk, token_expect_cons _ _ hd1, hk2,
      token_expect_cons _ _ hd2, hk3]
  have hrun : run row_state.row_start (t :: t2 :: t3 :: ts3) out err =
      run (row_state.after_answer (query_append_value ⟨t.s, []⟩ t3.s)) ts3 out err := by
    simp [run, hk, hk2, hk3, query_append_value]
  rcases parse_row_values_run tokens out (tokens.length + 1) (i + 1 + 1 + 1)
      (query_append_value ⟨t.s, []⟩ t3.s) err hfuel with
    ⟨i1, q1, err1, h1, h2⟩ | ⟨i1, q1, h1, h2, h3, h4⟩
  · left
    refine ⟨i1, err1, by rw [hrow, h1], ?_⟩
    rw [hrun, ← hd3, h2]
  · rw [hd3] at h2 h4
    rcases hd4 : tokens.drop i1 with _ | ⟨t4, ts4⟩
    · left
      refine ⟨i1, err, by rw [hrow, h1]; simp [token_expect_nil _ _ hd4], ?_⟩
      rw [hrun, h4, hd4]; simp [run]
    · have hd5 := (getElem?_of_drop_cons hd4).2
      have hnc := h3 t4 ts4 hd4
      by_cases hk4 : t4.kind = token_kind.SEMICOLON
      · right
        refine ⟨i1 + 1, q1, by rw [hrow, h1]; simp [token_expect_cons _ _ hd4, hk4], ?_, ?_⟩
        · rw [hd5]; rw [hd4] at h2; simp only [List.length_cons] at h2 ⊢; omega
        · rw [hrun, h4, hd4, hd5]; simp [run, hk4]
      · left
        refine ⟨i1, err ++ [unexpected token_kind.SEMICOLON t4],
          by rw [hrow, h1]; simp [token_expect_cons _ _ hd4, hk4], ?_⟩
        rw [hrun, h4, hd4]; simp [run, hk4, hnc]

/-- The row loop of `gamedata_parse` with enough fuel computes `run` from a row
start on the tokens from the cursor on. -/
theorem parse_loop_run (tokens : List token) :
    ∀ (fuel i : Nat) (out : List query) (err : List diagnostic),
      (tokens.drop i).length < fuel →
      parse_loop fuel tokens i out err =
        some (run row_state.row_start (tokens.drop i) out err) := by
  intro fuel
  induction fuel with
  | zero => intro i out err h; omega
  | succ fuel ih =>
    intro i out err h
    rcases hd : tokens.drop i with _ | ⟨t, ts⟩
    · simp [parse_loop, token_peek, getElem?_of_drop_nil hd, run]
    · have hp := (getElem?_of_drop_cons hd).1
      by_cases hk : t.kind = token_kind.STRING
      · rcases gamedata_parse_row_run tokens i out err t ts hd with
          ⟨i1, err1, h1, h2⟩ | ⟨i1, q, h1, h2, h3⟩
        · simp [parse_loop, token_peek, hp, hk, h1, h2]
        · have hlen : (tokens.drop i1).length < fuel := by
            rw [hd] at h; omega
          simp [parse_loop, token_peek, hp, hk, h1, h3, ih i1 (out ++ [q]) err hlen]
      · simp [parse_loop, token_peek, hp, hk, run, unexpected]

/-- The function `gamedata_parse` always returns, with what `run` computes. -/
theorem gamedata_parse_eq_run (tokens : List token) (out : List query) :
    gamedata_parse tokens out = some (run row_state.row_start tokens out []) := by
  have h := parse_loop_run tokens (tokens.length + 1) 0 out [] (by simp)
  simpa [gamedata_parse] using h

/-! ## The parser and the grammar -/

theorem comma_strings_zero : comma_strings 0 = [] := rfl

theorem comma_strings_succ (n : Nat) :
    comma_strings (n + 1) = token_kind.COMMA :: token_kind.STRING :: comma_strings n := by
  simp [comma_strings, List.replicate_succ]

theorem strings_cons (t : token) (r : List token) :
    strings (t :: r) = if t.kind = token_kind.STRING then t.s :: strings r else strings r := by
  by_cases h : t.kind = token_kind.STRING <;> simp [strings, List.filter_cons, h]

theorem strings_nil : strings [] = [] := rfl

/-- From the place after an answer, tokens whose kinds are `(COMMA STRING)* SEMICOLON`
close the row and add its record. -/
theorem run_after_answer_completes (rest : List token) (out : List query)
    (err : List diagnostic) :
    ∀ (n : Nat) (r : List token) (q : query),
      r.map token.kind = comma_strings n ++ [token_kind.SEMICOLON] →
      run (row_state.after_answer q) (r ++ rest) out err =
        run row_state.row_start rest (out ++ [⟨q.key, q.values ++ strings r⟩]) err := by
  intro n
  induction n with
  | zero =>
    intro r q h
    rcases r with _ | ⟨t, r⟩
    · simp [comma_strings_zero] at h
    · simp [comma_strings_zero] at h
      obtain ⟨hk, hr⟩ := h
      subst hr
      simp [run, hk, strings_cons, strings_nil]
  | succ n ih =>
    intro r q h
    rw [comma_strings_succ] at h
    rcases r with _ | ⟨t, _ | ⟨t2, r⟩⟩
    · simp at h
    · simp at h
    · simp at h
      obtain ⟨hk, hk2, hr⟩ := h
      have := ih r (query_append_value q t2.s) (by simpa using hr)
      simp only [query_append_value] at this
      simp [run, hk, hk2, strings_cons, this, query_append_value]

/-- Tokens that complete the row from a place take `run` back to a row start,
with the finished record added. -/
theorem run_completes (st : row_state) (r rest : List token) (out : List query)
    (err : List diagnostic) (h : completes st (r.map token.kind)) :
    run st (r ++ rest) out err = run row_state.row_start rest (out ++ [finish st r]) err := by
  obtain ⟨n, hn⟩ := h
  cases st with
  | row_start =>
    rcases r with _ | ⟨t, _ | ⟨t2, _ | ⟨t3, r⟩⟩⟩ <;> simp [row_tail] at hn
    obtain ⟨hk, hk2, hk3, hr⟩ := hn
    have := run_after_answer_completes rest out err n r ⟨t.s, [t3.s]⟩ (by simpa using hr)
    simp [run, hk, hk2, hk3, this, finish, record_of_row, strings_cons]
  | after_key key =>
    rcases r with _ | ⟨t2, _ | ⟨t3, r⟩⟩ <;> simp [row_tail] at hn
    obtain ⟨hk2, hk3, hr⟩ := hn
    have := run_after_answer_completes rest out err n r ⟨key, [t3.s]⟩ (by simpa using hr)
    simp [run, hk2, hk3, this, finish, strings_cons]
  | after_colon key =>
    rcases r with _ | ⟨t3, r⟩ <;> simp [row_tail] at hn
    obtain ⟨hk3, hr⟩ := hn
    have := run_after_answer_completes rest out err n r ⟨key, [t3.s]⟩ (by simpa using hr)
    simp [run, hk3, this, finish, strings_cons]
  | after_answer q =>
    have := run_after_answer_completes rest out err n r q (by simpa [row_tail] using hn)
    simp [this, finish]
  | after_comma q =>
    rcases r with _ | ⟨t3, r⟩ <;> simp [row_tail] at hn
    obtain ⟨hk3, hr⟩ := hn
    have := run_after_answer_completes rest out err n r (query_append_value q t3.s)
      (by simpa using hr)
    simp only [query_append_value] at this
    simp [run, hk3, this, finish, strings_cons, query_append_value]

/-- Completeness: on a concatenation of rows `run` succeeds, adds the record of
each row in order and writes no message. -/
theorem run_rows (rows : List (List token)) :
    ∀ (out : List query) (err : List diagnostic),
      (∀ r ∈ rows, is_row (r.map token.kind)) →
      run row_state.row_start rows.flatten out err =
        (true, out ++ rows.map record_of_row, err) := by
  induction rows with
  | nil => intro out err _; simp [run]
  | cons r rows ih =>
    intro out err h
    have hr : completes row_state.row_start (r.map token.kind) := h r (by simp)
    rw [List.flatten_cons, run_completes _ _ _ _ _ hr, ih _ _ (fun x hx => h x (by simp [hx]))]
    simp [finish]

/-- Soundness: when `run` succeeds it wrote no message, and the tokens are the
rest of the current row followed by whole rows, each of which added its record. -/
theorem run_sound :
    ∀ (toks : List token) (st : row_state) (out : List query) (err : List diagnostic)
      (out1 : List query) (err1 : List diagnostic),
      run st toks out err = (true, out1, err1) →
      err1 = err ∧
      ((st = row_state.row_start ∧ ∃ rows : List (List token), toks = rows.flatten ∧
          (∀ r ∈ rows, is_row (r.map token.kind)) ∧ out1 = out ++ rows.map record_of_row) ∨
       (st ≠ row_state.row_start ∧ ∃ (r : List token) (rows : List (List token)),
          toks = r ++ rows.flatten ∧ completes st (r.map token.kind) ∧
          (∀ r ∈ rows, is_row (r.map token.kind)) ∧
          out1 = out ++ finish st r :: rows.map record_of_row)) := by
  intro toks
  induction toks with
  | nil =>
    intro st out err out1 err1 h
    cases st <;> simp [run] at h
    obtain ⟨h1, h2⟩ := h
    exact ⟨h2.symm, Or.inl ⟨rfl, [], by simp, by simp, by simp [h1]⟩⟩
  | cons t ts ih =>
    intro st out err out1 err1 h
    cases st with
    | row_start =>
      by_cases hk : t.kind = token_kind.STRING
      · simp only [run, hk, if_true] at h
        rcases ih _ _ _ _ _ h with ⟨he, ⟨hst, _⟩ | ⟨_, r, rows, h1, ⟨n, hn⟩, h3, h4⟩⟩
        · cases hst
        · refine ⟨he, Or.inl ⟨rfl, (t :: r) :: rows, by simp [h1], ?_, ?_⟩⟩
          · intro x hx
            rcases List.mem_cons.1 hx with rfl | hx
            · exact ⟨n, by simp [hk, hn, row_tail]⟩
            · exact h3 x hx
          · simp [h4, record_of_row, strings_cons, hk, finish]
      · simp [run, hk] at h
    | after_key key =>
      by_cases hk : t.kind = token_kind.COLON
      · simp only [run, hk, if_true] at h
        rcases ih _ _ _ _ _ h with ⟨he, ⟨hst, _⟩ | ⟨_, r, rows, h1, ⟨n, hn⟩, h3, h4⟩⟩
        · cases hst
        · refine ⟨he, Or.inr ⟨by simp, t :: r, rows, by simp [h1], ⟨n, by simp [hk, hn, row_tail]⟩,
            h3, ?_⟩⟩
          simp [h4, strings_cons, hk, finish]
      · simp [run, hk] at h
    | after_colon key =>
      by_cases hk : t.kind = token_kind.STRING
      · simp only [run, hk, if_true] at h
        rcases ih _ _ _ _ _ h with ⟨he, ⟨hst, _⟩ | ⟨_, r, rows, h1, ⟨n, hn⟩, h3, h4⟩⟩
        · cases hst
        · refine ⟨he, Or.inr ⟨by simp, t :: r, rows, by simp [h1], ⟨n, by simp [hk, hn, row_tail]⟩,
            h3, ?_⟩⟩
          simp [h4, strings_cons, hk, finish]
      · simp [run, hk] at h
    | after_answer q =>
      by_cases hk : t.kind = token_kind.COMMA
      · simp only [run, hk, if_true] at h
        rcases ih _ _ _ _ _ h with ⟨he, ⟨hst, _⟩ | ⟨_, r, rows, h1, ⟨n, hn⟩, h3, h4⟩⟩
        · cases hst
        · refine ⟨he, Or.inr ⟨by simp, t :: r, rows, by simp [h1],
            ⟨n + 1, by simp [hk, hn, row_tail, comma_strings_succ]⟩, h3, ?_⟩⟩
          simp [h4, strings_cons, hk, finish]
      · by_cases hk2 : t.kind = token_kind.SEMICOLON
        · simp only [run, hk2, if_true] at h
          simp at h
          rcases ih _ _ _ _ _ h with ⟨he, ⟨_, rows, h1, h3, h4⟩ | ⟨hst, _⟩⟩
          · refine ⟨he, Or.inr ⟨by simp, [t], rows, by simp [h1],
              ⟨0, by simp [hk2, row_tail, comma_strings_zero]⟩, h3, ?_⟩⟩
            simp [h4, strings_cons, hk2, finish, strings_nil]
          · exact absurd rfl hst
        · simp [run, hk, hk2] at h
    | after_comma q =>
      by_cases hk : t.kind = token_kind.STRING
      · simp only [run, hk, if_true] at h
        rcases ih _ _ _ _ _ h with ⟨he, ⟨hst, _⟩ | ⟨_, r, rows, h1, ⟨n, hn⟩, h3, h4⟩⟩
        · cases hst
        · refine ⟨he, Or.inr ⟨by simp, t :: r, rows, by simp [h1], ⟨n, by simp [hk, hn, row_tail]⟩,
            h3, ?_⟩⟩
          simp [h4, strings_cons, hk, finish, query_append_value]
      · simp [run, hk] at h

/-- A list whose image under a map is a concatenation is itself the
concatenation of lists with the given images. -/
theorem exists_flatten_of_map_eq {α β : Type} (f : α → β) :
    ∀ (L : List (List β)) (l : List α), l.map f = L.flatten →
      ∃ L1 : List (List α), l = L1.flatten ∧ L1.map (List.map f) = L := by
  intro L
  induction L with
  | nil => intro l h; exact ⟨[], by simpa using h, rfl⟩
  | cons x L ih =>
    intro l h
    rw [List.flatten_cons, List.map_eq_append_iff] at h
    obtain ⟨l1, l2, rfl, h1, h2⟩ := h
    obtain ⟨L1, rfl, h3⟩ := ih l2 h2
    exact ⟨l1 :: L1, by simp, by simp [h1, h3]⟩

/-- The row grammar seen from the parser: `run` from a row start succeeds exactly
on the token sequences whose kinds form a file. -/
theorem run_ok_iff_is_file (tokens : List token) (out : List query) (err : List diagnostic) :
    (run row_state.row_start tokens out err).1 = true ↔ is_file (tokens.map token.kind) := by
  constructor
  · intro h
    rcases hr : run row_state.row_start tokens out err with ⟨b, out1, err1⟩
    rw [hr] at h
    simp at h
    subst h
    rcases run_sound _ _ _ _ _ _ hr with ⟨_, ⟨_, rows, h1, h2, _⟩ | ⟨hst, _⟩⟩
    · refine ⟨rows.map (List.map token.kind), ?_, by simp [h1]⟩
      intro r hr
      obtain ⟨x, hx, rfl⟩ := List.mem_map.1 hr
      exact h2 x hx
    · exact absurd rfl hst
  · rintro ⟨krows, h1, h2⟩
    obtain ⟨rows, rfl, rfl⟩ := exists_flatten_of_map_eq token.kind krows tokens h2
    rw [run_rows rows out err (fun r hr => h1 _ (List.mem_map_of_mem _ hr))]

/-! ## C1: what the parser accepts -/

/-- C1. For every token sequence (and every initial content of the record set)
`gamedata_parse` returns, and it returns `true` if and only if the sequence of
token kinds is a concatenation of zero or more rows
`STRING COLON STRING (COMMA STRING)* SEMICOLON`. -/
theorem gamedata_parse_accepts_grammar (tokens : List token) (out_queries : List query) :
    ∃ res, gamedata_parse tokens out_queries = some res ∧
      (res.1 = true ↔ is_file (tokens.map token.kind)) :=
  ⟨run row_state.row_start tokens out_queries [], gamedata_parse_eq_run tokens out_queries,
    run_ok_iff_is_file tokens out_queries []⟩

/-! ## C2: the records of a successful parse -/

/-- C2. When `gamedata_parse` succeeds on a token sequence, starting from an
empty record set, the tokens split into rows and the record set holds one record
per row, in order: the key is the text of the first STRING token of the row and
the answers are the texts of its other STRING tokens, in order. -/
theorem gamedata_parse_records (tokens : List token) (out : List query)
    (err : List diagnostic) (h : gamedata_parse tokens [] = some (true, out, err)) :
    ∃ rows : List (List token), tokens = rows.flatten ∧
      (∀ r ∈ rows, is_row (r.map token.kind)) ∧ out = rows.map record_of_row := by
  rw [gamedata_parse_eq_run] at h
  rcases run_sound _ _ _ _ _ _ (Option.some.inj h) with ⟨_, ⟨_, rows, h1, h2, h3⟩ | ⟨hst, _⟩⟩
  · exact ⟨rows, h1, h2, by simpa using h3⟩
  · exact absurd rfl hst

/-- Witness for C2 on the tokens of `a:b,c;d:e;`. -/
theorem gamedata_parse_records_witness :
    gamedata_parse
      [⟨token_kind.STRING, [97, 0], 1, 1⟩, ⟨token_kind.COLON, [], 1, 2⟩,
        ⟨token_kind.STRING, [98, 0], 1, 3⟩, ⟨token_kind.COMMA, [], 1, 4⟩,
        ⟨token_kind.STRING, [99, 0], 1, 5⟩, ⟨token_kind.SEMICOLON, [], 1, 6⟩,
        ⟨token_kind.STRING, [100, 0], 1, 7⟩, ⟨token_kind.COLON, [], 1, 8⟩,
        ⟨token_kind.STRING, [101, 0], 1, 9⟩, ⟨token_kind.SEMICOLON, [], 1, 10⟩] [] =
      some (true, [⟨[97, 0], [[98, 0], [99, 0]]⟩, ⟨[100, 0], [[101, 0]]⟩], []) ∧
    ∃ rows : List (List token),
      [⟨token_kind.STRING, [97, 0], 1, 1⟩, ⟨token_kind.COLON, [], 1, 2⟩,
        ⟨token_kind.STRING, [98, 0], 1, 3⟩, ⟨token_kind.COMMA, [], 1, 4⟩,
        ⟨token_kind.STRING, [99, 0], 1, 5⟩, ⟨token_kind.SEMICOLON, [], 1, 6⟩,
        ⟨token_kind.STRING, [100, 0], 1, 7⟩, ⟨token_kind.COLON, [], 1, 8⟩,
        ⟨token_kind.STRING, [101, 0], 1, 9⟩, ⟨token_kind.SEMICOLON, [], 1, 10⟩] = rows.flatten ∧
      (∀ r ∈ rows, is_row (r.map token.kind)) ∧
      [⟨[97, 0], [[98, 0], [99, 0]]⟩, ⟨[100, 0], [[101, 0]]⟩] = rows.map record_of_row :=
  ⟨by decide, gamedata_parse_records _ _ [] (by decide)⟩

/-! ## The tokenizer loop on arrays that always grow -/

theorem scan_string_length :
    ∀ (data s : List Nat) (column : Nat),
      (scan_string data s column).2.2.length ≤ data.length := by
  intro data
  induction data with
  | nil => intro s column; simp [scan_string]
  | cons c data ih =>
    intro s column
    by_cases h : c = 44 ∨ c = 59 ∨ c = 58
    · simp [scan_string, h]
    · simp only [scan_string, h, if_false]
      exact Nat.le_succ_of_le (ih _ _)

/-- A string that starts with a character that is no delimiter consumes it. -/
theorem scan_string_length_lt (c : Nat) (data s : List Nat) (column : Nat)
    (h : ¬ (c = 44 ∨ c = 59 ∨ c = 58)) :
    (scan_string (c :: data) s column).2.2.length < (c :: data).length := by
  simp only [scan_string, h, if_false, List.length_cons]
  exact Nat.lt_succ_of_le (scan_string_length _ _ _)

/-- On arrays that always grow the loop with enough fuel returns, appends tokens
to the token array and the tokens appended do not depend on the fuel or on the
array. -/
theorem scan_loop_total :
    ∀ (fuel : Nat) (data : List Nat) (line column : Nat), data.length < fuel →
      ∃ toks : List token, ∀ (fuel1 : Nat) (out : List token), data.length < fuel1 →
        scan_loop fuel1 data line column out = some (out ++ toks) := by
  intro fuel
  induction fuel with
  | zero => intro data line column h; omega
  | succ fuel ih =>
    intro data line column h
    rcases data with _ | ⟨c, data⟩
    · refine ⟨[], ?_⟩
      intro fuel1 out h1
      rcases fuel1 with _ | fuel1
      · omega
      · simp [scan_loop]
    · have hlen : data.length < fuel := by simpa using h
      by_cases hs : isspace c = true
      · by_cases hn : c = 10
        · obtain ⟨toks, ht⟩ := ih data (uadd line 1) 1 hlen
          refine ⟨toks, ?_⟩
          intro fuel1 out h1
          rcases fuel1 with _ | fuel1
          · omega
          · simp only [scan_loop, hs, hn, if_true]
            exact ht fuel1 out (by simpa using h1)
        · obtain ⟨toks, ht⟩ := ih data line (uadd column 1) hlen
          refine ⟨toks, ?_⟩
          intro fuel1 out h1
          rcases fuel1 with _ | fuel1
          · omega
          · simp only [scan_loop, hs, hn, if_true, if_false]
            exact ht fuel1 out (by simpa using h1)
      · by_cases h44 : c = 44
        · obtain ⟨toks, ht⟩ := ih data line (uadd column 1) hlen
          refine ⟨⟨token_kind.COMMA, [], line, column⟩ :: toks, ?_⟩
          intro fuel1 out h1
          rcases fuel1 with _ | fuel1
          · omega
          · subst h44
            simp [scan_loop, isspace, ht fuel1 _ (by simpa using h1)]
        · by_cases h59 : c = 59
          · obtain ⟨toks, ht⟩ := ih data line (uadd column 1) hlen
            refine ⟨⟨token_kind.SEMICOLON, [], line, column⟩ :: toks, ?_⟩
            intro fuel1 out h1
            rcases fuel1 with _ | fuel1
            · omega
            · subst h59
              simp [scan_loop, isspace, ht fuel1 _ (by simpa using h1)]
          · by_cases h58 : c = 58
            · obtain ⟨toks, ht⟩ := ih data line (uadd column 1) hlen
              refine ⟨⟨token_kind.COLON, [], line, column⟩ :: toks, ?_⟩
              intro fuel1 out h1
              rcases fuel1 with _ | fuel1
              · omega
              · subst h58
                simp [scan_loop, isspace, ht fuel1 _ (by simpa using h1)]
            · have hnd : ¬ (c = 44 ∨ c = 59 ∨ c = 58) := by simp [h44, h59, h58]
              have hlt := scan_string_length_lt c data [] column hnd
              obtain ⟨toks, ht⟩ := ih (scan_string (c :: data) [] column).2.2 line
                (scan_string (c :: data) [] column).2.1 (by simp at hlt; omega)
              refine ⟨⟨token_kind.STRING, (scan_string (c :: data) [] column).1 ++ [0],
                line, column⟩ :: toks, ?_⟩
              intro fuel1 out h1
              rcases fuel1 with _ | fuel1
              · omega
              · simp only [scan_loop, hs, h44, h59, h58, if_false]
                simp [ht fuel1 _ (by simp at hlt h1; omega)]

/-- On arrays that always grow the loop with enough fuel appends `tokens_of` to
the token array. -/
theorem scan_loop_eq (fuel : Nat) (data : List Nat) (line column : Nat)
    (out : List token) (h : data.length < fuel) :
    scan_loop fuel data line column out = some (out ++ tokens_of data line column) := by
  obtain ⟨toks, ht⟩ := scan_loop_total (data.length + 1) data line column (by omega)
  have h1 := ht (data.length + 1) [] (by omega)
  simp only [tokens_of, h1, Option.getD_some, List.nil_append]
  exact ht fuel out h

theorem tokens_of_nil (line column : Nat) : tokens_of [] line column = [] := by
  simp [tokens_of, scan_loop]

/-- Unfolding of one turn of the loop. -/
theorem tokens_of_cons (c : Nat) (data : List Nat) (line column : Nat) :
    tokens_of (c :: data) line column =
      if isspace c then
        if c = 10 then tokens_of data (uadd line 1) 1
        else tokens_of data line (uadd column 1)
      else if is_delim c then
        ⟨delim_kind c, [], line, column⟩ :: tokens_of data line (uadd column 1)
      else
        ⟨token_kind.STRING, (scan_string (c :: data) [] column).1 ++ [0], line, column⟩ ::
          tokens_of (scan_string (c :: data) [] column).2.2 line
            (scan_string (c :: data) [] column).2.1 := by
  have h0 : scan_loop (data.length + 1 + 1) (c :: data) line column [] =
      some (tokens_of (c :: data) line column) := by
    rw [scan_loop_eq _ _ _ _ _ (by simp)]; simp
  have hrec : ∀ (l k : Nat) (out : List token),
      scan_loop (data.length + 1) data l k out = some (out ++ tokens_of data l k) :=
    fun l k out => scan_loop_eq _ _ _ _ _ (by omega)
  simp only [scan_loop, hrec] at h0
  by_cases hs : isspace c = true
  · by_cases hn : c = 10
    · subst hn
      simp only [hs, if_true] at h0 ⊢
      simpa using h0.symm
    · simp only [hs, hn, if_true, if_false] at h0 ⊢
      simpa using h0.symm
  · simp only [hs] at h0 ⊢
    by_cases h44 : c = 44
    · simp only [h44, if_true] at h0 ⊢
      simpa [is_delim, delim_kind] using h0.symm
    · by_cases h59 : c = 59
      · simp only [h44, h59, if_true, if_false] at h0 ⊢
        simpa [is_delim, delim_kind] using h0.symm
      · by_cases h58 : c = 58
        · simp only [h44, h59, h58, if_true, if_false] at h0 ⊢
          simpa [is_delim, delim_kind] using h0.symm
        · have hnd : ¬ (c = 44 ∨ c = 59 ∨ c = 58) := by simp [h44, h59, h58]
          have hlt := scan_string_length_lt c data [] column hnd
          simp only [h44, h59, h58, if_false] at h0 ⊢
          rw [scan_loop_eq (data.length + 1) (scan_string (c :: data) [] column).2.2 _ _ _
            (by simp at hlt; omega)] at h0
          simpa [is_delim, h44, h59, h58] using h0.symm

/-! ## The tokenizer and the limit of its arrays -/

theorem da_append_lt {α : Type} (da : List α) (v : α) (h : da.length < 2147483648) :
    da_append da v = some (da ++ [v]) := by
  simp [da_append, h]

theorem da_append_some {α : Type} (da da1 : List α) (v : α) (h : da_append da v = some da1) :
    da1 = da ++ [v] ∧ da.length < 2147483648 := by
  unfold da_append at h
  by_cases hl : da.length < 2147483648
  · rw [if_pos hl] at h
    exact ⟨(Option.some.inj h).symm, hl⟩
  · rw [if_neg hl] at h
    cases h

theorem da_append_full {α : Type} (da : List α) (v : α) (h : 2147483648 ≤ da.length) :
    da_append da v = none := by
  simp [da_append, Nat.not_lt.2 h]

/-- The string loop on an array that always grows keeps every byte it takes off
the stream. -/
theorem scan_string_text_length :
    ∀ (data s : List Nat) (column : Nat),
      (scan_string data s column).1.length + (scan_string data s column).2.2.length =
        s.length + data.length := by
  intro data
  induction data with
  | nil => intro s column; simp [scan_string]
  | cons c data ih =>
    intro s column
    by_cases hc : c = 44 ∨ c = 59 ∨ c = 58
    · simp [scan_string, hc]
    · simp only [scan_string, hc, if_false]
      rw [ih]
      simp
      omega

/-- When the string loop returns, it returns what it returns on an array that
always grows. -/
theorem read_string_some :
    ∀ (data s : List Nat) (column : Nat) (r : List Nat × Nat × List Nat),
      read_string data s column = some r → r = scan_string data s column := by
  intro data
  induction data with
  | nil =>
    intro s column r h
    simp only [read_string] at h
    exact (Option.some.inj h).symm
  | cons c data ih =>
    intro s column r h
    by_cases hc : c = 44 ∨ c = 59 ∨ c = 58
    · simp only [read_string, hc, if_true] at h
      simp only [scan_string, hc, if_true]
      exact (Option.some.inj h).symm
    · simp only [read_string, hc, if_false] at h
      simp only [scan_string, hc, if_false]
      rcases ha : da_append s c with _ | s1
      · rw [ha] at h; cases h
      · rw [ha] at h
        obtain ⟨rfl, _⟩ := da_append_some _ _ _ ha
        exact ih _ _ _ h

/-- The string loop returns when the text read so far and the stream together
hold at most `2 ^ 31` bytes. -/
theorem read_string_bounded :
    ∀ (data s : List Nat) (column : Nat), s.length + data.length ≤ 2147483648 →
      read_string data s column = some (scan_string data s column) := by
  intro data
  induction data with
  | nil => intro s column _; simp [read_string, scan_string]
  | cons c data ih =>
    intro s column h
    by_cases hc : c = 44 ∨ c = 59 ∨ c = 58
    · simp [read_string, scan_string, hc]
    · simp only [List.length_cons] at h
      simp only [read_string, scan_string, hc, if_false, da_append_lt s c (by omega)]
      exact ih _ _ (by simp; omega)

/-- When the loop returns, it has appended `tokens_of` to the token array. -/
theorem tokenize_loop_some :
    ∀ (fuel : Nat) (data : List Nat) (line column : Nat) (out toks : List token),
      tokenize_loop fuel data line column out = some toks →
      toks = out ++ tokens_of data line column := by
  intro fuel
  induction fuel with
  | zero => intro data line column out toks h; simp [tokenize_loop] at h
  | succ fuel ih =>
    intro data line column out toks h
    rcases data with _ | ⟨c, data⟩
    · simp only [tokenize_loop] at h
      simp [tokens_of_nil, ← Option.some.inj h]
    · rw [tokens_of_cons]
      simp only [tokenize_loop] at h
      by_cases hs : isspace c = true
      · by_cases hn : c = 10
        · subst hn
          simp only [hs, if_true] at h ⊢
          exact ih _ _ _ _ _ h
        · simp only [hs, hn, if_true, if_false] at h ⊢
          exact ih _ _ _ _ _ h
      · have hs1 : isspace c = false := by simpa using hs
        simp only [hs1, Bool.false_eq_true, if_false] at h ⊢
        by_cases h44 : c = 44
        · subst h44
          simp only [if_true] at h
          rcases ha : da_append out ⟨token_kind.COMMA, [], line, column⟩ with _ | out1
          · rw [ha] at h; cases h
          · rw [ha] at h
            obtain ⟨rfl, _⟩ := da_append_some _ _ _ ha
            rw [ih _ _ _ _ _ h]
            simp [is_delim, delim_kind]
        · by_cases h59 : c = 59
          · subst h59
            simp only [h44, if_true, if_false] at h
            rcases ha : da_append out ⟨token_kind.SEMICOLON, [], line, column⟩ with _ | out1
            · rw [ha] at h; cases h
            · rw [ha] at h
              obtain ⟨rfl, _⟩ := da_append_some _ _ _ ha
              rw [ih _ _ _ _ _ h]
              simp [is_delim, delim_kind]
          · by_cases h58 : c = 58
            · subst h58
              simp only [h44, h59, if_true, if_false] at h
              rcases ha : da_append out ⟨token_kind.COLON, [], line, column⟩ with _ | out1
              · rw [ha] at h; cases h
              · rw [ha] at h
                obtain ⟨rfl, _⟩ := da_append_some _ _ _ ha
                rw [ih _ _ _ _ _ h]
                simp [is_delim, delim_kind]
            · have hd : is_delim c = false := by simp [is_delim, h44, h59, h58]
              simp only [h44, h59, h58, if_false] at h
              simp only [hd, Bool.false_eq_true, if_false]
              rcases hr : read_string (c :: data) [] column with _ | ⟨s, column1, data1⟩
              · rw [hr] at h; cases h
              · rw [hr] at h
                simp only at h
                have hscan := read_string_some _ _ _ _ hr
                rcases ha : da_append s 0 with _ | s0
                · rw [ha] at h; cases h
                · rw [ha] at h
                  simp only at h
                  obtain ⟨rfl, _⟩ := da_append_some _ _ _ ha
                  rcases hb : da_append out ⟨token_kind.STRING, s ++ [0], line, column⟩ with
                    _ | out1
                  · rw [hb] at h; cases h
                  · rw [hb] at h
                    simp only at h
                    obtain ⟨rfl, _⟩ := da_append_some _ _ _ hb
                    rw [ih _ _ _ _ _ h, ← hscan]
                    simp

/-- The loop returns, with `tokens_of` appended to the token array, on a text
shorter than `2 ^ 31` bytes when the token array has room for one token per
byte. -/
theorem tokenize_loop_bounded :
    ∀ (fuel : Nat) (data : List Nat) (line column : Nat) (out : List token),
      data.length < fuel → data.length < 2147483648 →
      out.length + data.length ≤ 2147483648 →
      tokenize_loop fuel data line column out = some (out ++ tokens_of data line column) := by
  intro fuel
  induction fuel with
  | zero => intro data line column out h; omega
  | succ fuel ih =>
    intro data line column out hf hd ho
    rcases data with _ | ⟨c, data⟩
    · simp [tokenize_loop, tokens_of_nil]
    · simp only [List.length_cons] at hf hd ho
      rw [tokens_of_cons]
      simp only [tokenize_loop]
      by_cases hs : isspace c = true
      · by_cases hn : c = 10
        · subst hn
          simp only [hs, if_true]
          exact ih _ _ _ _ (by omega) (by omega) (by omega)
        · simp only [hs, hn, if_true, if_false]
          exact ih _ _ _ _ (by omega) (by omega) (by omega)
      · have hs1 : isspace c = false := by simpa using hs
        simp only [hs1, Bool.false_eq_true, if_false]
        by_cases h44 : c = 44
        · subst h44
          simp only [if_true, da_append_lt out _ (by omega)]
          rw [ih _ _ _ _ (by omega) (by omega) (by simp; omega)]
          simp [is_delim, delim_kind]
        · by_cases h59 : c = 59
          · subst h59
            simp only [h44, if_true, if_false, da_append_lt out _ (by omega)]
            rw [ih _ _ _ _ (by omega) (by omega) (by simp; omega)]
            simp [is_delim, delim_kind]
          · by_cases h58 : c = 58
            · subst h58
              simp only [h44, h59, if_true, if_false, da_append_lt out _ (by omega)]
              rw [ih _ _ _ _ (by omega) (by omega) (by simp; omega)]
              simp [is_delim, delim_kind]
            · have hdl : is_delim c = false := by simp [is_delim, h44, h59, h58]
              have hnd : ¬ (c = 44 ∨ c = 59 ∨ c = 58) := by simp [h44, h59, h58]
              have hlt := scan_string_length_lt c data [] column hnd
              have htl := scan_string_text_length (c :: data) [] column
              simp only [List.length_cons, List.length_nil] at hlt htl
              simp only [h44, h59, h58, if_false, hdl, Bool.false_eq_true]
              rw [read_string_bounded (c :: data) [] column (by simp; omega)]
              generalize scan_string (c :: data) [] column = r at hlt htl ⊢
              obtain ⟨s, column1, data1⟩ := r
              simp only at hlt htl ⊢
              rw [da_append_lt s 0 (by omega)]
              simp only
              rw [da_append_lt out _ (by omega)]
              simp only
              rw [ih _ _ _ _ (by omega) (by omega) (by simp; omega)]
              simp

/-- With one unit of fuel per byte and one more, the result of the loop does
not depend on the fuel: a `none` then is a call that does not return. -/
theorem tokenize_loop_fuel :
    ∀ (fuel1 fuel2 : Nat) (data : List Nat) (line column : Nat) (out : List token),
      data.length < fuel1 → data.length < fuel2 →
      tokenize_loop fuel1 data line column out = tokenize_loop fuel2 data line column out := by
  intro fuel1
  induction fuel1 with
  | zero => intro fuel2 data line column out h; omega
  | succ fuel1 ih =>
    intro fuel2 data line column out h1 h2
    rcases fuel2 with _ | fuel2
    · omega
    rcases data with _ | ⟨c, data⟩
    · simp [tokenize_loop]
    · simp only [List.length_cons] at h1 h2
      simp only [tokenize_loop]
      have hrec : ∀ l k o, tokenize_loop fuel1 data l k o = tokenize_loop fuel2 data l k o :=
        fun l k o => ih fuel2 data l k o (by omega) (by omega)
      by_cases hnd : c = 44 ∨ c = 59 ∨ c = 58
      · rcases hnd with rfl | rfl | rfl <;> simp [isspace, hrec]
      · simp only [hrec]
        rcases hr : read_string (c :: data) [] column with _ | ⟨s, column1, data1⟩
        · rfl
        · have hscan := read_string_some _ _ _ _ hr
          have hd1 : data1 = (scan_string (c :: data) [] column).2.2 := by rw [← hscan]
          have h3 := scan_string_length_lt c data [] column hnd
          rw [← hd1] at h3
          simp only [List.length_cons] at h3
          simp only [ih fuel2 data1 _ _ _ (by omega) (by omega)]

/-- The function `gamedata_tokenize`, when it returns, has appended the tokens
of the text to the token array. -/
theorem gamedata_tokenize_some (data : List Nat) (out toks : List token)
    (h : gamedata_tokenize data out = some toks) : toks = out ++ tokens_of data 1 1 :=
  tokenize_loop_some _ _ _ _ _ _ h

/-- The function `gamedata_tokenize` returns on every text shorter than `2 ^ 31`
bytes, started on a token array with room for one token per byte. -/
theorem gamedata_tokenize_bounded (data : List Nat) (out : List token)
    (hd : data.length < 2147483648) (ho : out.length + data.length ≤ 2147483648) :
    gamedata_tokenize data out = some (out ++ tokens_of data 1 1) :=
  tokenize_loop_bounded _ _ _ _ _ (by omega) hd ho

/-! ## Scanning whitespace, delimiters and words -/

theorem is_delim_iff (c : Nat) : is_delim c = true ↔ (c = 44 ∨ c = 59 ∨ c = 58) := by
  simp [is_delim, or_assoc]

theorem not_isspace_of_is_delim {c : Nat} (h : is_delim c = true) : isspace c = false := by
  rcases (is_delim_iff c).1 h with rfl | rfl | rfl <;> decide

theorem not_is_delim_of_isspace {c : Nat} (h : isspace c = true) : is_delim c = false := by
  cases hd : is_delim c
  · rfl
  · rw [not_isspace_of_is_delim hd] at h; cases h

/-- Whitespace in front of the text adds no token. -/
theorem tokens_of_spaces (ws : List Nat) (h : ∀ c ∈ ws, isspace c = true) :
    ∀ (data : List Nat) (line column : Nat), ∃ line1 column1,
      tokens_of (ws ++ data) line column = tokens_of data line1 column1 := by
  induction ws with
  | nil => intro data line column; exact ⟨line, column, rfl⟩
  | cons c ws ih =>
    intro data line column
    have hc : isspace c = true := h c (by simp)
    have hws : ∀ x ∈ ws, isspace x = true := fun x hx => h x (by simp [hx])
    rw [List.cons_append, tokens_of_cons]
    simp only [hc, if_true]
    by_cases hn : c = 10
    · simp only [hn, if_true]; exact ih hws _ _ _
    · simp only [hn, if_false]; exact ih hws _ _ _

/-- A text of whitespace only has no token. -/
theorem tokens_of_whitespace (ws : List Nat) (h : ∀ c ∈ ws, isspace c = true)
    (line column : Nat) : tokens_of ws line column = [] := by
  obtain ⟨l1, c1, h1⟩ := tokens_of_spaces ws h [] line column
  rw [List.append_nil] at h1
  rw [h1, tokens_of_nil]

/-- A delimiter is one token. -/
theorem tokens_of_delim (d : Nat) (h : is_delim d = true) (data : List Nat)
    (line column : Nat) :
    tokens_of (d :: data) line column =
      ⟨delim_kind d, [], line, column⟩ :: tokens_of data line (uadd column 1) := by
  rw [tokens_of_cons]
  simp [not_isspace_of_is_delim h, h]

/-- The string loop reads up to the next delimiter or the end of the text. -/
theorem scan_string_word (w : List Nat) (hw : ∀ c ∈ w, is_delim c = false) (rest : List Nat)
    (hrest : at_boundary rest) :
    ∀ (s : List Nat) (column : Nat), ∃ column1,
      scan_string (w ++ rest) s column = (s ++ w, column1, rest) := by
  induction w with
  | nil =>
    intro s column
    rcases hrest with rfl | ⟨d, r, rfl, hd⟩
    · exact ⟨column, by simp [scan_string]⟩
    · exact ⟨column, by simp [scan_string, (is_delim_iff d).1 hd]⟩
  | cons c w ih =>
    intro s column
    have hc : ¬ (c = 44 ∨ c = 59 ∨ c = 58) := by
      rw [← is_delim_iff]; simp [hw c (by simp)]
    obtain ⟨c1, h1⟩ := ih (fun x hx => hw x (by simp [hx])) (s ++ [c]) (uadd column 1)
    exact ⟨c1, by simp [scan_string, hc, h1]⟩

/-- A word, up to the next delimiter or the end of the text, is one STRING token
whose text is the word followed by NUL. -/
theorem tokens_of_word (w : List Nat) (hw : valid_text w) (rest : List Nat)
    (hrest : at_boundary rest) (line column : Nat) :
    ∃ column1, tokens_of (w ++ rest) line column =
      ⟨token_kind.STRING, w ++ [0], line, column⟩ :: tokens_of rest line column1 := by
  obtain ⟨hne, hd, hh⟩ := hw
  rcases w with _ | ⟨c, w⟩
  · exact absurd rfl hne
  · obtain ⟨c1, h1⟩ := scan_string_word (c :: w) hd rest hrest [] column
    refine ⟨c1, ?_⟩
    rw [List.cons_append, tokens_of_cons]
    rw [List.cons_append] at h1
    simp [show isspace c = false from hh, hd c (by simp), h1]

theorem valid_text_append (a post : List Nat) (ha : valid_text a)
    (hpost : ∀ c ∈ post, isspace c = true) : valid_text (a ++ post) := by
  obtain ⟨hne, hd, hh⟩ := ha
  refine ⟨by simp [hne], ?_, ?_⟩
  · intro c hc
    rcases List.mem_append.1 hc with h | h
    · exact hd c h
    · exact not_is_delim_of_isspace (hpost c h)
  · rcases a with _ | ⟨x, a⟩
    · exact absurd rfl hne
    · exact hh

/-! ## Scanning rows written with whitespace around the delimiters -/

/-- The answers of a row, written with whitespace around them and closed by `;`,
scan to `STRING (COMMA STRING)* SEMICOLON` with the answers (and the whitespace
behind each) as texts. -/
theorem tokens_of_answers (rest : List Nat) :
    ∀ (answers : List padded), answers ≠ [] → (∀ a ∈ answers, valid_padded a) →
      ∀ (line column : Nat), ∃ (toks : List token) (line1 column1 n : Nat),
        tokens_of (List.intercalate [44] (answers.map padded_bytes) ++
            59 :: rest) line column = toks ++ tokens_of rest line1 column1 ∧
        toks.map token.kind =
          token_kind.STRING :: comma_strings n ++ [token_kind.SEMICOLON] ∧
        strings toks = answers.map (fun a => text_with_trail a ++ [0]) := by
  intro answers
  induction answers with
  | nil => intro h; exact absurd rfl h
  | cons a as ih =>
    intro _ hv line column
    obtain ⟨hlead, htext, htrail⟩ := hv a (by simp)
    have hva : valid_text (a.text ++ a.trail) := valid_text_append _ _ htext htrail
    rcases as with _ | ⟨a2, as⟩
    · -- the last answer
      obtain ⟨l1, c1, h1⟩ :=
        tokens_of_spaces a.lead hlead (a.text ++ a.trail ++ 59 :: rest) line column
      obtain ⟨c2, h2⟩ := tokens_of_word (a.text ++ a.trail) hva (59 :: rest)
        (Or.inr ⟨59, rest, rfl, by decide⟩) l1 c1
      refine ⟨[⟨token_kind.STRING, a.text ++ a.trail ++ [0], l1, c1⟩,
        ⟨token_kind.SEMICOLON, [], l1, c2⟩], l1, uadd c2 1, 0, ?_, ?_, ?_⟩
      · have : List.intercalate [44] (List.map padded_bytes [a]) ++ 59 :: rest =
            a.lead ++ (a.text ++ a.trail ++ 59 :: rest) := by
          simp [List.intercalate, padded_bytes]
        rw [this, h1, h2, tokens_of_delim 59 (by decide)]
        simp [delim_kind]
      · simp [comma_strings_zero]
      · simp [strings_cons, strings_nil, text_with_trail]
    · -- an answer followed by a comma
      obtain ⟨l1, c1, h1⟩ := tokens_of_spaces a.lead hlead
        (a.text ++ a.trail ++ 44 :: (List.intercalate [44]
          ((a2 :: as).map padded_bytes) ++ 59 :: rest)) line column
      obtain ⟨c2, h2⟩ := tokens_of_word (a.text ++ a.trail) hva
        (44 :: (List.intercalate [44] ((a2 :: as).map padded_bytes) ++ 59 :: rest))
        (Or.inr ⟨44, _, rfl, by decide⟩) l1 c1
      obtain ⟨toks, l3, c3, n, h3, h4, h5⟩ :=
        ih (by simp) (fun x hx => hv x (by simp [hx])) l1 (uadd c2 1)
      refine ⟨⟨token_kind.STRING, a.text ++ a.trail ++ [0], l1, c1⟩ ::
        ⟨token_kind.COMMA, [], l1, c2⟩ :: toks, l3, c3, n + 1, ?_, ?_, ?_⟩
      · have : List.intercalate [44] (List.map padded_bytes (a :: a2 :: as)) ++
            59 :: rest =
            a.lead ++ (a.text ++ a.trail ++ 44 :: (List.intercalate [44]
              ((a2 :: as).map padded_bytes) ++ 59 :: rest)) := by
          simp [List.intercalate, List.intersperse, padded_bytes]
        rw [this, h1, h2, tokens_of_delim 44 (by decide), h3]
        simp [delim_kind]
      · simp [h4, comma_strings_succ]
      · simp [strings_cons, h5, text_with_trail]

/-- A row written with whitespace around the delimiters scans to one row of
tokens, whose record holds the key and the answers, each with the whitespace
that followed it. -/
theorem tokens_of_row (r : padded_row) (hr : valid_padded_row r) (rest : List Nat)
    (line column : Nat) :
    ∃ (row : List token) (line1 column1 : Nat),
      tokens_of (padded_row_bytes r ++ rest) line column =
        row ++ tokens_of rest line1 column1 ∧
      is_row (row.map token.kind) ∧
      record_of_row row = query_of_record (record_with_trail r) := by
  obtain ⟨hne, ⟨hlead, htext, htrail⟩, ha⟩ := hr
  have hvk : valid_text (r.key.text ++ r.key.trail) := valid_text_append _ _ htext htrail
  have hs : padded_row_bytes r ++ rest =
      r.key.lead ++ (r.key.text ++ r.key.trail ++ 58 :: (List.intercalate [44]
        (r.answers.map padded_bytes) ++ 59 :: rest)) := by
    simp [padded_row_bytes, padded_bytes]
  obtain ⟨l1, c1, h1⟩ := tokens_of_spaces r.key.lead hlead
    (r.key.text ++ r.key.trail ++ 58 :: (List.intercalate [44]
      (r.answers.map padded_bytes) ++ 59 :: rest)) line column
  obtain ⟨c2, h2⟩ := tokens_of_word (r.key.text ++ r.key.trail) hvk
    (58 :: (List.intercalate [44] (r.answers.map padded_bytes) ++ 59 :: rest))
    (Or.inr ⟨58, _, rfl, by decide⟩) l1 c1
  obtain ⟨toks, l3, c3, n, h3, h4, h5⟩ :=
    tokens_of_answers rest r.answers hne ha l1 (uadd c2 1)
  refine ⟨⟨token_kind.STRING, r.key.text ++ r.key.trail ++ [0], l1, c1⟩ ::
    ⟨token_kind.COLON, [], l1, c2⟩ :: toks, l3, c3, ?_, ⟨n, ?_⟩, ?_⟩
  · rw [hs, h1, h2, tokens_of_delim 58 (by decide), h3]
    simp [delim_kind]
  · simp [h4]
  · simp [record_of_row, strings_cons, h5, query_of_record, record_with_trail, text_with_trail]

/-- Rows written with whitespace around the delimiters scan to one row of tokens
each. -/
theorem tokens_of_rows (rest : List Nat) :
    ∀ (rs : List padded_row), (∀ r ∈ rs, valid_padded_row r) → ∀ (line column : Nat),
      ∃ (rows : List (List token)) (line1 column1 : Nat),
        tokens_of ((rs.map padded_row_bytes).flatten ++ rest) line column =
          rows.flatten ++ tokens_of rest line1 column1 ∧
        (∀ row ∈ rows, is_row (row.map token.kind)) ∧
        rows.map record_of_row = rs.map (fun r => query_of_record (record_with_trail r)) := by
  intro rs
  induction rs with
  | nil => intro _ line column; exact ⟨[], line, column, by simp, by simp, by simp⟩
  | cons r rs ih =>
    intro h line column
    obtain ⟨row, l1, c1, h1, h2, h3⟩ := tokens_of_row r (h r (by simp))
      ((rs.map padded_row_bytes).flatten ++ rest) line column
    obtain ⟨rows, l2, c2, h4, h5, h6⟩ := ih (fun x hx => h x (by simp [hx])) l1 c1
    refine ⟨row :: rows, l2, c2, ?_, ?_, ?_⟩
    · simp only [List.map_cons, List.flatten_cons, List.append_assoc]
      rw [h1, h4]
    · intro x hx
      rcases List.mem_cons.1 hx with rfl | hx
      · exact h2
      · exact h5 x hx
    · simp [h3, h6]

/-- Loading a file of less than `2 ^ 31` bytes written with whitespace around
the delimiters: the tokenizer and the parser return, the parse succeeds without
a message and yields one record per row, with the whitespace that followed a key
or an answer kept in it. -/
theorem load_padded_file (rows : List padded_row) (fin : List Nat)
    (hrows : ∀ r ∈ rows, valid_padded_row r) (hfin : ∀ c ∈ fin, isspace c = true)
    (hlen : (padded_file rows fin).length < 2147483648) :
    ∃ toks, gamedata_tokenize (padded_file rows fin) [] = some toks ∧
      gamedata_parse toks [] =
        some (true, (rows.map record_with_trail).map query_of_record, []) := by
  obtain ⟨trows, l1, c1, h1, h2, h3⟩ := tokens_of_rows fin rows hrows 1 1
  rw [tokens_of_whitespace fin hfin, List.append_nil] at h1
  refine ⟨trows.flatten, ?_, ?_⟩
  · rw [gamedata_tokenize_bounded _ _ hlen (by simp; omega)]
    simp only [padded_file] at h1 ⊢
    rw [h1]
    simp
  · rw [gamedata_parse_eq_run, run_rows trows [] [] h2, h3]; simp [List.map_map]

theorem padded_row_bytes_unpadded_row (r : record) :
    padded_row_bytes (unpadded_row r) = serialize_record r := by
  have : padded_bytes ∘ unpadded = id := by
    funext a; simp [padded_bytes, unpadded]
  simp [padded_row_bytes, unpadded_row, serialize_record, padded_bytes, unpadded, this]

theorem serialize_eq_padded_file (rs : List record) :
    serialize rs = padded_file (rs.map unpadded_row) [] := by
  have h2 : padded_row_bytes ∘ unpadded_row = serialize_record :=
    funext padded_row_bytes_unpadded_row
  simp [serialize, padded_file, List.map_map, h2]

theorem record_with_trail_unpadded_row (r : record) :
    record_with_trail (unpadded_row r) = r := by
  have : text_with_trail ∘ unpadded = id := by
    funext a; simp [text_with_trail, unpadded]
  cases r
  simp [record_with_trail, unpadded_row, text_with_trail, unpadded, this]

theorem valid_padded_row_unpadded_row (r : record) (hr : valid_record r) :
    valid_padded_row (unpadded_row r) := by
  obtain ⟨hne, hk, ha⟩ := hr
  refine ⟨by simpa [unpadded_row] using hne, ⟨by simp [unpadded_row, unpadded],
    by simpa [unpadded_row, unpadded] using hk, by simp [unpadded_row, unpadded]⟩, ?_⟩
  intro a h
  simp only [unpadded_row, List.mem_map] at h
  obtain ⟨x, hx, rfl⟩ := h
  exact ⟨by simp [unpadded], by simpa [unpadded] using ha x hx, by simp [unpadded]⟩

theorem valid_record_with_trail (r : padded_row) (hr : valid_padded_row r) :
    valid_record (record_with_trail r) := by
  obtain ⟨hne, ⟨_, hk, hkt⟩, ha⟩ := hr
  refine ⟨by simpa [record_with_trail] using hne, valid_text_append _ _ hk hkt, ?_⟩
  intro a h
  simp only [record_with_trail, List.mem_map] at h
  obtain ⟨x, hx, rfl⟩ := h
  exact valid_text_append _ _ (ha x hx).2.1 (ha x hx).2.2

/-- Round trip on files of less than `2 ^ 31` bytes: the compact form of valid
records tokenizes and parses to the keys and answers written. -/
theorem roundtrip_below_limit (rs : List record) (h : ∀ r ∈ rs, valid_record r)
    (hlen : (serialize rs).length < 2147483648) :
    ∃ toks, gamedata_tokenize (serialize rs) [] = some toks ∧
      gamedata_parse toks [] = some (true, rs.map query_of_record, []) := by
  have hv : ∀ r ∈ rs.map unpadded_row, valid_padded_row r := by
    intro r hr
    obtain ⟨x, hx, rfl⟩ := List.mem_map.1 hr
    exact valid_padded_row_unpadded_row x (h x hx)
  rw [serialize_eq_padded_file] at hlen ⊢
  obtain ⟨toks, h1, h2⟩ := load_padded_file (rs.map unpadded_row) [] hv (by simp) hlen
  refine ⟨toks, h1, ?_⟩
  have h3 : record_with_trail ∘ unpadded_row = id := funext record_with_trail_unpadded_row
  simpa [List.map_map, h3] using h2

/-! ## A text of `2 ^ 31` bytes or more -/

/-- A key or an answer of `2 ^ 31` bytes or more: the string loop fills the
`string` to `2 ^ 31` entries, and the append that follows (of the next byte, or
of the terminating NUL) does not return, whatever the fuel. -/
theorem tokenize_loop_long_text (w rest : List Nat) (hw : valid_text w)
    (hlen : 2147483648 ≤ w.length) (hrest : at_boundary rest)
    (fuel line column : Nat) (out : List token) :
    tokenize_loop fuel (w ++ rest) line column out = none := by
  obtain ⟨hne, hd, hh⟩ := hw
  rcases fuel with _ | fuel
  · simp [tokenize_loop]
  rcases w with _ | ⟨c, w⟩
  · exact absurd rfl hne
  have hs : isspace c = false := hh
  have hc : is_delim c = false := hd c (by simp)
  have hnd : ¬ (c = 44 ∨ c = 59 ∨ c = 58) := by
    rw [← is_delim_iff]; simp [hc]
  have h44 : ¬ c = 44 := fun h => hnd (Or.inl h)
  have h59 : ¬ c = 59 := fun h => hnd (Or.inr (Or.inl h))
  have h58 : ¬ c = 58 := fun h => hnd (Or.inr (Or.inr h))
  rw [List.cons_append]
  simp only [tokenize_loop, hs, h44, h59, h58, Bool.false_eq_true, if_false]
  rcases hr : read_string (c :: (w ++ rest)) [] column with _ | ⟨s, column1, data1⟩
  · rfl
  · have hscan := read_string_some _ _ _ _ hr
    obtain ⟨c1, h1⟩ := scan_string_word (c :: w) hd rest hrest [] column
    rw [List.cons_append, ← hscan] at h1
    have hs1 : s = c :: w := by
      have := congrArg Prod.fst h1
      simpa using this
    subst hs1
    simp only [da_append_full (c :: w) 0 hlen]

/-- The same for `gamedata_tokenize`. -/
theorem gamedata_tokenize_long_text (w rest : List Nat) (hw : valid_text w)
    (hlen : 2147483648 ≤ w.length) (hrest : at_boundary rest) :
    gamedata_tokenize (w ++ rest) [] = none :=
  tokenize_loop_long_text w rest hw hlen hrest _ _ _ _

theorem valid_text_replicate (n : Nat) (h : 0 < n) : valid_text (List.replicate n 97) := by
  rcases n with _ | n
  · omega
  refine ⟨?_, ?_, ?_⟩
  · simp [List.replicate_succ]
  · intro c hc
    rw [List.eq_of_mem_replicate hc]
    decide
  · simp only [List.replicate_succ, List.headD_cons]
    decide

theorem serialize_one_answer (key answer : List Nat) :
    serialize [⟨key, [answer]⟩] = key ++ (58 :: (answer ++ [59])) := by
  simp [serialize, serialize_record, List.intercalate]

/-- A key of `n` bytes `a`, `n` at least `2 ^ 31`, with the answer `b`: the
record is valid and the tokenizer does not return on its compact form. -/
theorem long_key_never_returns (n : Nat) (hn : 2147483648 ≤ n) :
    valid_record ⟨List.replicate n 97, [[98]]⟩ ∧
    (∀ fuel line column out,
      tokenize_loop fuel (serialize [⟨List.replicate n 97, [[98]]⟩]) line column out = none) ∧
    gamedata_tokenize (serialize [⟨List.replicate n 97, [[98]]⟩]) [] = none := by
  have hv : valid_text (List.replicate n 97) := valid_text_replicate n (by omega)
  have hl : 2147483648 ≤ (List.replicate n 97).length := by rw [List.length_replicate]; exact hn
  have hb : at_boundary (58 :: ([98] ++ [59])) := Or.inr ⟨58, _, rfl, by decide⟩
  refine ⟨⟨by simp, hv, ?_⟩, ?_, ?_⟩
  · intro a ha
    have : a = [98] := by simpa using ha
    subst this
    decide
  · intro fuel line column out
    rw [serialize_one_answer]
    exact tokenize_loop_long_text _ _ hv hl hb _ _ _ _
  · rw [serialize_one_answer]
    exact gamedata_tokenize_long_text _ _ hv hl hb

/-! ## C3: round trip -/

/-- C3, failing input. The record whose key is `2 ^ 31` bytes `a` and whose one
answer is `b` is a record of the claim: it has an answer, and the key and the
answer are non-empty, hold none of `,`, `;`, `:` and do not begin with
whitespace.  On its compact form `a...a:b;` the loop of `gamedata_tokenize` does
not return, whatever the fuel, so the round trip does not succeed: the string
loop appends the `2 ^ 31` bytes of the key, and `DA_APPEND (&s, 0)` then doubles
the `unsigned` capacity `2 ^ 31` to 0 and never leaves the `while` of
`DA_RESERVE`. -/
theorem roundtrip_long_key_never_returns :
    valid_record ⟨List.replicate 2147483648 97, [[98]]⟩ ∧
    (∀ fuel line column out,
      tokenize_loop fuel (serialize [⟨List.replicate 2147483648 97, [[98]]⟩]) line column out =
        none) ∧
    gamedata_tokenize (serialize [⟨List.replicate 2147483648 97, [[98]]⟩]) [] = none :=
  long_key_never_returns 2147483648 (le_refl _)

/-! ## C4: whitespace around the delimiters -/

/-- C4, counterexample. The row `a : b , c ;` loads as one record whose key is
`a` followed by a space and whose answers are `b` and `c`, each followed by a
space; the compact row `a:b,c;` loads with key `a` and answers `b`, `c`.  The
whitespace between a text and the delimiter behind it is stored. -/
theorem spaced_row_differs_from_compact_row :
    (gamedata_tokenize [97, 32, 58, 32, 98, 32, 44, 32, 99, 32, 59] [] =
        some [⟨token_kind.STRING, [97, 32, 0], 1, 1⟩, ⟨token_kind.COLON, [], 1, 3⟩,
          ⟨token_kind.STRING, [98, 32, 0], 1, 5⟩, ⟨token_kind.COMMA, [], 1, 7⟩,
          ⟨token_kind.STRING, [99, 32, 0], 1, 9⟩, ⟨token_kind.SEMICOLON, [], 1, 11⟩] ∧
      gamedata_parse [⟨token_kind.STRING, [97, 32, 0], 1, 1⟩, ⟨token_kind.COLON, [], 1, 3⟩,
          ⟨token_kind.STRING, [98, 32, 0], 1, 5⟩, ⟨token_kind.COMMA, [], 1, 7⟩,
          ⟨token_kind.STRING, [99, 32, 0], 1, 9⟩, ⟨token_kind.SEMICOLON, [], 1, 11⟩] [] =
        some (true, [⟨[97, 32, 0], [[98, 32, 0], [99, 32, 0]]⟩], [])) ∧
    (gamedata_tokenize [97, 58, 98, 44, 99, 59] [] =
        some [⟨token_kind.STRING, [97, 0], 1, 1⟩, ⟨token_kind.COLON, [], 1, 2⟩,
          ⟨token_kind.STRING, [98, 0], 1, 3⟩, ⟨token_kind.COMMA, [], 1, 4⟩,
          ⟨token_kind.STRING, [99, 0], 1, 5⟩, ⟨token_kind.SEMICOLON, [], 1, 6⟩] ∧
      gamedata_parse [⟨token_kind.STRING, [97, 0], 1, 1⟩, ⟨token_kind.COLON, [], 1, 2⟩,
          ⟨token_kind.STRING, [98, 0], 1, 3⟩, ⟨token_kind.COMMA, [], 1, 4⟩,
          ⟨token_kind.STRING, [99, 0], 1, 5⟩, ⟨token_kind.SEMICOLON, [], 1, 6⟩] [] =
        some (true, [⟨[97, 0], [[98, 0], [99, 0]]⟩], [])) ∧
    ([⟨[97, 32, 0], [[98, 32, 0], [99, 32, 0]]⟩] : List query) ≠
      [⟨[97, 0], [[98, 0], [99, 0]]⟩] := by
  refine ⟨⟨by decide, by decide⟩, ⟨by decide, by decide⟩, by decide⟩

theorem length_intercalate_cons_cons (x y : List Nat) (l : List (List Nat)) :
    (List.intercalate [44] (x :: y :: l)).length =
      x.length + 1 + (List.intercalate [44] (y :: l)).length := by
  simp [List.intercalate, List.intersperse]
  omega

theorem length_answers_with_trail :
    ∀ (answers : List padded),
      (List.intercalate [44] (answers.map text_with_trail)).length ≤
        (List.intercalate [44] (answers.map padded_bytes)).length := by
  intro answers
  induction answers with
  | nil => simp [List.intercalate]
  | cons a as ih =>
    rcases as with _ | ⟨a2, as⟩
    · simp [List.intercalate, text_with_trail, padded_bytes]
    · simp only [List.map_cons, length_intercalate_cons_cons] at ih ⊢
      simp only [text_with_trail, padded_bytes, List.length_append] at ih ⊢
      omega

/-- The compact form of the records with the trailing whitespace is no longer
than the file. -/
theorem length_serialize_with_trail (fin : List Nat) :
    ∀ (rows : List padded_row),
      (serialize (rows.map record_with_trail)).length ≤ (padded_file rows fin).length := by
  intro rows
  induction rows with
  | nil => simp [serialize, padded_file]
  | cons r rows ih =>
    have h := length_answers_with_trail r.answers
    simp only [serialize, padded_file, List.map_cons, List.flatten_cons, List.length_append,
      serialize_record, padded_row_bytes, record_with_trail, text_with_trail, padded_bytes,
      List.length_cons, List.length_nil] at ih h ⊢
    omega

/-- C4, amended. For a data file of less than `2 ^ 31` bytes written from rows
with whitespace around the delimiters (any whitespace in front of each key and
each answer, any whitespace between each key or answer and the delimiter that
follows it, and any whitespace `fin` behind the last `;`), tokenizing and
parsing succeeds; the whitespace in front of a key or an answer and at the end
is dropped, and the whitespace between a key or an answer and the delimiter
that follows it is stored as part of it: the records are those of the compact
form of the records with that whitespace appended to the key or answer it
follows. -/
theorem load_whitespace_around_delimiters (rows : List padded_row) (fin : List Nat)
    (hrows : ∀ r ∈ rows, valid_padded_row r) (hfin : ∀ c ∈ fin, isspace c = true)
    (hlen : (padded_file rows fin).length < 2147483648) :
    (∃ toks, gamedata_tokenize (padded_file rows fin) [] = some toks ∧
      gamedata_parse toks [] =
        some (true, (rows.map record_with_trail).map query_of_record, [])) ∧
    (∃ toks, gamedata_tokenize (serialize (rows.map record_with_trail)) [] = some toks ∧
      gamedata_parse toks [] =
        some (true, (rows.map record_with_trail).map query_of_record, [])) := by
  constructor
  · exact load_padded_file rows fin hrows hfin hlen
  · have hv : ∀ r ∈ rows.map record_with_trail, valid_record r := by
      intro r hr
      obtain ⟨x, hx, rfl⟩ := List.mem_map.1 hr
      exact valid_record_with_trail x (hrows x hx)
    exact roundtrip_below_limit _ hv
      (Nat.lt_of_le_of_lt (length_serialize_with_trail fin rows) hlen)

/-- Witness for C4 (amended) on the two-line file `a: b;` / `c : d, e ;`, each
line closed by a newline: it loads as the records `a` with the answer `b`, and
`c` followed by a space with the answers `d` and `e` followed by a space. -/
theorem load_whitespace_around_delimiters_witness :
    ((∀ r ∈ [(⟨⟨[], [97], []⟩, [⟨[32], [98], []⟩]⟩ : padded_row),
        ⟨⟨[10], [99], [32]⟩, [⟨[32], [100], []⟩, ⟨[32], [101], [32]⟩]⟩],
        valid_padded_row r) ∧
      (∀ c ∈ [10], isspace c = true) ∧
      (padded_file [(⟨⟨[], [97], []⟩, [⟨[32], [98], []⟩]⟩ : padded_row),
        ⟨⟨[10], [99], [32]⟩, [⟨[32], [100], []⟩, ⟨[32], [101], [32]⟩]⟩] [10]).length <
          2147483648) ∧
    (∃ toks, gamedata_tokenize
        (padded_file [(⟨⟨[], [97], []⟩, [⟨[32], [98], []⟩]⟩ : padded_row),
          ⟨⟨[10], [99], [32]⟩, [⟨[32], [100], []⟩, ⟨[32], [101], [32]⟩]⟩] [10]) [] =
          some toks ∧
      gamedata_parse toks [] = some (true,
        ([(⟨⟨[], [97], []⟩, [⟨[32], [98], []⟩]⟩ : padded_row),
          ⟨⟨[10], [99], [32]⟩, [⟨[32], [100], []⟩, ⟨[32], [101], [32]⟩]⟩].map
            record_with_trail).map query_of_record, [])) ∧
    (∃ toks, gamedata_tokenize
        (serialize ([(⟨⟨[], [97], []⟩, [⟨[32], [98], []⟩]⟩ : padded_row),
          ⟨⟨[10], [99], [32]⟩, [⟨[32], [100], []⟩, ⟨[32], [101], [32]⟩]⟩].map
            record_with_trail)) [] = some toks ∧
      gamedata_parse toks [] = some (true,
        ([(⟨⟨[], [97], []⟩, [⟨[32], [98], []⟩]⟩ : padded_row),
          ⟨⟨[10], [99], [32]⟩, [⟨[32], [100], []⟩, ⟨[32], [101], [32]⟩]⟩].map
            record_with_trail).map query_of_record, [])) :=
  ⟨⟨by decide, by decide, by decide⟩,
    load_whitespace_around_delimiters _ [10] (by decide) (by decide) (by decide)⟩

/-! ## C7: empty and whitespace-only input -/

/-- On whitespace the loop appends nothing and returns, whatever the length of
the text. -/
theorem tokenize_loop_whitespace (ws : List Nat) (h : ∀ c ∈ ws, isspace c = true) :
    ∀ (fuel line column : Nat) (out : List token), ws.length < fuel →
      tokenize_loop fuel ws line column out = some out := by
  induction ws with
  | nil =>
    intro fuel line column out hf
    rcases fuel with _ | fuel
    · simp at hf
    · simp [tokenize_loop]
  | cons c ws ih =>
    intro fuel line column out hf
    rcases fuel with _ | fuel
    · simp at hf
    · have hc : isspace c = true := h c (by simp)
      have hws : ∀ x ∈ ws, isspace x = true := fun x hx => h x (by simp [hx])
      simp only [List.length_cons] at hf
      simp only [tokenize_loop, hc, if_true]
      by_cases hn : c = 10
      · simp only [hn, if_true]; exact ih hws _ _ _ _ (by omega)
      · simp only [hn, if_false]; exact ih hws _ _ _ _ (by omega)

/-- C7. For every input that consists of whitespace characters only, the
zero-byte input included, `gamedata_tokenize` produces no token and
`gamedata_parse` succeeds on the result with an empty record set and no message. -/
theorem whitespace_only_input (data : List Nat) (h : ∀ c ∈ data, isspace c = true) :
    gamedata_tokenize data [] = some [] ∧ gamedata_parse [] [] = some (true, [], []) := by
  constructor
  · exact tokenize_loop_whitespace data h _ _ _ _ (by omega)
  · rfl

/-- Witness for C7 on the input space, tab, newline, carriage return. -/
theorem whitespace_only_input_witness :
    (∀ c ∈ [32, 9, 10, 13], isspace c = true) ∧
    gamedata_tokenize [32, 9, 10, 13] [] = some [] ∧
    gamedata_parse [] [] = some (true, [], []) :=
  ⟨by decide, whitespace_only_input [32, 9, 10, 13] (by decide)⟩

/-! ## C5: the record set after a failed parse -/

theorem completes_ne_nil (st : row_state) : ¬ completes st [] := by
  rintro ⟨n, h⟩
  simp at h

/-- When no beginning of the tokens completes the row, `run` leaves the records
alone. -/
theorem run_out_of_no_row :
    ∀ (toks : List token) (st : row_state) (out : List query) (err : List diagnostic),
      (¬ ∃ r rest, toks = r ++ rest ∧ completes st (r.map token.kind)) →
      (run st toks out err).2.1 = out := by
  intro toks
  induction toks with
  | nil => intro st out err _; cases st <;> simp [run]
  | cons t ts ih =>
    intro st out err hno
    -- a completion of the rest from the next place is a completion from here
    have step : ∀ (st1 : row_state),
        (∀ ks, completes st1 ks → completes st (t.kind :: ks)) →
        (run st1 ts out err).2.1 = out := by
      intro st1 hc
      apply ih
      rintro ⟨r, rest, h1, h2⟩
      exact hno ⟨t :: r, rest, by simp [h1], by simpa using hc _ h2⟩
    cases st with
    | row_start =>
      by_cases hk : t.kind = token_kind.STRING
      · simp only [run, hk, if_true]
        exact step _ (fun ks ⟨n, hn⟩ => ⟨n, by simp [hk, hn, row_tail]⟩)
      · simp [run, hk]
    | after_key key =>
      by_cases hk : t.kind = token_kind.COLON
      · simp only [run, hk, if_true]
        exact step _ (fun ks ⟨n, hn⟩ => ⟨n, by simp [hk, hn, row_tail]⟩)
      · simp [run, hk]
    | after_colon key =>
      by_cases hk : t.kind = token_kind.STRING
      · simp only [run, hk, if_true]
        exact step _ (fun ks ⟨n, hn⟩ => ⟨n, by simp [hk, hn, row_tail]⟩)
      · simp [run, hk]
    | after_answer q =>
      by_cases hk : t.kind = token_kind.COMMA
      · simp only [run, hk, if_true]
        exact step _ (fun ks ⟨n, hn⟩ =>
          ⟨n + 1, by simp [hk, hn, row_tail, comma_strings_succ]⟩)
      · by_cases hk2 : t.kind = token_kind.SEMICOLON
        · exact absurd ⟨[t], ts, rfl, 0, by simp [hk2, row_tail, comma_strings_zero]⟩ hno
        · simp [run, hk, hk2]
    | after_comma q =>
      by_cases hk : t.kind = token_kind.STRING
      · simp only [run, hk, if_true]
        exact step _ (fun ks ⟨n, hn⟩ => ⟨n, by simp [hk, hn, row_tail]⟩)
      · simp [run, hk]

/-- A failed `run` from a row start has added the records of the whole rows in
front of the first place where no row begins, and nothing else. -/
theorem run_failure_rows (err : List diagnostic) (out1 : List query)
    (err1 : List diagnostic) :
    ∀ (n : Nat) (toks : List token) (out : List query), toks.length ≤ n →
      run row_state.row_start toks out err = (false, out1, err1) →
      ∃ (rows : List (List token)) (rest : List token), toks = rows.flatten ++ rest ∧
        (∀ r ∈ rows, is_row (r.map token.kind)) ∧ out1 = out ++ rows.map record_of_row ∧
        ¬ ∃ r rest1, rest = r ++ rest1 ∧ is_row (r.map token.kind) := by
  intro n
  induction n with
  | zero =>
    intro toks out hlen h
    have : toks = [] := List.length_eq_zero.1 (Nat.le_zero.1 hlen)
    subst this
    simp [run] at h
  | succ n ih =>
    intro toks out hlen h
    by_cases hex : ∃ r rest, toks = r ++ rest ∧ is_row (r.map token.kind)
    · obtain ⟨r, rest, h1, h2⟩ := hex
      have hr : completes row_state.row_start (r.map token.kind) := h2
      have hne : r ≠ [] := by
        rintro rfl
        exact completes_ne_nil _ hr
      subst h1
      rw [run_completes _ _ _ _ _ hr] at h
      have hlen2 : rest.length ≤ n := by
        have : 0 < r.length := List.length_pos.2 hne
        simp at hlen; omega
      obtain ⟨rows, rest2, h3, h4, h5, h6⟩ := ih rest _ hlen2 h
      refine ⟨r :: rows, rest2, by simp [h3], ?_, by simp [h5, finish], h6⟩
      intro x hx
      rcases List.mem_cons.1 hx with rfl | hx
      · exact h2
      · exact h4 x hx
    · refine ⟨[], toks, by simp, by simp, ?_, hex⟩
      have := run_out_of_no_row toks row_state.row_start out err hex
      rw [h] at this
      simpa using this

/-- C5, counterexample. On the tokens of `a:b;c` the parse fails and the record
with key `a` is left in the output record set. -/
theorem failed_parse_keeps_earlier_record :
    gamedata_tokenize [97, 58, 98, 59, 99] [] =
        some [⟨token_kind.STRING, [97, 0], 1, 1⟩, ⟨token_kind.COLON, [], 1, 2⟩,
          ⟨token_kind.STRING, [98, 0], 1, 3⟩, ⟨token_kind.SEMICOLON, [], 1, 4⟩,
          ⟨token_kind.STRING, [99, 0], 1, 5⟩] ∧
    gamedata_parse [⟨token_kind.STRING, [97, 0], 1, 1⟩, ⟨token_kind.COLON, [], 1, 2⟩,
          ⟨token_kind.STRING, [98, 0], 1, 3⟩, ⟨token_kind.SEMICOLON, [], 1, 4⟩,
          ⟨token_kind.STRING, [99, 0], 1, 5⟩] [] =
        some (false, [⟨[97, 0], [[98, 0]]⟩], []) := by
  refine ⟨by decide, by decide⟩

/-- C5, amended. When `gamedata_parse` fails, the output record set is the
initial one followed by the records of the whole rows that come before the
malformed row, in order; the row being built adds no record. -/
theorem failed_parse_record_set (tokens : List token) (out_queries out : List query)
    (err : List diagnostic)
    (h : gamedata_parse tokens out_queries = some (false, out, err)) :
    ∃ (rows : List (List token)) (rest : List token), tokens = rows.flatten ++ rest ∧
      (∀ r ∈ rows, is_row (r.map token.kind)) ∧
      out = out_queries ++ rows.map record_of_row ∧
      ¬ ∃ r rest1, rest = r ++ rest1 ∧ is_row (r.map token.kind) := by
  rw [gamedata_parse_eq_run] at h
  exact run_failure_rows [] out err tokens.length tokens out_queries (le_refl _)
    (Option.some.inj h)

/-- Witness for C5 (amended) on the tokens of `a:b;c`. -/
theorem failed_parse_record_set_witness :
    gamedata_parse [⟨token_kind.STRING, [97, 0], 1, 1⟩, ⟨token_kind.COLON, [], 1, 2⟩,
          ⟨token_kind.STRING, [98, 0], 1, 3⟩, ⟨token_kind.SEMICOLON, [], 1, 4⟩,
          ⟨token_kind.STRING, [99, 0], 1, 5⟩] [] =
        some (false, [⟨[97, 0], [[98, 0]]⟩], []) ∧
    ∃ (rows : List (List token)) (rest : List token),
      [⟨token_kind.STRING, [97, 0], 1, 1⟩, ⟨token_kind.COLON, [], 1, 2⟩,
          ⟨token_kind.STRING, [98, 0], 1, 3⟩, ⟨token_kind.SEMICOLON, [], 1, 4⟩,
          ⟨token_kind.STRING, [99, 0], 1, 5⟩] = rows.flatten ++ rest ∧
      (∀ r ∈ rows, is_row (r.map token.kind)) ∧
      [(⟨[97, 0], [[98, 0]]⟩ : query)] = [] ++ rows.map record_of_row ∧
      ¬ ∃ r rest1, rest = r ++ rest1 ∧ is_row (r.map token.kind) :=
  ⟨by decide, failed_parse_record_set _ [] _ [] (by decide)⟩

/-! ## The place of the first wrong token -/

/-- One token of `run`: a transition, or the message for the kind expected here. -/
theorem run_cons (st : row_state) (t : token) (ts : List token) (out : List query)
    (err : List diagnostic) :
    run st (t :: ts) out err =
      match step st t out with
      | some (st1, out1) => run st1 ts out1 err
      | none => (false, out, err ++ [unexpected (expected st) t]) := by
  cases st with
  | row_start =>
    by_cases hk : t.kind = token_kind.STRING <;> simp [run, step, expected, hk]
  | after_key key =>
    by_cases hk : t.kind = token_kind.COLON <;> simp [run, step, expected, hk]
  | after_colon key =>
    by_cases hk : t.kind = token_kind.STRING <;> simp [run, step, expected, hk]
  | after_answer q =>
    by_cases hk : t.kind = token_kind.COMMA
    · simp [run, step, hk]
    · by_cases hk2 : t.kind = token_kind.SEMICOLON <;> simp [run, step, expected, hk, hk2]
  | after_comma q =>
    by_cases hk : t.kind = token_kind.STRING <;> simp [run, step, expected, hk]

theorem run_advance (more : List token) (err : List diagnostic) :
    ∀ (pre : List token) (st : row_state) (out : List query) (st1 : row_state)
      (out1 : List query), advance st pre out = some (st1, out1) →
      run st (pre ++ more) out err = run st1 more out1 err := by
  intro pre
  induction pre with
  | nil => intro st out st1 out1 h; simp [advance] at h; simp [h.1, h.2]
  | cons t ts ih =>
    intro st out st1 out1 h
    rw [List.cons_append, run_cons]
    rcases hs : step st t out with _ | ⟨st2, out2⟩
    · simp [advance, hs] at h
    · simp only [advance, hs] at h
      exact ih _ _ _ _ h

theorem run_advance_none (more : List token) (err : List diagnostic) :
    ∀ (pre : List token) (st : row_state) (out : List query),
      advance st pre out = none → (run st (pre ++ more) out err).1 = false := by
  intro pre
  induction pre with
  | nil => intro st out h; simp [advance] at h
  | cons t ts ih =>
    intro st out h
    rw [List.cons_append, run_cons]
    rcases hs : step st t out with _ | ⟨st2, out2⟩
    · rfl
    · simp only [advance, hs] at h
      exact ih _ _ h

theorem advance_append :
    ∀ (a b : List token) (st : row_state) (out : List query),
      advance st (a ++ b) out =
        match advance st a out with
        | none => none
        | some (st1, out1) => advance st1 b out1 := by
  intro a
  induction a with
  | nil => intro b st out; simp [advance]
  | cons t ts ih =>
    intro b st out
    rcases hs : step st t out with _ | ⟨st2, out2⟩
    · simp [advance, hs]
    · simp [advance, hs, ih]

/-- From every place some tokens lead to the end of a file. -/
theorem exists_run_ok (st : row_state) (out : List query) (err : List diagnostic) :
    ∃ more : List token, (run st more out err).1 = true := by
  cases st with
  | row_start => exact ⟨[], by simp [run]⟩
  | after_key key =>
    exact ⟨[⟨token_kind.COLON, [], 0, 0⟩, ⟨token_kind.STRING, [], 0, 0⟩,
      ⟨token_kind.SEMICOLON, [], 0, 0⟩], by simp [run]⟩
  | after_colon key =>
    exact ⟨[⟨token_kind.STRING, [], 0, 0⟩, ⟨token_kind.SEMICOLON, [], 0, 0⟩], by simp [run]⟩
  | after_answer q => exact ⟨[⟨token_kind.SEMICOLON, [], 0, 0⟩], by simp [run]⟩
  | after_comma q =>
    exact ⟨[⟨token_kind.STRING, [], 0, 0⟩, ⟨token_kind.SEMICOLON, [], 0, 0⟩], by simp [run]⟩

/-- The tokens whose kinds begin a file are those that `run` gets through. -/
theorem viable_iff_advance (pre : List token) (out : List query) :
    viable (pre.map token.kind) ↔ ∃ st1 out1, advance row_state.row_start pre out =
      some (st1, out1) := by
  constructor
  · rintro ⟨more, hm⟩
    rcases ha : advance row_state.row_start pre out with _ | ⟨st1, out1⟩
    · exfalso
      have h1 := run_advance_none (more.map (fun k => (⟨k, [], 0, 0⟩ : token))) [] pre _ _ ha
      have h2 := (run_ok_iff_is_file (pre ++ more.map (fun k => (⟨k, [], 0, 0⟩ : token)))
        out []).2 (by simpa [Function.comp_def] using hm)
      rw [h1] at h2
      cases h2
    · exact ⟨st1, out1, rfl⟩
  · rintro ⟨st1, out1, ha⟩
    obtain ⟨more, hm⟩ := exists_run_ok st1 out1 []
    rw [← run_advance more [] pre _ _ _ _ ha] at hm
    exact ⟨more.map token.kind, by simpa using (run_ok_iff_is_file _ _ _).1 hm⟩

theorem step_place (st st1 : row_state) (t : token) (out out1 : List query)
    (rev : List token_kind) (hp : place st rev) (hs : step st t out = some (st1, out1)) :
    place st1 (t.kind :: rev) := by
  cases st with
  | row_start =>
    by_cases hk : t.kind = token_kind.STRING
    · simp [step, hk] at hs
      obtain ⟨rfl, _⟩ := hs
      rcases hp with rfl | ⟨tl, rfl⟩ <;> simp [place, hk]
    · simp [step, hk] at hs
  | after_key key =>
    by_cases hk : t.kind = token_kind.COLON
    · simp [step, hk] at hs
      obtain ⟨rfl, _⟩ := hs
      simp [place, hk]
    · simp [step, hk] at hs
  | after_colon key =>
    by_cases hk : t.kind = token_kind.STRING
    · simp [step, hk] at hs
      obtain ⟨rfl, _⟩ := hs
      obtain ⟨tl, rfl⟩ := hp
      simp [place, hk]
    · simp [step, hk] at hs
  | after_answer q =>
    by_cases hk : t.kind = token_kind.COMMA
    · simp [step, hk] at hs
      obtain ⟨rfl, _⟩ := hs
      simp [place, hk]
    · by_cases hk2 : t.kind = token_kind.SEMICOLON
      · simp [step, hk2] at hs
        obtain ⟨rfl, _⟩ := hs
        simp [place, hk2]
      · simp [step, hk, hk2] at hs
  | after_comma q =>
    by_cases hk : t.kind = token_kind.STRING
    · simp [step, hk] at hs
      obtain ⟨rfl, _⟩ := hs
      obtain ⟨tl, rfl⟩ := hp
      simp [place, hk]
    · simp [step, hk] at hs

theorem advance_place :
    ∀ (pre : List token) (st : row_state) (out : List query) (rev : List token_kind)
      (st1 : row_state) (out1 : List query), place st rev →
      advance st pre out = some (st1, out1) →
      place st1 ((pre.map token.kind).reverse ++ rev) := by
  intro pre
  induction pre with
  | nil => intro st out rev st1 out1 hp h; simp [advance] at h; simpa [← h.1] using hp
  | cons t ts ih =>
    intro st out rev st1 out1 hp h
    rcases hs : step st t out with _ | ⟨st2, out2⟩
    · simp [advance, hs] at h
    · simp only [advance, hs] at h
      have := ih st2 out2 (t.kind :: rev) st1 out1 (step_place _ _ _ _ _ _ hp hs) h
      simpa using this

theorem expected_of_place (st : row_state) (ks : List token_kind)
    (hp : place st ks.reverse) : expected st = expected_after ks := by
  unfold expected_after
  cases st with
  | row_start => rcases hp with h | ⟨tl, h⟩ <;> simp [h, expected]
  | after_key key => rcases hp with h | ⟨tl, h⟩ <;> simp [h, expected]
  | after_colon key => obtain ⟨tl, h⟩ := hp; simp [h, expected]
  | after_answer q => obtain ⟨tl, h | h⟩ := hp <;> simp [h, expected]
  | after_comma q => obtain ⟨tl, h⟩ := hp; simp [h, expected]

/-! ## C10: the message for a token of the wrong kind -/

/-- C10. When the kinds of the tokens `pre` begin a file of the grammar and the
token `t` that follows is the first to deviate from it, `gamedata_parse` returns
`false` and writes exactly one message: it carries the line and column of `t`,
the kind expected at that point (STRING at a row start and after COLON or COMMA,
COLON after a key, SEMICOLON after an answer) and the kind of `t`. -/
theorem wrong_kind_message (pre : List token) (t : token) (post : List token)
    (out_queries : List query) (h1 : viable (pre.map token.kind))
    (h2 : ¬ viable (pre.map token.kind ++ [t.kind])) :
    ∃ out, gamedata_parse (pre ++ t :: post) out_queries =
      some (false, out, [⟨t.line, t.column, expected_after (pre.map token.kind), t.kind⟩]) := by
  obtain ⟨st1, out1, ha⟩ := (viable_iff_advance pre out_queries).1 h1
  have hstep : step st1 t out1 = none := by
    rcases hs : step st1 t out1 with _ | ⟨st2, out2⟩
    · rfl
    · exfalso
      apply h2
      have : viable ((pre ++ [t]).map token.kind) :=
        (viable_iff_advance (pre ++ [t]) out_queries).2
          ⟨st2, out2, by rw [advance_append, ha]; simp [advance, hs]⟩
      simpa using this
  have hp := advance_place pre row_state.row_start out_queries [] st1 out1 (Or.inl rfl) ha
  rw [List.append_nil] at hp
  refine ⟨out1, ?_⟩
  rw [gamedata_parse_eq_run, run_advance (t :: post) [] pre _ _ _ _ ha, run_cons, hstep,
    expected_of_place st1 _ hp]
  simp [unexpected]

/-- Witness for C10 on the tokens of `a:b:c;`: the second colon, at line 1 and
column 4, stands where a SEMICOLON (or a COMMA) is due. -/
theorem wrong_kind_message_witness :
    (viable ([⟨token_kind.STRING, [97, 0], 1, 1⟩, ⟨token_kind.COLON, [], 1, 2⟩,
        ⟨token_kind.STRING, [98, 0], 1, 3⟩].map token.kind) ∧
      ¬ viable ([⟨token_kind.STRING, [97, 0], 1, 1⟩, ⟨token_kind.COLON, [], 1, 2⟩,
        ⟨token_kind.STRING, [98, 0], 1, 3⟩].map token.kind ++
          [(⟨token_kind.COLON, [], 1, 4⟩ : token).kind])) ∧
    ∃ out, gamedata_parse
        ([⟨token_kind.STRING, [97, 0], 1, 1⟩, ⟨token_kind.COLON, [], 1, 2⟩,
          ⟨token_kind.STRING, [98, 0], 1, 3⟩] ++ ⟨token_kind.COLON, [], 1, 4⟩ ::
          [⟨token_kind.STRING, [99, 0], 1, 5⟩, ⟨token_kind.SEMICOLON, [], 1, 6⟩]) [] =
      some (false, out, [⟨(⟨token_kind.COLON, [], 1, 4⟩ : token).line,
        (⟨token_kind.COLON, [], 1, 4⟩ : token).column,
        expected_after ([⟨token_kind.STRING, [97, 0], 1, 1⟩, ⟨token_kind.COLON, [], 1, 2⟩,
          ⟨token_kind.STRING, [98, 0], 1, 3⟩].map token.kind),
        (⟨token_kind.COLON, [], 1, 4⟩ : token).kind⟩]) :=
  have hv : viable ([⟨token_kind.STRING, [97, 0], 1, 1⟩, ⟨token_kind.COLON, [], 1, 2⟩,
      ⟨token_kind.STRING, [98, 0], 1, 3⟩].map token.kind) :=
    (viable_iff_advance _ []).2 ⟨_, _, rfl⟩
  have hn : ¬ viable ([⟨token_kind.STRING, [97, 0], 1, 1⟩, ⟨token_kind.COLON, [], 1, 2⟩,
      ⟨token_kind.STRING, [98, 0], 1, 3⟩].map token.kind ++
        [(⟨token_kind.COLON, [], 1, 4⟩ : token).kind]) := by
    intro h
    obtain ⟨st1, out1, ha⟩ := (viable_iff_advance
      [⟨token_kind.STRING, [97, 0], 1, 1⟩, ⟨token_kind.COLON, [], 1, 2⟩,
        ⟨token_kind.STRING, [98, 0], 1, 3⟩, ⟨token_kind.COLON, [], 1, 4⟩] []).1 h
    simp [advance, step] at ha
  ⟨⟨hv, hn⟩, wrong_kind_message _ _ _ [] hv hn⟩

/-! ## C9: the end of the tokens inside a row -/

/-- When the tokens end inside a row, `gamedata_parse` returns `false` and has
written no message: `token_expect` returns at the end of the tokens before it
reaches `FERROR`. -/
theorem end_of_tokens_writes_nothing (tokens : List token) (out_queries : List query)
    (h1 : viable (tokens.map token.kind)) (h2 : ¬ is_file (tokens.map token.kind)) :
    ∃ out, gamedata_parse tokens out_queries = some (false, out, []) := by
  obtain ⟨st1, out1, ha⟩ := (viable_iff_advance tokens out_queries).1 h1
  have hr := run_advance [] [] tokens _ _ _ _ ha
  rw [List.append_nil] at hr
  refine ⟨out1, ?_⟩
  rw [gamedata_parse_eq_run, hr]
  cases st1 with
  | row_start =>
    exfalso
    apply h2
    rw [← run_ok_iff_is_file tokens out_queries [], hr]
    simp [run]
  | after_key key => simp [run]
  | after_colon key => simp [run]
  | after_answer q => simp [run]
  | after_comma q => simp [run]

/-- C9, the code at the input `a:b;` newline `badrow`. The tokens are those of
the row `a:b;` and the STRING `badrow` at line 2, column 1; `gamedata_parse`
returns `false`, the record of the first row is in the record set, and no
message at all has been written: no position and no "end of input". -/
theorem dangling_row_reports_nothing :
    gamedata_tokenize [97, 58, 98, 59, 10, 98, 97, 100, 114, 111, 119] [] =
        some [⟨token_kind.STRING, [97, 0], 1, 1⟩, ⟨token_kind.COLON, [], 1, 2⟩,
          ⟨token_kind.STRING, [98, 0], 1, 3⟩, ⟨token_kind.SEMICOLON, [], 1, 4⟩,
          ⟨token_kind.STRING, [98, 97, 100, 114, 111, 119, 0], 2, 1⟩] ∧
    gamedata_parse [⟨token_kind.STRING, [97, 0], 1, 1⟩, ⟨token_kind.COLON, [], 1, 2⟩,
          ⟨token_kind.STRING, [98, 0], 1, 3⟩, ⟨token_kind.SEMICOLON, [], 1, 4⟩,
          ⟨token_kind.STRING, [98, 97, 100, 114, 111, 119, 0], 2, 1⟩] [] =
        some (false, [⟨[97, 0], [[98, 0]]⟩], []) := by
  refine ⟨by decide, by decide⟩

/-! ## C8: the position of a token behind a string with a newline -/

/-- C8, the code at the input `a:b` newline `c:d;`. The string loop counts the
newline inside the text `b\nc` as one more column and leaves the line counter
alone, so the colon behind it, the first character of line 2 but one (line 2,
column 2 of the text), is tagged line 1, column 6, and so are the tokens after it
tagged with line 1. -/
theorem newline_in_string_shifts_positions :
    gamedata_tokenize [97, 58, 98, 10, 99, 58, 100, 59] [] =
        some [⟨token_kind.STRING, [97, 0], 1, 1⟩, ⟨token_kind.COLON, [], 1, 2⟩,
          ⟨token_kind.STRING, [98, 10, 99, 0], 1, 3⟩, ⟨token_kind.COLON, [], 1, 6⟩,
          ⟨token_kind.STRING, [100, 0], 1, 7⟩, ⟨token_kind.SEMICOLON, [], 1, 8⟩] ∧
    line_of [97, 58, 98, 10, 99, 58, 100, 59] 5 = 2 ∧
    column_of [97, 58, 98, 10, 99, 58, 100, 59] 5 = 2 := by
  refine ⟨by decide, by decide, by decide⟩

/-! ## The tokens of a text cut at a delimiter -/

/-- A delimiter behind the text stops the string loop where the end of the text
stopped it. -/
theorem scan_string_append_delim (d : Nat) (hd : is_delim d = true) (post : List Nat) :
    ∀ (data s : List Nat) (column : Nat),
      scan_string (data ++ d :: post) s column =
        ((scan_string data s column).1, (scan_string data s column).2.1,
          (scan_string data s column).2.2 ++ d :: post) := by
  intro data
  induction data with
  | nil => intro s column; simp [scan_string, (is_delim_iff d).1 hd]
  | cons c data ih =>
    intro s column
    by_cases hc : c = 44 ∨ c = 59 ∨ c = 58
    · simp [scan_string, hc]
    · simp [scan_string, hc, ih]

/-- The tokens of a text in which a delimiter stands at some place are the
tokens of the text in front of the delimiter followed by the tokens scanned from
the delimiter on. -/
theorem tokens_of_split_delim (d : Nat) (hd : is_delim d = true) (post : List Nat) :
    ∀ (n : Nat) (pre : List Nat), pre.length ≤ n → ∀ (line column : Nat),
      ∃ line1 column1, tokens_of (pre ++ d :: post) line column =
        tokens_of pre line column ++ tokens_of (d :: post) line1 column1 := by
  intro n
  induction n with
  | zero =>
    intro pre hlen line column
    have : pre = [] := List.length_eq_zero.1 (Nat.le_zero.1 hlen)
    subst this
    exact ⟨line, column, by simp [tokens_of_nil]⟩
  | succ n ih =>
    intro pre hlen line column
    rcases pre with _ | ⟨x, pre⟩
    · exact ⟨line, column, by simp [tokens_of_nil]⟩
    · have hlen1 : pre.length ≤ n := by simpa using hlen
      rw [List.cons_append, tokens_of_cons x (pre ++ d :: post), tokens_of_cons x pre]
      by_cases hs : isspace x = true
      · by_cases hn : x = 10
        · simp only [hs, hn, if_true]; exact ih pre hlen1 _ _
        · simp only [hs, hn, if_true, if_false]; exact ih pre hlen1 _ _
      · by_cases hx : is_delim x = true
        · obtain ⟨l1, c1, h1⟩ := ih pre hlen1 line (uadd column 1)
          exact ⟨l1, c1, by simp [hs, hx, h1]⟩
        · have hnd : ¬ (x = 44 ∨ x = 59 ∨ x = 58) := by rw [← is_delim_iff]; exact hx
          have hlt := scan_string_length_lt x pre [] column hnd
          have happ := scan_string_append_delim d hd post (x :: pre) [] column
          rw [List.cons_append] at happ
          obtain ⟨l1, c1, h1⟩ := ih (scan_string (x :: pre) [] column).2.2
            (by simp at hlt; omega) line (scan_string (x :: pre) [] column).2.1
          refine ⟨l1, c1, ?_⟩
          simp only [hs, hx, happ, h1]
          simp

/-- A text with a character that is no whitespace has a token. -/
theorem tokens_of_ne_nil :
    ∀ (data : List Nat), (∃ c ∈ data, isspace c = false) → ∀ (line column : Nat),
      tokens_of data line column ≠ [] := by
  intro data
  induction data with
  | nil => rintro ⟨c, hc, _⟩; simp at hc
  | cons x data ih =>
    rintro ⟨c, hc, hcs⟩ line column
    rw [tokens_of_cons]
    by_cases hs : isspace x = true
    · have hex : ∃ c ∈ data, isspace c = false := by
        rcases List.mem_cons.1 hc with rfl | h
        · rw [hs] at hcs; cases hcs
        · exact ⟨c, h, hcs⟩
      by_cases hn : x = 10
      · simp only [hs, hn, if_true]; exact ih hex _ _
      · simp only [hs, hn, if_true, if_false]; exact ih hex _ _
    · by_cases hx : is_delim x = true <;> simp [hs, hx]

theorem scan_string_rest_subset :
    ∀ (data s : List Nat) (column : Nat) (x : Nat),
      x ∈ (scan_string data s column).2.2 → x ∈ data := by
  intro data
  induction data with
  | nil => intro s column x h; simp [scan_string] at h
  | cons c data ih =>
    intro s column x h
    by_cases hc : c = 44 ∨ c = 59 ∨ c = 58
    · simpa [scan_string, hc] using h
    · simp only [scan_string, hc, if_false] at h
      exact List.mem_cons_of_mem _ (ih _ _ _ h)

/-- A text without `;` has no SEMICOLON token. -/
theorem tokens_of_no_semicolon :
    ∀ (n : Nat) (data : List Nat), data.length ≤ n → 59 ∉ data → ∀ (line column : Nat),
      ∀ t ∈ tokens_of data line column, t.kind ≠ token_kind.SEMICOLON := by
  intro n
  induction n with
  | zero =>
    intro data hlen _ line column t ht
    have : data = [] := List.length_eq_zero.1 (Nat.le_zero.1 hlen)
    subst this
    simp [tokens_of_nil] at ht
  | succ n ih =>
    intro data hlen hno line column t ht
    rcases data with _ | ⟨x, data⟩
    · simp [tokens_of_nil] at ht
    · have hlen1 : data.length ≤ n := by simpa using hlen
      have hno1 : 59 ∉ data := fun h => hno (List.mem_cons_of_mem _ h)
      have hx59 : x ≠ 59 := fun h => hno (by simp [h])
      rw [tokens_of_cons] at ht
      by_cases hs : isspace x = true
      · by_cases hn : x = 10
        · simp only [hs, hn, if_true] at ht; exact ih data hlen1 hno1 _ _ t ht
        · simp only [hs, hn, if_true, if_false] at ht; exact ih data hlen1 hno1 _ _ t ht
      · by_cases hx : is_delim x = true
        · simp only [hs, hx, if_true] at ht
          rcases List.mem_cons.1 ht with rfl | ht
          · simp only [delim_kind, hx59, if_false]
            by_cases h44 : x = 44 <;> simp [h44]
          · exact ih data hlen1 hno1 _ _ t ht
        · have hnd : ¬ (x = 44 ∨ x = 59 ∨ x = 58) := by rw [← is_delim_iff]; exact hx
          have hlt := scan_string_length_lt x data [] column hnd
          simp only [hs, hx] at ht
          rcases List.mem_cons.1 ht with rfl | ht
          · simp
          · refine ih _ (by simp at hlt; omega) ?_ _ _ t ht
            intro h
            exact hno (scan_string_rest_subset _ _ _ _ h)

/-- A text is without `;` or has a last `;`. -/
theorem last_semicolon_split :
    ∀ (l : List Nat), 59 ∉ l ∨ ∃ p q, l = p ++ 59 :: q ∧ 59 ∉ q := by
  intro l
  induction l with
  | nil => left; simp
  | cons x l ih =>
    rcases ih with h | ⟨p, q, rfl, hq⟩
    · by_cases hx : x = 59
      · right; exact ⟨[], l, by simp [hx], h⟩
      · left; simp [h, Ne.symm hx]
    · right; exact ⟨x :: p, q, by simp, hq⟩

/-! ## C6: texts that the grammar rejects -/

theorem run_split (A B : List token) (st : row_state) (out : List query)
    (err : List diagnostic) (h : (run st (A ++ B) out err).1 = true) :
    ∃ st1 out1, advance st A out = some (st1, out1) ∧ (run st1 B out1 err).1 = true := by
  rcases ha : advance st A out with _ | ⟨st1, out1⟩
  · rw [run_advance_none B err A st out ha] at h; cases h
  · exact ⟨st1, out1, rfl, by rw [← run_advance B err A st out st1 out1 ha]; exact h⟩

theorem run_cons_ok (st : row_state) (t : token) (ts : List token) (out : List query)
    (err : List diagnostic) (h : (run st (t :: ts) out err).1 = true) :
    ∃ st1 out1, step st t out = some (st1, out1) ∧ (run st1 ts out1 err).1 = true := by
  rw [run_cons] at h
  rcases hs : step st t out with _ | ⟨st1, out1⟩
  · rw [hs] at h; cases h
  · rw [hs] at h; exact ⟨st1, out1, rfl, h⟩

/-- The place that a transition leads to, by the kind of the token. -/
theorem step_target (st st1 : row_state) (t : token) (out out1 : List query)
    (hs : step st t out = some (st1, out1)) :
    (st1 = row_state.row_start ↔ t.kind = token_kind.SEMICOLON) ∧
    (t.kind = token_kind.COMMA → ∃ q, st1 = row_state.after_comma q) ∧
    (st = row_state.row_start → ∃ key, st1 = row_state.after_key key) := by
  cases st with
  | row_start =>
    by_cases hk : t.kind = token_kind.STRING
    · simp [step, hk] at hs; obtain ⟨rfl, _⟩ := hs; simp [hk]
    · simp [step, hk] at hs
  | after_key key =>
    by_cases hk : t.kind = token_kind.COLON
    · simp [step, hk] at hs; obtain ⟨rfl, _⟩ := hs; simp [hk]
    · simp [step, hk] at hs
  | after_colon key =>
    by_cases hk : t.kind = token_kind.STRING
    · simp [step, hk] at hs; obtain ⟨rfl, _⟩ := hs; simp [hk]
    · simp [step, hk] at hs
  | after_answer q =>
    by_cases hk : t.kind = token_kind.COMMA
    · simp [step, hk] at hs; obtain ⟨rfl, _⟩ := hs; simp [hk]
    · by_cases hk2 : t.kind = token_kind.SEMICOLON
      · simp [step, hk2] at hs; obtain ⟨rfl, _⟩ := hs; simp [hk2]
      · simp [step, hk, hk2] at hs
  | after_comma q =>
    by_cases hk : t.kind = token_kind.STRING
    · simp [step, hk] at hs; obtain ⟨rfl, _⟩ := hs; simp [hk]
    · simp [step, hk] at hs

/-- Without a SEMICOLON token no row is closed. -/
theorem run_no_semicolon :
    ∀ (B : List token) (st : row_state) (out : List query) (err : List diagnostic),
      (∀ t ∈ B, t.kind ≠ token_kind.SEMICOLON) → (B ≠ [] ∨ st ≠ row_state.row_start) →
      (run st B out err).1 = false := by
  intro B
  induction B with
  | nil =>
    intro st out err _ h
    rcases h with h | h
    · exact absurd rfl h
    · cases st <;> simp [run] at h ⊢
  | cons t ts ih =>
    intro st out err hno _
    rw [run_cons]
    rcases hs : step st t out with _ | ⟨st1, out1⟩
    · rfl
    · have h1 : st1 ≠ row_state.row_start := fun h =>
        hno t (by simp) ((step_target _ _ _ _ _ hs).1.1 h)
      exact ih st1 out1 err (fun x hx => hno x (by simp [hx])) (Or.inr h1)

theorem run_after_comma_fail (q : query) (B : List token) (out : List query)
    (err : List diagnostic)
    (h : B = [] ∨ ∃ t ts, B = t :: ts ∧ t.kind ≠ token_kind.STRING) :
    (run (row_state.after_comma q) B out err).1 = false := by
  rcases h with rfl | ⟨t, ts, rfl, hk⟩ <;> simp [run, *]

theorem run_after_key_fail (key : List Nat) (B : List token) (out : List query)
    (err : List diagnostic)
    (h : B = [] ∨ ∃ t ts, B = t :: ts ∧ t.kind ≠ token_kind.COLON) :
    (run (row_state.after_key key) B out err).1 = false := by
  rcases h with rfl | ⟨t, ts, rfl, hk⟩ <;> simp [run, *]

theorem delim_kind_ne_string (d : Nat) : delim_kind d ≠ token_kind.STRING := by
  unfold delim_kind
  by_cases h1 : d = 44
  · simp [h1]
  · by_cases h2 : d = 59 <;> simp [h1, h2]

/-- A text with a row that misses its closing `;` is rejected. -/
theorem reject_missing_semicolon (text : List Nat) (h : missing_semicolon text) :
    (run row_state.row_start (tokens_of text 1 1) [] []).1 = false := by
  obtain ⟨pre, post, rfl, hno, c, hc, hcs⟩ := h
  rcases last_semicolon_split pre with hp | ⟨p, q, rfl, hq⟩
  · apply run_no_semicolon
    · refine tokens_of_no_semicolon _ _ (le_refl _) ?_ _ _
      simp [hp, hno]
    · exact Or.inl (tokens_of_ne_nil _ ⟨c, by simp [hc], hcs⟩ _ _)
  · have hno2 : 59 ∉ q ++ post := by simp [hq, hno]
    obtain ⟨l1, c1, h1⟩ := tokens_of_split_delim 59 (by decide) (q ++ post) _ p (le_refl _) 1 1
    have htext : p ++ 59 :: q ++ post = p ++ 59 :: (q ++ post) := by simp
    rw [htext, h1, tokens_of_delim 59 (by decide)]
    cases hr : (run row_state.row_start (tokens_of p 1 1 ++
        ⟨delim_kind 59, [], l1, c1⟩ :: tokens_of (q ++ post) l1 (uadd c1 1)) [] []).1
    · rfl
    · exfalso
      obtain ⟨st1, out1, _, h2⟩ := run_split _ _ _ _ _ hr
      obtain ⟨st2, out2, h3, h4⟩ := run_cons_ok _ _ _ _ _ h2
      have hst2 : st2 = row_state.row_start := (step_target _ _ _ _ _ h3).1.2 rfl
      subst hst2
      have := run_no_semicolon (tokens_of (q ++ post) l1 (uadd c1 1)) row_state.row_start out2 []
        (tokens_of_no_semicolon _ _ (le_refl _) hno2 _ _)
        (Or.inl (tokens_of_ne_nil _ ⟨c, by simp [hc], hcs⟩ _ _))
      rw [this] at h4
      cases h4

/-- A text with a `,` that no key or answer follows is rejected. -/
theorem reject_dangling_comma (text : List Nat) (h : dangling_comma text) :
    (run row_state.row_start (tokens_of text 1 1) [] []).1 = false := by
  obtain ⟨pre, ws, post, rfl, hws, hpost⟩ := h
  obtain ⟨l1, c1, h1⟩ := tokens_of_split_delim 44 (by decide) (ws ++ post) _ pre (le_refl _) 1 1
  obtain ⟨l2, c2, h2⟩ := tokens_of_spaces ws hws post l1 (uadd c1 1)
  rw [h1, tokens_of_delim 44 (by decide), h2]
  cases hr : (run row_state.row_start (tokens_of pre 1 1 ++
      ⟨delim_kind 44, [], l1, c1⟩ :: tokens_of post l2 c2) [] []).1
  · rfl
  · exfalso
    obtain ⟨st1, out1, _, h3⟩ := run_split _ _ _ _ _ hr
    obtain ⟨st2, out2, h4, h5⟩ := run_cons_ok _ _ _ _ _ h3
    obtain ⟨q, rfl⟩ := (step_target _ _ _ _ _ h4).2.1 rfl
    have hB : tokens_of post l2 c2 = [] ∨
        ∃ t ts, tokens_of post l2 c2 = t :: ts ∧ t.kind ≠ token_kind.STRING := by
      rcases hpost with rfl | ⟨d, r, rfl, hd⟩
      · left; exact tokens_of_nil _ _
      · right
        exact ⟨_, _, tokens_of_delim d hd r l2 c2, delim_kind_ne_string d⟩
    rw [run_after_comma_fail q _ out2 [] hB] at h5
    cases h5

/-- A text with a row whose key is not followed by `:` is rejected. -/
theorem reject_key_without_colon (text : List Nat) (h : key_without_colon text) :
    (run row_state.row_start (tokens_of text 1 1) [] []).1 = false := by
  obtain ⟨pre, ws, key, post, rfl, hpre, hws, hkey, hpost⟩ := h
  have hb : at_boundary post := by
    rcases hpost with rfl | ⟨r, rfl | rfl⟩
    · exact Or.inl rfl
    · exact Or.inr ⟨44, r, rfl, by decide⟩
    · exact Or.inr ⟨59, r, rfl, by decide⟩
  -- the tokens from the key on: the key, then no COLON
  have hrow : ∀ (line column : Nat) (out : List query),
      (run row_state.row_start (tokens_of (ws ++ (key ++ post)) line column) out []).1 =
        false := by
    intro line column out
    obtain ⟨l2, c2, h2⟩ := tokens_of_spaces ws hws (key ++ post) line column
    obtain ⟨c3, h3⟩ := tokens_of_word key hkey post hb l2 c2
    rw [h2, h3]
    have hB : tokens_of post l2 c3 = [] ∨
        ∃ t ts, tokens_of post l2 c3 = t :: ts ∧ t.kind ≠ token_kind.COLON := by
      rcases hpost with rfl | ⟨r, rfl | rfl⟩
      · left; exact tokens_of_nil _ _
      · right
        exact ⟨_, _, tokens_of_delim 44 (by decide) r l2 c3, by simp [delim_kind]⟩
      · right
        exact ⟨_, _, tokens_of_delim 59 (by decide) r l2 c3, by simp [delim_kind]⟩
    simp only [run, if_true]
    exact run_after_key_fail _ _ _ _ hB
  rcases hpre with rfl | ⟨p, rfl⟩
  · exact hrow 1 1 []
  · obtain ⟨l1, c1, h1⟩ := tokens_of_split_delim 59 (by decide) (ws ++ (key ++ post)) _ p
      (le_refl _) 1 1
    have htext : p ++ [59] ++ (ws ++ (key ++ post)) = p ++ 59 :: (ws ++ (key ++ post)) := by simp
    rw [htext, h1, tokens_of_delim 59 (by decide)]
    cases hr : (run row_state.row_start (tokens_of p 1 1 ++
      ⟨delim_kind 59, [], l1, c1⟩ :: tokens_of (ws ++ (key ++ post)) l1 (uadd c1 1)) [] []).1
    · rfl
    · exfalso
      obtain ⟨st1, out1, _, h3⟩ := run_split _ _ _ _ _ hr
      obtain ⟨st2, out2, h4, h5⟩ := run_cons_ok _ _ _ _ _ h3
      have hst2 : st2 = row_state.row_start := (step_target _ _ _ _ _ h4).1.2 rfl
      subst hst2
      rw [hrow] at h5
      cases h5

/-- Grammar rejection on texts of less than `2 ^ 31` bytes: for every such text
that contains a row missing its closing `;` (a character that is no whitespace
behind the last `;`, or no `;` at all), or a `,` whose next character that is no
whitespace is a delimiter or the end of the input, or a row whose key is not
followed by `:`, `gamedata_tokenize` followed by `gamedata_parse` returns
`false`. -/
theorem grammar_rejection_below_limit (text : List Nat)
    (h : missing_semicolon text ∨ dangling_comma text ∨ key_without_colon text)
    (hlen : text.length < 2147483648) :
    ∃ toks res, gamedata_tokenize text [] = some toks ∧
      gamedata_parse toks [] = some res ∧ res.1 = false := by
  refine ⟨tokens_of text 1 1, run row_state.row_start (tokens_of text 1 1) [] [],
    by rw [gamedata_tokenize_bounded _ _ hlen (by simp; omega)]; rfl,
    gamedata_parse_eq_run _ _, ?_⟩
  rcases h with h | h | h
  · exact reject_missing_semicolon text h
  · exact reject_dangling_comma text h
  · exact reject_key_without_colon text h

/-- The input `a : b , ;`, whose comma is followed by a space and the semicolon,
is rejected. -/
theorem grammar_rejection_example :
    ∃ toks res, gamedata_tokenize [97, 32, 58, 32, 98, 32, 44, 32, 59] [] = some toks ∧
      gamedata_parse toks [] = some res ∧ res.1 = false :=
  have hd : dangling_comma [97, 32, 58, 32, 98, 32, 44, 32, 59] :=
    ⟨[97, 32, 58, 32, 98, 32], [32], [59], rfl, by decide, Or.inr ⟨59, [], rfl, by decide⟩⟩
  grammar_rejection_below_limit _ (Or.inr (Or.inl hd)) (by decide)

/-- A text of `n` bytes `a`, `n` at least `2 ^ 31`: the row misses its `;`, and
the tokenizer does not return on it. -/
theorem long_row_never_returns (n : Nat) (hn : 2147483648 ≤ n) :
    missing_semicolon (List.replicate n 97) ∧
    (∀ fuel line column out,
      tokenize_loop fuel (List.replicate n 97) line column out = none) ∧
    gamedata_tokenize (List.replicate n 97) [] = none := by
  have hv : valid_text (List.replicate n 97) := valid_text_replicate n (by omega)
  have hl : 2147483648 ≤ (List.replicate n 97).length := by rw [List.length_replicate]; exact hn
  refine ⟨⟨[], List.replicate n 97, rfl, ?_, 97, ?_, by decide⟩, ?_, ?_⟩
  · intro h59
    have := List.eq_of_mem_replicate h59
    omega
  · exact List.mem_replicate.2 ⟨by omega, rfl⟩
  · intro fuel line column out
    have := tokenize_loop_long_text _ [] hv hl (Or.inl rfl) fuel line column out
    rwa [List.append_nil] at this
  · have := gamedata_tokenize_long_text _ [] hv hl (Or.inl rfl)
    rwa [List.append_nil] at this

/-- C6, failing input. The text of `2 ^ 31` bytes `a` holds no `;` and a
character that is no whitespace, so it contains a row missing its closing `;`.
On it the loop of `gamedata_tokenize` does not return, whatever the fuel, so the
load does not fail: the string loop appends the `2 ^ 31` bytes, and
`DA_APPEND (&s, 0)` then doubles the `unsigned` capacity `2 ^ 31` to 0 and never
leaves the `while` of `DA_RESERVE`. -/
theorem unclosed_long_row_never_returns :
    missing_semicolon (List.replicate 2147483648 97) ∧
    (∀ fuel line column out,
      tokenize_loop fuel (List.replicate 2147483648 97) line column out = none) ∧
    gamedata_tokenize (List.replicate 2147483648 97) [] = none :=
  long_row_never_returns 2147483648 (le_refl _)

/-! ## C15: every parsed record has a key and an answer -/

/-- The record of a row has the text of the row's first token, a STRING, as its
key and at least one answer. -/
theorem record_of_row_key_values (r : List token) (h : is_row (r.map token.kind)) :
    (∃ t ∈ r, t.kind = token_kind.STRING ∧ (record_of_row r).key = t.s) ∧
      (record_of_row r).values ≠ [] := by
  obtain ⟨n, hn⟩ := h
  rcases r with _ | ⟨t, _ | ⟨t2, _ | ⟨t3, r⟩⟩⟩ <;> simp at hn
  obtain ⟨hk, hk2, hk3, _⟩ := hn
  refine ⟨⟨t, by simp, hk, ?_⟩, ?_⟩
  · simp [record_of_row, strings_cons, hk]
  · simp [record_of_row, strings_cons, hk, hk2, hk3]

/-- C15. Every record in the record set of a successful `gamedata_parse`
(started on an empty record set) has its one key, which is the text of a STRING
token of the input, and a non-empty list of accepted answers. -/
theorem parsed_record_key_and_answers (tokens : List token) (out : List query)
    (err : List diagnostic) (h : gamedata_parse tokens [] = some (true, out, err)) :
    ∀ q ∈ out, (∃ t ∈ tokens, t.kind = token_kind.STRING ∧ q.key = t.s) ∧ q.values ≠ [] := by
  rw [gamedata_parse_eq_run] at h
  rcases run_sound _ _ _ _ _ _ (Option.some.inj h) with ⟨_, ⟨_, rows, h1, h2, h3⟩ | ⟨hst, _⟩⟩
  · intro q hq
    rw [h3, List.nil_append] at hq
    obtain ⟨r, hr, rfl⟩ := List.mem_map.1 hq
    obtain ⟨⟨t, ht, hk, hkey⟩, hv⟩ := record_of_row_key_values r (h2 r hr)
    refine ⟨⟨t, ?_, hk, hkey⟩, hv⟩
    rw [h1]
    exact List.mem_flatten.2 ⟨r, hr, ht⟩
  · exact absurd rfl hst

/-- Witness for C15 on the tokens of `a:b,c;d:e;`. -/
theorem parsed_record_key_and_answers_witness :
    gamedata_parse
      [⟨token_kind.STRING, [97, 0], 1, 1⟩, ⟨token_kind.COLON, [], 1, 2⟩,
        ⟨token_kind.STRING, [98, 0], 1, 3⟩, ⟨token_kind.COMMA, [], 1, 4⟩,
        ⟨token_kind.STRING, [99, 0], 1, 5⟩, ⟨token_kind.SEMICOLON, [], 1, 6⟩,
        ⟨token_kind.STRING, [100, 0], 1, 7⟩, ⟨token_kind.COLON, [], 1, 8⟩,
        ⟨token_kind.STRING, [101, 0], 1, 9⟩, ⟨token_kind.SEMICOLON, [], 1, 10⟩] [] =
      some (true, [⟨[97, 0], [[98, 0], [99, 0]]⟩, ⟨[100, 0], [[101, 0]]⟩], []) ∧
    ∀ q ∈ [(⟨[97, 0], [[98, 0], [99, 0]]⟩ : query), ⟨[100, 0], [[101, 0]]⟩],
      (∃ t ∈ [(⟨token_kind.STRING, [97, 0], 1, 1⟩ : token), ⟨token_kind.COLON, [], 1, 2⟩,
        ⟨token_kind.STRING, [98, 0], 1, 3⟩, ⟨token_kind.COMMA, [], 1, 4⟩,
        ⟨token_kind.STRING, [99, 0], 1, 5⟩, ⟨token_kind.SEMICOLON, [], 1, 6⟩,
        ⟨token_kind.STRING, [100, 0], 1, 7⟩, ⟨token_kind.COLON, [], 1, 8⟩,
        ⟨token_kind.STRING, [101, 0], 1, 9⟩, ⟨token_kind.SEMICOLON, [], 1, 10⟩],
        t.kind = token_kind.STRING ∧ q.key = t.s) ∧ q.values ≠ [] :=
  ⟨by decide, parsed_record_key_and_answers _ _ [] (by decide)⟩

/-! ## C17: delimiter tokens and delimiter characters -/

/-- The string loop leaves every delimiter of the text in the stream. -/
theorem scan_string_rest_delims :
    ∀ (data s : List Nat) (column : Nat),
      (scan_string data s column).2.2.filter is_delim = data.filter is_delim := by
  intro data
  induction data with
  | nil => intro s column; simp [scan_string]
  | cons c data ih =>
    intro s column
    by_cases hc : c = 44 ∨ c = 59 ∨ c = 58
    · simp [scan_string, hc]
    · have hd : is_delim c = false := by
        cases h : is_delim c
        · rfl
        · exact absurd ((is_delim_iff c).1 h) hc
      simp [scan_string, hc, ih, List.filter_cons, hd]

theorem delimiter_token_delim (d : Nat) (s : List Nat) (line column : Nat) :
    delimiter_token ⟨delim_kind d, s, line, column⟩ = true := by
  simp [delimiter_token, delim_kind_ne_string]

theorem delimiter_token_string (s : List Nat) (line column : Nat) :
    delimiter_token ⟨token_kind.STRING, s, line, column⟩ = false := by
  simp [delimiter_token]

/-- The kinds of the delimiter tokens of a text are the kinds of its delimiter
characters, one for one and in order. -/
theorem tokens_of_delims :
    ∀ (n : Nat) (data : List Nat), data.length ≤ n → ∀ (line column : Nat),
      ((tokens_of data line column).filter delimiter_token).map token.kind =
        (data.filter is_delim).map delim_kind := by
  intro n
  induction n with
  | zero =>
    intro data hlen line column
    have : data = [] := List.length_eq_zero.1 (Nat.le_zero.1 hlen)
    subst this
    simp [tokens_of_nil]
  | succ n ih =>
    intro data hlen line column
    rcases data with _ | ⟨x, data⟩
    · simp [tokens_of_nil]
    · have hlen1 : data.length ≤ n := by simpa using hlen
      rw [tokens_of_cons]
      by_cases hs : isspace x = true
      · have hx : is_delim x = false := not_is_delim_of_isspace hs
        by_cases hn : x = 10
        · subst hn
          simp only [hs, if_true]
          rw [ih data hlen1]
          simp [List.filter_cons, hx]
        · simp only [hs, hn, if_true, if_false]
          rw [ih data hlen1]
          simp [List.filter_cons, hx]
      · have hs1 : isspace x = false := by simpa using hs
        by_cases hx : is_delim x = true
        · simp [hs1, hx, List.filter_cons, delimiter_token_delim, ih data hlen1]
        · have hnd : ¬ (x = 44 ∨ x = 59 ∨ x = 58) := by rw [← is_delim_iff]; exact hx
          have hlt := scan_string_length_lt x data [] column hnd
          have hx1 : is_delim x = false := by simpa using hx
          have hrec := ih (scan_string (x :: data) [] column).2.2 (by simp at hlt; omega) line
            (scan_string (x :: data) [] column).2.1
          rw [scan_string_rest_delims] at hrec
          simp only [hs1, hx1, Bool.false_eq_true, if_false, List.filter_cons,
            delimiter_token_string]
          rw [hrec]
          simp [List.filter_cons, hx1]

/-- On every input of less than `2 ^ 31` bytes the delimiter that ends a STRING
token is not consumed by it: the COMMA, SEMICOLON and COLON tokens that
`gamedata_tokenize` produces are, one for one and in order, the tokens of the
characters `,`, `;` and `:` of the input, and there are as many delimiter tokens
as delimiter characters. -/
theorem delimiter_tokens_below_limit (data : List Nat) (hlen : data.length < 2147483648) :
    ∃ toks, gamedata_tokenize data [] = some toks ∧
      (toks.filter delimiter_token).map token.kind = (data.filter is_delim).map delim_kind ∧
      (toks.filter delimiter_token).length = (data.filter is_delim).length := by
  have h := tokens_of_delims data.length data (le_refl _) 1 1
  refine ⟨tokens_of data 1 1,
    by rw [gamedata_tokenize_bounded _ _ hlen (by simp; omega)]; rfl, h, ?_⟩
  have := congrArg List.length h
  simpa using this

/-- A text of `n` bytes `a`, `n` at least `2 ^ 31`, closed by `;`: the text has
one delimiter character, and the tokenizer does not return on it. -/
theorem long_text_with_delimiter_never_returns (n : Nat) (hn : 2147483648 ≤ n) :
    (List.replicate n 97 ++ [59]).filter is_delim = [59] ∧
    (∀ fuel line column out,
      tokenize_loop fuel (List.replicate n 97 ++ [59]) line column out = none) ∧
    gamedata_tokenize (List.replicate n 97 ++ [59]) [] = none := by
  have hv : valid_text (List.replicate n 97) := valid_text_replicate n (by omega)
  have hl : 2147483648 ≤ (List.replicate n 97).length := by rw [List.length_replicate]; exact hn
  have hb : at_boundary [59] := Or.inr ⟨59, [], rfl, by decide⟩
  refine ⟨?_, fun fuel line column out => tokenize_loop_long_text _ _ hv hl hb _ _ _ _,
    gamedata_tokenize_long_text _ _ hv hl hb⟩
  have hf : (List.replicate n 97).filter is_delim = [] := by
    rw [List.filter_eq_nil_iff]
    intro a ha
    rw [List.eq_of_mem_replicate ha]
    decide
  rw [List.filter_append, hf]
  rfl

/-- C17, failing input. The text of `2 ^ 31` bytes `a` followed by `;` has one
delimiter character, but the loop of `gamedata_tokenize` does not return on it,
whatever the fuel, and the SEMICOLON token is never produced: the string loop
appends the `2 ^ 31` bytes and puts the `;` back, and `DA_APPEND (&s, 0)` then
doubles the `unsigned` capacity `2 ^ 31` to 0 and never leaves the `while` of
`DA_RESERVE`, before any token is appended to the token array. -/
theorem delimiter_behind_long_text_never_tokenized :
    (List.replicate 2147483648 97 ++ [59]).filter is_delim = [59] ∧
    (∀ fuel line column out,
      tokenize_loop fuel (List.replicate 2147483648 97 ++ [59]) line column out = none) ∧
    gamedata_tokenize (List.replicate 2147483648 97 ++ [59]) [] = none :=
  long_text_with_delimiter_never_returns 2147483648 (le_refl _)

/-! ## C20: the STRING tokens -/

/-- The string loop stops at the end of the text or at a delimiter. -/
theorem scan_string_rest_boundary :
    ∀ (data s : List Nat) (column : Nat), at_boundary (scan_string data s column).2.2 := by
  intro data
  induction data with
  | nil => intro s column; exact Or.inl (by simp [scan_string])
  | cons c data ih =>
    intro s column
    by_cases hc : c = 44 ∨ c = 59 ∨ c = 58
    · exact Or.inr ⟨c, data, by simp [scan_string, hc], (is_delim_iff c).2 hc⟩
    · simp only [scan_string, hc, if_false]
      exact ih _ _

/-- The string loop appends characters that are no delimiters. -/
theorem scan_string_text :
    ∀ (data s : List Nat) (column : Nat),
      ∃ w, (scan_string data s column).1 = s ++ w ∧ ∀ c ∈ w, is_delim c = false := by
  intro data
  induction data with
  | nil => intro s column; exact ⟨[], by simp [scan_string], by simp⟩
  | cons c data ih =>
    intro s column
    by_cases hc : c = 44 ∨ c = 59 ∨ c = 58
    · exact ⟨[], by simp [scan_string, hc], by simp⟩
    · have hd : is_delim c = false := by
        cases h : is_delim c
        · rfl
        · exact absurd ((is_delim_iff c).1 h) hc
      obtain ⟨w, h1, h2⟩ := ih (s ++ [c]) (uadd column 1)
      refine ⟨c :: w, by simp [scan_string, hc, h1], ?_⟩
      intro x hx
      rcases List.mem_cons.1 hx with rfl | hx
      · exact hd
      · exact h2 x hx

theorem no_adjacent_strings_cons (t : token) (ts : List token)
    (h1 : no_adjacent_strings ts)
    (h2 : t.kind = token_kind.STRING → ∀ b rest, ts = b :: rest → b.kind ≠ token_kind.STRING) :
    no_adjacent_strings (t :: ts) := by
  intro pre a b post h ha
  rcases pre with _ | ⟨p, pre⟩
  · simp at h
    obtain ⟨rfl, rfl⟩ := h
    exact h2 ha b post rfl
  · simp at h
    obtain ⟨_, rfl⟩ := h
    exact h1 pre a b post rfl ha

/-- At the end of the text or at a delimiter the next token is no STRING. -/
theorem tokens_of_boundary_head (data : List Nat) (h : at_boundary data) (line column : Nat) :
    ∀ b rest, tokens_of data line column = b :: rest → b.kind ≠ token_kind.STRING := by
  intro b rest hb
  rcases h with rfl | ⟨d, r, rfl, hd⟩
  · simp [tokens_of_nil] at hb
  · rw [tokens_of_delim d hd] at hb
    simp at hb
    rw [← hb.1]
    exact delim_kind_ne_string d

/-- The STRING tokens of a text hold a valid text each, and none follows another. -/
theorem tokens_of_strings :
    ∀ (n : Nat) (data : List Nat), data.length ≤ n → ∀ (line column : Nat),
      (∀ t ∈ tokens_of data line column, t.kind = token_kind.STRING → string_token_text t) ∧
        no_adjacent_strings (tokens_of data line column) := by
  intro n
  induction n with
  | zero =>
    intro data hlen line column
    have : data = [] := List.length_eq_zero.1 (Nat.le_zero.1 hlen)
    subst this
    refine ⟨by simp [tokens_of_nil], ?_⟩
    intro pre a b post h
    simp [tokens_of_nil] at h
  | succ n ih =>
    intro data hlen line column
    rcases data with _ | ⟨x, data⟩
    · refine ⟨by simp [tokens_of_nil], ?_⟩
      intro pre a b post h
      simp [tokens_of_nil] at h
    · have hlen1 : data.length ≤ n := by simpa using hlen
      rw [tokens_of_cons]
      by_cases hs : isspace x = true
      · by_cases hn : x = 10
        · subst hn
          simp only [hs, if_true]
          exact ih data hlen1 _ _
        · simp only [hs, hn, if_true, if_false]
          exact ih data hlen1 _ _
      · have hs1 : isspace x = false := by simpa using hs
        by_cases hx : is_delim x = true
        · simp only [hs1, hx, Bool.false_eq_true, if_false, if_true]
          obtain ⟨h1, h2⟩ := ih data hlen1 line (uadd column 1)
          refine ⟨?_, no_adjacent_strings_cons _ _ h2 ?_⟩
          · intro t ht hk
            rcases List.mem_cons.1 ht with rfl | ht
            · exact absurd hk (delim_kind_ne_string x)
            · exact h1 t ht hk
          · intro hk
            exact absurd hk (delim_kind_ne_string x)
        · have hnd : ¬ (x = 44 ∨ x = 59 ∨ x = 58) := by rw [← is_delim_iff]; exact hx
          have hx1 : is_delim x = false := by simpa using hx
          have hlt := scan_string_length_lt x data [] column hnd
          simp only [hs1, hx1, Bool.false_eq_true, if_false]
          obtain ⟨h1, h2⟩ := ih (scan_string (x :: data) [] column).2.2
            (by simp at hlt; omega) line (scan_string (x :: data) [] column).2.1
          refine ⟨?_, no_adjacent_strings_cons _ _ h2 ?_⟩
          · intro t ht hk
            rcases List.mem_cons.1 ht with rfl | ht
            · obtain ⟨w, hw1, hw2⟩ := scan_string_text data ([] ++ [x]) (uadd column 1)
              refine ⟨x :: w, ?_, by simp, ?_, by simpa using hs1⟩
              · simp [scan_string, hnd] at hw1 ⊢
                rw [hw1]
                rfl
              · intro c hc
                rcases List.mem_cons.1 hc with rfl | hc
                · exact hx1
                · exact hw2 c hc
            · exact h1 t ht hk
          · intro _
            exact tokens_of_boundary_head _ (scan_string_rest_boundary _ _ _) _ _

/-- C20. For every input, every STRING token that `gamedata_tokenize` produces
holds a non-empty text (followed by its NUL) that starts with a character that
is no whitespace and contains none of `,`, `;`, `:`, and no two STRING tokens
are adjacent: a STRING token is followed by a delimiter token or is the last.
The tokens are produced for every input of less than `2 ^ 31` bytes. -/
theorem string_tokens_invariant (data : List Nat) :
    (∀ toks, gamedata_tokenize data [] = some toks →
      (∀ t ∈ toks, t.kind = token_kind.STRING → string_token_text t) ∧
      no_adjacent_strings toks) ∧
    (data.length < 2147483648 → ∃ toks, gamedata_tokenize data [] = some toks) := by
  obtain ⟨h1, h2⟩ := tokens_of_strings data.length data (le_refl _) 1 1
  constructor
  · intro toks h
    have := gamedata_tokenize_some _ _ _ h
    rw [List.nil_append] at this
    subst this
    exact ⟨h1, h2⟩
  · intro hlen
    exact ⟨_, gamedata_tokenize_bounded _ _ hlen (by simp; omega)⟩

/-- Witness for C20 on the input `a b:c,d;e`: the tokens are produced, the texts
of the STRING tokens are `a b`, `c`, `d` and `e`, and a delimiter token stands
between any two of them. -/
theorem string_tokens_invariant_witness :
    [97, 32, 98, 58, 99, 44, 100, 59, 101].length < 2147483648 ∧
    ∃ toks, gamedata_tokenize [97, 32, 98, 58, 99, 44, 100, 59, 101] [] = some toks ∧
      (∀ t ∈ toks, t.kind = token_kind.STRING → string_token_text t) ∧
      no_adjacent_strings toks :=
  have h := string_tokens_invariant [97, 32, 98, 58, 99, 44, 100, 59, 101]
  ⟨by decide, (h.2 (by decide)).elim fun toks ht => ⟨toks, ht, h.1 toks ht⟩⟩

/-! ## The loops of the sampler -/

/-- The initialising loop is inside the buffer and leaves `p` in every cell `p`
from `i` on. -/
theorem init_loop_spec :
    ∀ (steps i : Nat) (idx : List Nat), idx.length = i + steps →
      ∃ idx1, init_loop steps i idx = some idx1 ∧ idx1.length = idx.length ∧
        (∀ p, p < i → idx1[p]? = idx[p]?) ∧
        (∀ p, i ≤ p → p < i + steps → idx1[p]? = some p) := by
  intro steps
  induction steps with
  | zero =>
    intro i idx _
    exact ⟨idx, rfl, rfl, fun _ _ => rfl, fun p h1 h2 => by omega⟩
  | succ steps ih =>
    intro i idx hlen
    have hi : i < idx.length := by omega
    obtain ⟨idx1, h1, h2, h3, h4⟩ := ih (i + 1) (idx.set i i) (by simp; omega)
    refine ⟨idx1, by simp [init_loop, hi, h1], by simpa using h2, ?_, ?_⟩
    · intro p hp
      rw [h3 p (by omega), List.getElem?_set_ne (by omega)]
    · intro p hp1 hp2
      by_cases hpi : p = i
      · subst hpi
        rw [h3 p (by omega), List.getElem?_set_self hi]
      · exact h4 p (by omega) (by omega)

/-- The initialising loop turns the buffer into the identity `0, 1, ..., len - 1`,
whatever the buffer held. -/
theorem init_loop_range (len : Nat) (cells : Nat → Nat) :
    init_loop len 0 ((List.range len).map cells) = some (List.range len) := by
  obtain ⟨idx1, h1, h2, _, h4⟩ := init_loop_spec len 0 ((List.range len).map cells) (by simp)
  rw [h1]
  congr 1
  apply List.ext_getElem?
  intro p
  by_cases hp : p < len
  · rw [h4 p (by omega) (by omega), List.getElem?_range hp]
  · have hl : idx1.length = len := by simpa using h2
    rw [List.getElem?_eq_none (by omega), List.getElem?_eq_none (by simp; omega)]

/-- A swap inside the buffer is defined, permutes the buffer and changes only
the two cells. -/
theorem swap_idx_spec (idx : List Nat) (i j : Nat) (hi : i < idx.length)
    (hj : j < idx.length) :
    ∃ idx1, swap_idx idx i j = some idx1 ∧ idx1.length = idx.length ∧ idx1.Perm idx ∧
      (∀ p, p ≠ i → p ≠ j → idx1[p]? = idx[p]?) ∧ idx1[i]? = idx[j]? := by
  refine ⟨(idx.set i idx[j]).set j idx[i], ?_, by simp, ?_, ?_, ?_⟩
  · simp [swap_idx, List.getElem?_eq_getElem hi, List.getElem?_eq_getElem hj]
  · rw [List.perm_iff_count]
    intro x
    rw [List.count_set _ _ _ _ (by simpa using hj), List.count_set _ _ _ _ hi]
    have hj2 : j < (idx.set i idx[j]).length := by simpa using hj
    have hset : (idx.set i idx[j])[j] = idx[j] := by
      rw [List.getElem_set]
      split <;> rfl
    rw [hset]
    have hcount : (if idx[i] == x then 1 else 0) ≤ idx.count x := by
      by_cases hx : idx[i] = x
      · subst hx
        simp
      · simp [hx]
    omega
  · intro p hpi hpj
    rw [List.getElem?_set_ne (Ne.symm hpj), List.getElem?_set_ne (Ne.symm hpi)]
  · by_cases hij : i = j
    · subst hij
      rw [List.getElem?_set_self (by simpa using hi), List.getElem?_eq_getElem hi]
    · rw [List.getElem?_set_ne (Ne.symm hij), List.getElem?_set_self hi,
        List.getElem?_eq_getElem hj]

/-- The shuffle loop stays inside the buffer, never divides by zero, makes one
call of `rand` per turn, permutes the buffer and leaves the cells below `i`
alone. -/
theorem shuffle_loop_spec (len : Nat) (rand : Nat → Nat) :
    ∀ (steps i calls : Nat) (idx : List Nat), idx.length = len → i + steps ≤ len →
      ∃ idx1, shuffle_loop len rand steps i calls idx = some (idx1, calls + steps) ∧
        idx1.length = len ∧ idx1.Perm idx ∧ ∀ p, p < i → idx1[p]? = idx[p]? := by
  intro steps
  induction steps with
  | zero =>
    intro i calls idx hlen _
    exact ⟨idx, rfl, hlen, List.Perm.refl _, fun _ _ => rfl⟩
  | succ steps ih =>
    intro i calls idx hlen hle
    have hi : i < len := by omega
    have hdiv : len - i ≠ 0 := by omega
    have hj : i + rand calls % (len - i) < len := by
      have := Nat.mod_lt (rand calls) (Nat.pos_of_ne_zero hdiv)
      omega
    obtain ⟨idx2, h1, h2, h3, h4, _⟩ := swap_idx_spec idx i (i + rand calls % (len - i))
      (by omega) (by omega)
    obtain ⟨idx1, h5, h6, h7, h8⟩ := ih (i + 1) (calls + 1) idx2 (by omega) (by omega)
    refine ⟨idx1, ?_, h6, h7.trans h3, ?_⟩
    · simp only [shuffle_loop, hdiv, if_false, h1, h5]
      congr 2
      omega
    · intro p hp
      rw [h8 p (by omega), h4 p (by omega) (by omega)]

/-- The asking loop on a buffer of record indices is inside the buffer and the
records, asks one question per turn and presents the cells from `i` on. -/
theorem ask_loop_spec (q : List query) (idx : List Nat) (user : Nat → query → Bool)
    (hidx : ∀ x ∈ idx, x < q.length) :
    ∀ (steps i asked sum : Nat) (presented : List Nat), i + steps ≤ idx.length →
      ∃ sum1, ask_loop q idx user steps i asked sum presented =
        some (asked + steps, sum1, presented ++ (idx.drop i).take steps) := by
  intro steps
  induction steps with
  | zero => intro i asked sum presented _; exact ⟨sum, by simp [ask_loop]⟩
  | succ steps ih =>
    intro i asked sum presented hle
    have hi : i < idx.length := by omega
    have hr : idx[i] < q.length := hidx _ (List.getElem_mem _)
    obtain ⟨sum1, h1⟩ := ih (i + 1) (asked + 1)
      (uadd sum (if user asked q[idx[i]] then 1 else 0)) (presented ++ [idx[i]]) (by omega)
    refine ⟨sum1, ?_⟩
    have e1 : asked + 1 + steps = asked + (steps + 1) := by omega
    have e2 : presented ++ [idx[i]] ++ (idx.drop (i + 1)).take steps =
        presented ++ (idx.drop i).take (steps + 1) := by
      rw [List.drop_eq_getElem_cons hi, List.take_succ_cons, List.append_assoc]
      rfl
    rw [e1, e2] at h1
    simp only [ask_loop, List.getElem?_eq_getElem hi, List.getElem?_eq_getElem hr, h1]

/-- The overflow loop on a record set that is not empty is inside the records,
never divides by zero and presents each draw reduced modulo the record count. -/
theorem extra_loop_spec (q : List query) (rand : Nat → Nat) (user : Nat → query → Bool)
    (hq : q.length ≠ 0) :
    ∀ (steps calls asked sum : Nat) (presented : List Nat),
      ∃ sum1, extra_loop q rand user steps calls asked sum presented =
        some (sum1, presented ++
          (List.range steps).map (fun t => rand (calls + t) % q.length)) := by
  intro steps
  induction steps with
  | zero => intro calls asked sum presented; exact ⟨sum, by simp [extra_loop]⟩
  | succ steps ih =>
    intro calls asked sum presented
    have hr : rand calls % q.length < q.length := Nat.mod_lt _ (Nat.pos_of_ne_zero hq)
    obtain ⟨sum1, h1⟩ := ih (calls + 1) (asked + 1)
      (uadd sum (if user asked q[rand calls % q.length] then 1 else 0))
      (presented ++ [rand calls % q.length])
    refine ⟨sum1, ?_⟩
    simp only [extra_loop, hq, if_false, List.getElem?_eq_getElem hr, h1]
    rw [List.range_succ_eq_map]
    simp [Function.comp_def, Nat.add_assoc, Nat.add_comm 1]

/-- The shuffle of `ask_queries`, on the identity: defined, with one call of
`rand` per turn, and a permutation of `0, ..., len - 1`. -/
theorem shuffle_range (len n : Nat) (rand : Nat → Nat) :
    ∃ idx, shuffle_loop len rand (min n len) 0 0 (List.range len) = some (idx, min n len) ∧
      idx.length = len ∧ idx.Perm (List.range len) := by
  obtain ⟨idx, h1, h2, h3, _⟩ := shuffle_loop_spec len rand (min n len) 0 0 (List.range len)
    (by simp) (by omega)
  exact ⟨idx, by simpa using h1, h2, h3⟩

/-- With the index buffer allocated, `ask_queries` is defined and presents
`sample`, whatever the records hold, the buffer held and the user answers. -/
theorem ask_queries_eq_sample (q : List query) (n : Nat) (cells : Nat → Nat)
    (rand : Nat → Nat) (user : Nat → query → Bool) :
    ∃ sum, ask_queries q n (some cells) rand user = some (sum, sample q.length n rand) := by
  by_cases h0 : q.length = 0 ∨ n = 0
  · exact ⟨0, by simp only [ask_queries, sample, h0, if_true]⟩
  · have hq : q.length ≠ 0 := fun h => h0 (Or.inl h)
    obtain ⟨idx, h1, h2, h3⟩ := shuffle_range q.length n rand
    have hk : (if n < q.length then n else q.length) = min n q.length := by
      split <;> omega
    have hidx : ∀ x ∈ idx, x < q.length := by
      intro x hx
      exact List.mem_range.1 (h3.mem_iff.1 hx)
    obtain ⟨sum1, h4⟩ := ask_loop_spec q idx user hidx (min n q.length) 0 0 0 []
      (by omega)
    simp only [List.drop_zero, List.nil_append, Nat.zero_add] at h4
    obtain ⟨sum2, h5⟩ := extra_loop_spec q rand user hq (n - q.length) (min n q.length)
      (min n q.length) sum1 (idx.take (min n q.length))
    by_cases hn : n > q.length
    · refine ⟨sum2, ?_⟩
      simp only [ask_queries, h0, if_false, hk, init_loop_range, h1, h4, hn, if_true, h5,
        sample]
    · refine ⟨sum1, ?_⟩
      have hz : n - q.length = 0 := by omega
      simp only [ask_queries, h0, if_false, hk, init_loop_range, h1, h4, hn, sample, hz]
      simp

/-- The shape of `sample` for a record set that is not empty and a request that
is not zero: the first `min n len` cells of a permutation of the identity, then
one entry per draw of the overflow. -/
theorem sample_shape (len n : Nat) (rand : Nat → Nat) (hlen : len ≠ 0) (hn : n ≠ 0) :
    ∃ idx : List Nat, idx.length = len ∧ idx.Perm (List.range len) ∧
      sample len n rand = idx.take (min n len) ++
        (List.range (n - len)).map (fun t => rand (min n len + t) % len) := by
  obtain ⟨idx, h1, h2, h3⟩ := shuffle_range len n rand
  refine ⟨idx, h2, h3, ?_⟩
  have h0 : ¬ (len = 0 ∨ n = 0) := by simp [hlen, hn]
  simp only [sample, h0, if_false, h1]

theorem sample_zero (len n : Nat) (rand : Nat → Nat) (h : len = 0 ∨ n = 0) :
    sample len n rand = [] := by
  simp only [sample, h, if_true]

/-! ## C11: the number of indices presented -/

/-- C11. For every record count and requested count `n`, `ask_queries` presents
no record and returns 0 when the record count or `n` is 0, whatever the other
is; and when there is a record and `malloc` returns the index buffer, it presents
exactly `n` record indices. -/
theorem presented_count (q : List query) (n : Nat) (malloc : Option (Nat → Nat))
    (rand : Nat → Nat) (user : Nat → query → Bool) :
    (q.length = 0 ∨ n = 0 → ask_queries q n malloc rand user = some (0, [])) ∧
    (malloc.isSome = true → 0 < q.length →
      ∃ sum presented, ask_queries q n malloc rand user = some (sum, presented) ∧
        presented.length = n) := by
  constructor
  · intro h
    simp only [ask_queries, h, if_true]
  · intro hm hq
    obtain ⟨cells, rfl⟩ := Option.isSome_iff_exists.1 hm
    obtain ⟨sum, hs⟩ := ask_queries_eq_sample q n cells rand user
    refine ⟨sum, _, hs, ?_⟩
    by_cases hn : n = 0
    · rw [sample_zero _ _ _ (Or.inr hn), hn]; rfl
    · obtain ⟨idx, h1, _, h3⟩ := sample_shape q.length n rand (by omega) hn
      rw [h3]
      simp [h1]
      omega

/-- Witness for C11: no record and request 3; three records and request 0; three
records and request 7. -/
theorem presented_count_witness :
    ((([] : List query).length = 0 ∨ 3 = 0) ∧
      ask_queries [] 3 (some (fun _ => 9)) (fun c => 7 * c + 3) (fun _ _ => true) =
        some (0, [])) ∧
    (Option.isSome (some (fun _ : Nat => 9)) = true ∧
      0 < (List.replicate 3 (⟨[], []⟩ : query)).length ∧
      ∃ sum presented,
        ask_queries (List.replicate 3 ⟨[], []⟩) 7 (some (fun _ => 9)) (fun c => 7 * c + 3)
          (fun _ _ => true) = some (sum, presented) ∧ presented.length = 7) :=
  ⟨⟨by decide, (presented_count [] 3 (some (fun _ => 9)) (fun c => 7 * c + 3)
      (fun _ _ => true)).1 (by decide)⟩,
    rfl, by decide,
    (presented_count (List.replicate 3 ⟨[], []⟩) 7 (some (fun _ => 9)) (fun c => 7 * c + 3)
      (fun _ _ => true)).2 rfl (by decide)⟩

/-! ## C12: the fresh pass is without repetition -/

/-- C12. When there is a record and `malloc` returns the index buffer, then for
every requested count `n` and every stream of draws the first `min n len` indices
that `ask_queries` presents are pairwise distinct and below the record count
`len`; when `n` is at least `len` they are a permutation of `0, ..., len - 1`. -/
theorem fresh_pass_distinct (q : List query) (n : Nat) (malloc : Option (Nat → Nat))
    (rand : Nat → Nat) (user : Nat → query → Bool) (hm : malloc.isSome = true)
    (hq : 0 < q.length) :
    ∃ sum presented, ask_queries q n malloc rand user = some (sum, presented) ∧
      (presented.take (min n q.length)).Nodup ∧
      (∀ x ∈ presented.take (min n q.length), x < q.length) ∧
      (q.length ≤ n → (presented.take (min n q.length)).Perm (List.range q.length)) := by
  obtain ⟨cells, rfl⟩ := Option.isSome_iff_exists.1 hm
  obtain ⟨sum, hs⟩ := ask_queries_eq_sample q n cells rand user
  refine ⟨sum, _, hs, ?_⟩
  by_cases hn : n = 0
  · rw [sample_zero _ _ _ (Or.inr hn), hn]
    refine ⟨by simp, by simp, ?_⟩
    intro h
    omega
  · obtain ⟨idx, h1, h2, h3⟩ := sample_shape q.length n rand (by omega) hn
    have htake : (sample q.length n rand).take (min n q.length) =
        idx.take (min n q.length) := by
      rw [h3]
      exact List.take_left' (by simp [h1])
    rw [htake]
    have hnd : idx.Nodup := h2.nodup_iff.2 (List.nodup_range _)
    refine ⟨hnd.sublist (List.take_sublist _ _), ?_, ?_⟩
    · intro x hx
      exact List.mem_range.1 (h2.mem_iff.1 (List.mem_of_mem_take hx))
    · intro hle
      have : min n q.length = idx.length := by omega
      rw [this, List.take_length]
      exact h2

/-- Witness for C12 on five records and request 5. -/
theorem fresh_pass_distinct_witness :
    (Option.isSome (some (fun _ : Nat => 9)) = true ∧
      0 < (List.replicate 5 (⟨[], []⟩ : query)).length) ∧
    ∃ sum presented,
      ask_queries (List.replicate 5 ⟨[], []⟩) 5 (some (fun _ => 9)) (fun c => 7 * c + 3)
        (fun _ _ => true) = some (sum, presented) ∧
      (presented.take (min 5 (List.replicate 5 (⟨[], []⟩ : query)).length)).Nodup ∧
      (∀ x ∈ presented.take (min 5 (List.replicate 5 (⟨[], []⟩ : query)).length),
        x < (List.replicate 5 (⟨[], []⟩ : query)).length) ∧
      ((List.replicate 5 (⟨[], []⟩ : query)).length ≤ 5 →
        (presented.take (min 5 (List.replicate 5 (⟨[], []⟩ : query)).length)).Perm
          (List.range (List.replicate 5 (⟨[], []⟩ : query)).length)) :=
  ⟨⟨rfl, by decide⟩,
    fresh_pass_distinct (List.replicate 5 ⟨[], []⟩) 5 (some (fun _ => 9))
      (fun c => 7 * c + 3) (fun _ _ => true) rfl (by decide)⟩

/-! ## C13: the overflow -/

/-- C13. When there is a record, `malloc` returns the index buffer and the
requested count `n` exceeds the record count `len`, the indices presented are a
permutation of `0, ..., len - 1` followed by `n - len` further indices; the
entry number `t` of this tail is the draw number `len + t` reduced modulo `len`,
so it is below `len` and depends on no other draw. -/
theorem overflow_tail (q : List query) (n : Nat) (malloc : Option (Nat → Nat))
    (rand : Nat → Nat) (user : Nat → query → Bool) (hm : malloc.isSome = true)
    (hq : 0 < q.length) (hn : q.length < n) :
    ∃ sum fresh tail, ask_queries q n malloc rand user = some (sum, fresh ++ tail) ∧
      fresh.Perm (List.range q.length) ∧
      tail = (List.range (n - q.length)).map (fun t => rand (q.length + t) % q.length) ∧
      tail.length = n - q.length ∧ ∀ x ∈ tail, x < q.length := by
  obtain ⟨cells, rfl⟩ := Option.isSome_iff_exists.1 hm
  obtain ⟨sum, hs⟩ := ask_queries_eq_sample q n cells rand user
  obtain ⟨idx, h1, h2, h3⟩ := sample_shape q.length n rand (by omega) (by omega)
  have hmin : min n q.length = q.length := by omega
  rw [hmin] at h3
  have htake : idx.take q.length = idx := by rw [← h1, List.take_length]
  rw [htake] at h3
  refine ⟨sum, idx, _, by rw [hs, h3], h2, rfl, by simp, ?_⟩
  intro x hx
  obtain ⟨t, _, rfl⟩ := List.mem_map.1 hx
  exact Nat.mod_lt _ hq

/-- Witness for C13 on three records and request 7. -/
theorem overflow_tail_witness :
    (Option.isSome (some (fun _ : Nat => 9)) = true ∧
      0 < (List.replicate 3 (⟨[], []⟩ : query)).length ∧
      (List.replicate 3 (⟨[], []⟩ : query)).length < 7) ∧
    ∃ sum fresh tail,
      ask_queries (List.replicate 3 ⟨[], []⟩) 7 (some (fun _ => 9)) (fun c => 7 * c + 3)
        (fun _ _ => true) = some (sum, fresh ++ tail) ∧
      fresh.Perm (List.range (List.replicate 3 (⟨[], []⟩ : query)).length) ∧
      tail = (List.range (7 - (List.replicate 3 (⟨[], []⟩ : query)).length)).map
        (fun t => (fun c => 7 * c + 3) ((List.replicate 3 (⟨[], []⟩ : query)).length + t) %
          (List.replicate 3 (⟨[], []⟩ : query)).length) ∧
      tail.length = 7 - (List.replicate 3 (⟨[], []⟩ : query)).length ∧
      ∀ x ∈ tail, x < (List.replicate 3 (⟨[], []⟩ : query)).length :=
  ⟨⟨rfl, by decide, by decide⟩,
    overflow_tail (List.replicate 3 ⟨[], []⟩) 7 (some (fun _ => 9)) (fun c => 7 * c + 3)
      (fun _ _ => true) rfl (by decide) (by decide)⟩

/-! ## C14: determinism -/

/-- C14. Two runs of `ask_queries` with the same record count, the same requested
count and the same draws present the same indices, whatever the records hold,
whatever the user answers in either run and whatever the index buffer held,
provided `malloc` succeeds in both runs or fails in both. -/
theorem presented_deterministic (q1 q2 : List query) (n : Nat)
    (malloc1 malloc2 : Option (Nat → Nat)) (rand : Nat → Nat)
    (user1 user2 : Nat → query → Bool) (hq : q1.length = q2.length)
    (hm : malloc1.isSome = malloc2.isSome) :
    ∃ presented, (∃ sum1, ask_queries q1 n malloc1 rand user1 = some (sum1, presented)) ∧
      (∃ sum2, ask_queries q2 n malloc2 rand user2 = some (sum2, presented)) := by
  rcases malloc1 with _ | cells1 <;> rcases malloc2 with _ | cells2 <;> simp at hm
  · refine ⟨[], ⟨0, ?_⟩, ⟨0, ?_⟩⟩
    · by_cases h : q1.length = 0 ∨ n = 0 <;> simp only [ask_queries, h, if_true, if_false]
    · by_cases h : q2.length = 0 ∨ n = 0 <;> simp only [ask_queries, h, if_true, if_false]
  · obtain ⟨sum1, h1⟩ := ask_queries_eq_sample q1 n cells1 rand user1
    obtain ⟨sum2, h2⟩ := ask_queries_eq_sample q2 n cells2 rand user2
    rw [← hq] at h2
    exact ⟨_, ⟨sum1, h1⟩, ⟨sum2, h2⟩⟩

/-- Witness for C14: three records, request 5, two users and two buffers. -/
theorem presented_deterministic_witness :
    ((List.replicate 3 (⟨[], []⟩ : query)).length =
        (List.replicate 3 (⟨[1], [[2]]⟩ : query)).length ∧
      Option.isSome (some (fun _ : Nat => 9)) = Option.isSome (some (fun i : Nat => i))) ∧
    ∃ presented,
      (∃ sum1, ask_queries (List.replicate 3 ⟨[], []⟩) 5 (some (fun _ => 9))
        (fun c => 7 * c + 3) (fun _ _ => true) = some (sum1, presented)) ∧
      (∃ sum2, ask_queries (List.replicate 3 ⟨[1], [[2]]⟩) 5 (some (fun i => i))
        (fun c => 7 * c + 3) (fun _ _ => false) = some (sum2, presented)) :=
  ⟨⟨by decide, rfl⟩,
    presented_deterministic (List.replicate 3 ⟨[], []⟩) (List.replicate 3 ⟨[1], [[2]]⟩) 5
      (some (fun _ => 9)) (some (fun i => i)) (fun c => 7 * c + 3) (fun _ _ => true)
      (fun _ _ => false) (by decide) rfl⟩

/-! ## C18: swapping first and reading afterwards -/

/-- Reading the cells `i, ..., i + steps - 1` after all the swaps gives what the
procedure of the specification collects swap by swap, because the later swaps
leave the earlier cells alone. -/
theorem fisher_yates_spec_eq (len : Nat) (rand : Nat → Nat) :
    ∀ (steps i calls : Nat) (idx sampled : List Nat), idx.length = len → i + steps ≤ len →
      ∃ idx1, shuffle_loop len rand steps i calls idx = some (idx1, calls + steps) ∧
        fisher_yates_spec len rand steps i calls idx sampled =
          some (sampled ++ (idx1.drop i).take steps) := by
  intro steps
  induction steps with
  | zero =>
    intro i calls idx sampled _ _
    exact ⟨idx, rfl, by simp [fisher_yates_spec]⟩
  | succ steps ih =>
    intro i calls idx sampled hlen hle
    have hdiv : len - i ≠ 0 := by omega
    have hj : i + rand calls % (len - i) < len := by
      have := Nat.mod_lt (rand calls) (Nat.pos_of_ne_zero hdiv)
      omega
    obtain ⟨idx2, h1, h2, _, _, _⟩ := swap_idx_spec idx i (i + rand calls % (len - i))
      (by omega) (by omega)
    have hi2 : i < idx2.length := by omega
    obtain ⟨idx1, h5, h6⟩ := ih (i + 1) (calls + 1) idx2 (sampled ++ [idx2[i]]) (by omega)
      (by omega)
    -- the swaps from `i + 1` on leave the cell `i` alone
    obtain ⟨idx3, h7, h8, _, h9⟩ := shuffle_loop_spec len rand steps (i + 1) (calls + 1) idx2
      (by omega) (by omega)
    rw [h5] at h7
    have h13 : idx1 = idx3 := by
      have := Option.some.inj h7
      exact congrArg Prod.fst this
    subst h13
    have hi1 : i < idx1.length := by omega
    have hcell : idx1[i] = idx2[i] := by
      have := h9 i (by omega)
      rw [List.getElem?_eq_getElem hi1, List.getElem?_eq_getElem hi2] at this
      exact Option.some.inj this
    refine ⟨idx1, ?_, ?_⟩
    · simp only [shuffle_loop, hdiv, if_false, h1, h5]
      congr 2
      omega
    · simp only [fisher_yates_spec, hdiv, if_false, h1, List.getElem?_eq_getElem hi2, h6]
      rw [List.drop_eq_getElem_cons hi1, List.take_succ_cons, hcell, List.append_assoc]
      rfl

/-- C18. For every record count, every requested count `n` and every stream of
draws, when `malloc` returns the index buffer the first `min n len` indices that
`ask_queries` presents, which it reads from the buffer after all the swaps, are
the indices that the partial Fisher-Yates procedure of the specification takes
from position `i` right after the swap number `i`. -/
theorem two_phase_refines_fisher_yates (q : List query) (n : Nat)
    (malloc : Option (Nat → Nat)) (rand : Nat → Nat) (user : Nat → query → Bool)
    (hm : malloc.isSome = true) :
    ∃ sum presented, ask_queries q n malloc rand user = some (sum, presented) ∧
      fresh_pass_spec q.length n rand = some (presented.take (min n q.length)) := by
  obtain ⟨cells, rfl⟩ := Option.isSome_iff_exists.1 hm
  obtain ⟨sum, hs⟩ := ask_queries_eq_sample q n cells rand user
  refine ⟨sum, _, hs, ?_⟩
  by_cases h0 : q.length = 0 ∨ n = 0
  · have hmin : min n q.length = 0 := by omega
    rw [sample_zero _ _ _ h0]
    simp [fresh_pass_spec, hmin, fisher_yates_spec]
  · obtain ⟨idx1, h1, h2⟩ := fisher_yates_spec_eq q.length rand (min n q.length) 0 0
      (List.range q.length) [] (by simp) (by omega)
    have hsample : sample q.length n rand = idx1.take (min n q.length) ++
        (List.range (n - q.length)).map (fun t => rand (min n q.length + t) % q.length) := by
      simp only [sample, h0, if_false, h1]
    have hlen : idx1.length = q.length := by
      obtain ⟨idx3, h7, h8, _, _⟩ := shuffle_loop_spec q.length rand (min n q.length) 0 0
        (List.range q.length) (by simp) (by omega)
      rw [h1] at h7
      have := congrArg Prod.fst (Option.some.inj h7)
      simp only at this
      rw [this]
      exact h8
    rw [hsample, List.take_left' (by simp [hlen])]
    simpa [fresh_pass_spec] using h2

/-- Witness for C18 on five records and request 3. -/
theorem two_phase_refines_fisher_yates_witness :
    Option.isSome (some (fun _ : Nat => 9)) = true ∧
    ∃ sum presented,
      ask_queries (List.replicate 5 ⟨[], []⟩) 3 (some (fun _ => 9)) (fun c => 7 * c + 3)
        (fun _ _ => true) = some (sum, presented) ∧
      fresh_pass_spec (List.replicate 5 (⟨[], []⟩ : query)).length 3 (fun c => 7 * c + 3) =
        some (presented.take (min 3 (List.replicate 5 (⟨[], []⟩ : query)).length)) :=
  ⟨rfl, two_phase_refines_fisher_yates (List.replicate 5 ⟨[], []⟩) 3 (some (fun _ => 9))
    (fun c => 7 * c + 3) (fun _ _ => true) rfl⟩

/-! ## C19: no remainder by zero, no index out of range -/

/-- C19. For every record set, requested count, outcome of `malloc`, stream of
draws and user, `ask_queries` runs without a remainder by zero and without an
access outside the index buffer or the records (it never yields `none`), and
every index it uses to select a record is below the record count; in the turn
`i` of the shuffle the divisor `len - i` is at least 1 and the swap partner `j`
satisfies `i ≤ j < len`; and where the overflow loop runs the divisor `len` is
at least 1. -/
theorem ask_queries_safe (q : List query) (n : Nat) (malloc : Option (Nat → Nat))
    (rand : Nat → Nat) (user : Nat → query → Bool) :
    (∃ sum presented, ask_queries q n malloc rand user = some (sum, presented) ∧
      ∀ x ∈ presented, x < q.length) ∧
    (∀ i c, i < min n q.length →
      1 ≤ q.length - i ∧ i ≤ i + rand c % (q.length - i) ∧
        i + rand c % (q.length - i) < q.length) ∧
    (¬ (q.length = 0 ∨ n = 0) → q.length < n → 1 ≤ q.length) := by
  refine ⟨?_, ?_, ?_⟩
  · rcases malloc with _ | cells
    · refine ⟨0, [], ?_, by simp⟩
      by_cases h : q.length = 0 ∨ n = 0 <;> simp only [ask_queries, h, if_true, if_false]
    · obtain ⟨sum, hs⟩ := ask_queries_eq_sample q n cells rand user
      refine ⟨sum, _, hs, ?_⟩
      by_cases h0 : q.length = 0 ∨ n = 0
      · rw [sample_zero _ _ _ h0]; simp
      · obtain ⟨idx, _, h2, h3⟩ := sample_shape q.length n rand (by omega) (by omega)
        rw [h3]
        intro x hx
        rcases List.mem_append.1 hx with hx | hx
        · exact List.mem_range.1 (h2.mem_iff.1 (List.mem_of_mem_take hx))
        · obtain ⟨t, _, rfl⟩ := List.mem_map.1 hx
          exact Nat.mod_lt _ (by omega)
  · intro i c hi
    have hpos : 0 < q.length - i := by omega
    have := Nat.mod_lt (rand c) hpos
    omega
  · intro h _
    omega

/-- Witness for C19 on three records and request 7, at the turn 2 of the shuffle. -/
theorem ask_queries_safe_witness :
    (∃ sum presented,
      ask_queries (List.replicate 3 ⟨[], []⟩) 7 (some (fun _ => 9)) (fun c => 7 * c + 3)
        (fun _ _ => true) = some (sum, presented) ∧
      ∀ x ∈ presented, x < (List.replicate 3 (⟨[], []⟩ : query)).length) ∧
    (2 < min 7 (List.replicate 3 (⟨[], []⟩ : query)).length ∧
      1 ≤ (List.replicate 3 (⟨[], []⟩ : query)).length - 2 ∧
      2 ≤ 2 + (fun c => 7 * c + 3) 2 % ((List.replicate 3 (⟨[], []⟩ : query)).length - 2) ∧
      2 + (fun c => 7 * c + 3) 2 % ((List.replicate 3 (⟨[], []⟩ : query)).length - 2) <
        (List.replicate 3 (⟨[], []⟩ : query)).length) ∧
    1 ≤ (List.replicate 3 (⟨[], []⟩ : query)).length :=
  have h := ask_queries_safe (List.replicate 3 ⟨[], []⟩) 7 (some (fun _ => 9))
    (fun c => 7 * c + 3) (fun _ _ => true)
  ⟨h.1, ⟨by decide, h.2.1 2 2 (by decide)⟩, h.2.2 (by decide) (by decide)⟩

/-! ## C16: columns count bytes -/

/-- C16, counterexample. In the UTF-8 input `é:a;` the colon is preceded on its
line by the one character `é`, which is two bytes; `gamedata_tokenize` tags the
colon column 3, one plus the number of bytes, not column 2, one plus the number
of characters. -/
theorem column_counts_bytes_of_multibyte_char :
    gamedata_tokenize [195, 169, 58, 97, 59] [] =
        some [⟨token_kind.STRING, [195, 169, 0], 1, 1⟩, ⟨token_kind.COLON, [], 1, 3⟩,
          ⟨token_kind.STRING, [97, 0], 1, 4⟩, ⟨token_kind.SEMICOLON, [], 1, 5⟩] ∧
    1 + code_points [195, 169] = 2 ∧ 1 + [195, 169].length = 3 := by
  refine ⟨by decide, by decide, by decide⟩

theorem uadd_small (a b : Nat) (h : a + b < 4294967296) : uadd a b = a + b :=
  Nat.mod_eq_of_lt h

/-- The string loop adds one column per byte. -/
theorem scan_string_column :
    ∀ (data s : List Nat) (column : Nat), column + data.length < 4294967296 →
      (scan_string data s column).2.1 + (scan_string data s column).2.2.length =
        column + data.length := by
  intro data
  induction data with
  | nil => intro s column _; simp [scan_string]
  | cons x data ih =>
    intro s column h
    by_cases hc : x = 44 ∨ x = 59 ∨ x = 58
    · simp [scan_string, hc]
    · simp only [scan_string, hc, if_false]
      simp only [List.length_cons] at h ⊢
      rw [uadd_small column 1 (by omega), ih _ _ (by omega)]
      omega

/-- Whitespace without a newline adds one column per byte. -/
theorem tokens_of_spaces_column (ws : List Nat) (hws : ∀ c ∈ ws, isspace c = true)
    (hnl : 10 ∉ ws) (tail : List Nat) :
    ∀ (line column : Nat), column + ws.length < 4294967296 →
      tokens_of (ws ++ tail) line column = tokens_of tail line (column + ws.length) := by
  induction ws with
  | nil => intro line column _; rfl
  | cons x ws ih =>
    intro line column h
    have hx : isspace x = true := hws x (by simp)
    have hx10 : x ≠ 10 := fun h10 => hnl (by simp [h10])
    simp only [List.length_cons] at h
    rw [List.cons_append, tokens_of_cons]
    simp only [hx, hx10, if_true, if_false]
    rw [uadd_small column 1 (by omega),
      ih (fun c hc => hws c (by simp [hc])) (fun h10 => hnl (by simp [h10])) line (column + 1)
        (by omega)]
    congr 1
    simp only [List.length_cons]
    omega

/-- On a stretch without a newline the scan adds one column per byte: the
tokens of a text with a delimiter behind such a stretch are the tokens of the
stretch, then the tokens from the delimiter on with the column advanced by the
length of the stretch. -/
theorem tokens_of_split_delim_column (d : Nat) (hd : is_delim d = true) (post : List Nat) :
    ∀ (n : Nat) (mid : List Nat), mid.length ≤ n → 10 ∉ mid →
      ∀ (line column : Nat), column + mid.length < 4294967296 →
      tokens_of (mid ++ d :: post) line column =
        tokens_of mid line column ++ tokens_of (d :: post) line (column + mid.length) := by
  intro n
  induction n with
  | zero =>
    intro mid hlen _ line column _
    have : mid = [] := List.length_eq_zero.1 (Nat.le_zero.1 hlen)
    subst this
    simp [tokens_of_nil]
  | succ n ih =>
    intro mid hlen hnl line column hcol
    rcases mid with _ | ⟨x, mid⟩
    · simp [tokens_of_nil]
    · have hlen1 : mid.length ≤ n := by simpa using hlen
      have hnl1 : 10 ∉ mid := fun h => hnl (List.mem_cons_of_mem _ h)
      have hx10 : x ≠ 10 := fun h10 => hnl (by simp [h10])
      simp only [List.length_cons] at hcol
      have hu : uadd column 1 = column + 1 := uadd_small column 1 (by omega)
      have hcol1 : column + (mid.length + 1) = column + 1 + mid.length := by omega
      rw [List.cons_append, tokens_of_cons x (mid ++ d :: post), tokens_of_cons x mid]
      simp only [List.length_cons, hcol1]
      by_cases hs : isspace x = true
      · simp only [hs, hx10, if_true, if_false, hu]
        exact ih mid hlen1 hnl1 line (column + 1) (by omega)
      · have hs1 : isspace x = false := by simpa using hs
        by_cases hx : is_delim x = true
        · simp only [hs1, hx, Bool.false_eq_true, if_false, if_true, hu]
          rw [ih mid hlen1 hnl1 line (column + 1) (by omega)]
          rfl
        · have hnd : ¬ (x = 44 ∨ x = 59 ∨ x = 58) := by rw [← is_delim_iff]; exact hx
          have hx1 : is_delim x = false := by simpa using hx
          have hlt := scan_string_length_lt x mid [] column hnd
          have happ := scan_string_append_delim d hd post (x :: mid) [] column
          rw [List.cons_append] at happ
          have hcolumn := scan_string_column (x :: mid) [] column
            (by simp only [List.length_cons]; omega)
          simp only [List.length_cons] at hcolumn hlt
          have hrest : 10 ∉ (scan_string (x :: mid) [] column).2.2 := fun h =>
            hnl (scan_string_rest_subset _ _ _ _ h)
          simp only [hs1, hx1, Bool.false_eq_true, if_false, happ]
          rw [ih (scan_string (x :: mid) [] column).2.2 (by omega) hrest line
            (scan_string (x :: mid) [] column).2.1 (by omega), hcolumn]
          simp only [List.cons_append, hcol1]

/-- On a stretch without a newline that does not end inside a STRING the scan
adds one column per byte, whatever follows. -/
theorem tokens_of_cut_column (mid rest : List Nat) (hnl : 10 ∉ mid)
    (hstart : token_start mid rest) (line column : Nat)
    (hcol : column + mid.length < 4294967296) :
    tokens_of (mid ++ rest) line column =
      tokens_of mid line column ++ tokens_of rest line (column + mid.length) := by
  rcases hstart with ⟨d, r, rfl, hd⟩ | ⟨_, p, ws, rfl, hp, hws⟩
  · exact tokens_of_split_delim_column d hd r _ mid (le_refl _) hnl line column hcol
  · have hnlws : 10 ∉ ws := fun h => hnl (by simp [h])
    rcases hp with rfl | ⟨p0, d, rfl, hd⟩
    · simp only [List.nil_append] at hcol ⊢
      rw [tokens_of_spaces_column ws hws hnlws rest line column hcol,
        tokens_of_whitespace ws hws]
      rfl
    · have hnlp : 10 ∉ p0 := fun h => hnl (by simp [h])
      simp only [List.length_append, List.length_cons, List.length_nil] at hcol
      have e1 : p0 ++ [d] ++ ws ++ rest = p0 ++ d :: (ws ++ rest) := by simp
      have e2 : p0 ++ [d] ++ ws = p0 ++ d :: ws := by simp
      rw [e1, e2,
        tokens_of_split_delim_column d hd (ws ++ rest) _ p0 (le_refl _) hnlp line column
          (by omega),
        tokens_of_split_delim_column d hd ws _ p0 (le_refl _) hnlp line column (by omega),
        tokens_of_delim d hd, tokens_of_delim d hd, uadd_small _ 1 (by omega),
        tokens_of_spaces_column ws hws hnlws rest line _ (by omega),
        tokens_of_whitespace ws hws]
      simp only [List.length_append, List.length_cons, List.length_nil, List.append_assoc,
        List.cons_append, List.nil_append]
      congr 3
      omega

/-- In front of a character that is no whitespace the loop emits a token with
the counters as its position. -/
theorem tokens_of_head_position (x : Nat) (r : List Nat) (hx : isspace x = false)
    (line column : Nat) :
    ∃ t ts, tokens_of (x :: r) line column = t :: ts ∧ t.line = line ∧ t.column = column := by
  rw [tokens_of_cons]
  by_cases hd : is_delim x = true
  · simp only [hx, hd, Bool.false_eq_true, if_false, if_true]
    exact ⟨_, _, rfl, rfl, rfl⟩
  · have hd1 : is_delim x = false := by simpa using hd
    simp only [hx, hd1, Bool.false_eq_true, if_false]
    exact ⟨_, _, rfl, rfl, rfl⟩

/-- The counters at a delimiter do not depend on what follows it. -/
theorem tokens_of_split_delim_uniform (d : Nat) (hd : is_delim d = true) :
    ∀ (n : Nat) (pre : List Nat), pre.length ≤ n → ∀ (line column : Nat),
      ∃ line1 column1, ∀ post, tokens_of (pre ++ d :: post) line column =
        tokens_of pre line column ++ tokens_of (d :: post) line1 column1 := by
  intro n
  induction n with
  | zero =>
    intro pre hlen line column
    have : pre = [] := List.length_eq_zero.1 (Nat.le_zero.1 hlen)
    subst this
    exact ⟨line, column, fun post => by simp [tokens_of_nil]⟩
  | succ n ih =>
    intro pre hlen line column
    rcases pre with _ | ⟨x, pre⟩
    · exact ⟨line, column, fun post => by simp [tokens_of_nil]⟩
    · have hlen1 : pre.length ≤ n := by simpa using hlen
      by_cases hs : isspace x = true
      · by_cases hn : x = 10
        · subst hn
          obtain ⟨l1, c1, h1⟩ := ih pre hlen1 (uadd line 1) 1
          refine ⟨l1, c1, fun post => ?_⟩
          rw [List.cons_append, tokens_of_cons 10 (pre ++ d :: post), tokens_of_cons 10 pre]
          simp only [hs, if_true]
          exact h1 post
        · obtain ⟨l1, c1, h1⟩ := ih pre hlen1 line (uadd column 1)
          refine ⟨l1, c1, fun post => ?_⟩
          rw [List.cons_append, tokens_of_cons x (pre ++ d :: post), tokens_of_cons x pre]
          simp only [hs, hn, if_true, if_false]
          exact h1 post
      · have hs1 : isspace x = false := by simpa using hs
        by_cases hx : is_delim x = true
        · obtain ⟨l1, c1, h1⟩ := ih pre hlen1 line (uadd column 1)
          refine ⟨l1, c1, fun post => ?_⟩
          rw [List.cons_append, tokens_of_cons x (pre ++ d :: post), tokens_of_cons x pre]
          simp only [hs1, hx, Bool.false_eq_true, if_false, if_true]
          rw [h1 post]
          rfl
        · have hnd : ¬ (x = 44 ∨ x = 59 ∨ x = 58) := by rw [← is_delim_iff]; exact hx
          have hx1 : is_delim x = false := by simpa using hx
          have hlt := scan_string_length_lt x pre [] column hnd
          obtain ⟨l1, c1, h1⟩ := ih (scan_string (x :: pre) [] column).2.2
            (by simp at hlt; omega) line (scan_string (x :: pre) [] column).2.1
          refine ⟨l1, c1, fun post => ?_⟩
          have happ := scan_string_append_delim d hd post (x :: pre) [] column
          rw [List.cons_append] at happ
          rw [List.cons_append, tokens_of_cons x (pre ++ d :: post), tokens_of_cons x pre]
          simp only [hs1, hx1, Bool.false_eq_true, if_false, happ]
          rw [h1 post]
          rfl

/-- Whitespace closed by a newline leaves the column counter at 1. -/
theorem tokens_of_spaces_newline (ws : List Nat) (hws : ∀ c ∈ ws, isspace c = true) :
    ∀ (line column : Nat), ∃ line1, ∀ tail,
      tokens_of (ws ++ 10 :: tail) line column = tokens_of tail line1 1 := by
  induction ws with
  | nil =>
    intro line column
    refine ⟨uadd line 1, fun tail => ?_⟩
    rw [List.nil_append, tokens_of_cons]
    simp only [show isspace 10 = true from by decide, if_true]
  | cons x ws ih =>
    intro line column
    have hx : isspace x = true := hws x (by simp)
    have hws1 : ∀ c ∈ ws, isspace c = true := fun c hc => hws c (by simp [hc])
    by_cases hn : x = 10
    · subst hn
      obtain ⟨l1, h1⟩ := ih hws1 (uadd line 1) 1
      refine ⟨l1, fun tail => ?_⟩
      rw [List.cons_append, tokens_of_cons]
      simp only [hx, if_true]
      exact h1 tail
    · obtain ⟨l1, h1⟩ := ih hws1 line (uadd column 1)
      refine ⟨l1, fun tail => ?_⟩
      rw [List.cons_append, tokens_of_cons]
      simp only [hx, hn, if_true, if_false]
      exact h1 tail

/-- Behind a line that ends outside a STRING the scan goes on with the column
counter at 1. -/
theorem tokens_of_line_start (head : List Nat) (h : line_start head) :
    ∃ line1, ∀ tail, tokens_of (head ++ tail) 1 1 =
      tokens_of head 1 1 ++ tokens_of tail line1 1 := by
  rcases h with rfl | ⟨h0, rfl, p, ws, rfl, hp, hws⟩
  · exact ⟨1, fun tail => by simp [tokens_of_nil]⟩
  · rcases hp with rfl | ⟨p0, d, rfl, hd⟩
    · obtain ⟨l1, h1⟩ := tokens_of_spaces_newline ws hws 1 1
      refine ⟨l1, fun tail => ?_⟩
      have e1 : [] ++ ws ++ [10] ++ tail = ws ++ 10 :: tail := by simp
      have e2 : [] ++ ws ++ [10] = ws ++ 10 :: [] := by simp
      rw [e1, e2, h1 tail, h1 [], tokens_of_nil]
      rfl
    · obtain ⟨l1, c1, h1⟩ := tokens_of_split_delim_uniform d hd _ p0 (le_refl _) 1 1
      obtain ⟨l2, h2⟩ := tokens_of_spaces_newline ws hws l1 (uadd c1 1)
      refine ⟨l2, fun tail => ?_⟩
      have e1 : p0 ++ [d] ++ ws ++ [10] ++ tail = p0 ++ d :: (ws ++ 10 :: tail) := by simp
      have e2 : p0 ++ [d] ++ ws ++ [10] = p0 ++ d :: (ws ++ 10 :: []) := by simp
      rw [e1, e2, h1 (ws ++ 10 :: tail), h1 (ws ++ 10 :: []), tokens_of_delim d hd,
        tokens_of_delim d hd, h2 tail, h2 [], tokens_of_nil]
      simp

/-- C16, amended. Token columns are counted in bytes: for every input of less
than `2 ^ 31` bytes, a token that starts behind the bytes `mid` of its line,
where the line is the first one or begins behind a newline outside a STRING
span, is tagged with the column 1 plus the number of bytes of `mid`; a
multi-byte character in front of the token counts once for each of its bytes. -/
theorem column_is_bytes_before (head mid rest : List Nat) (hhead : line_start head)
    (hmid : 10 ∉ mid) (hstart : token_start mid rest)
    (hlen : (head ++ mid ++ rest).length < 2147483648) :
    ∃ front t back, gamedata_tokenize (head ++ mid) [] = some front ∧
      gamedata_tokenize (head ++ mid ++ rest) [] = some (front ++ t :: back) ∧
      t.column = 1 + mid.length := by
  obtain ⟨l1, h1⟩ := tokens_of_line_start head hhead
  have hx : ∃ x r, rest = x :: r ∧ isspace x = false := by
    rcases hstart with ⟨d, r, rfl, hd⟩ | ⟨⟨x, r, rfl, hx, _⟩, _⟩
    · exact ⟨d, r, rfl, not_isspace_of_is_delim hd⟩
    · exact ⟨x, r, rfl, hx⟩
  obtain ⟨x, r, hrest, hxs⟩ := hx
  obtain ⟨t, back, h2, _, h3⟩ := tokens_of_head_position x r hxs l1 (1 + mid.length)
  have hlen1 : (head ++ mid).length < 2147483648 := by
    simp only [List.length_append] at hlen ⊢
    omega
  have hlen2 : mid.length < 2147483648 := by
    simp only [List.length_append] at hlen
    omega
  refine ⟨tokens_of head 1 1 ++ tokens_of mid l1 1, t, back, ?_, ?_, h3⟩
  · rw [gamedata_tokenize_bounded _ _ hlen1 (by simp only [List.length_nil]; omega), h1 mid]
    rfl
  · rw [gamedata_tokenize_bounded _ _ hlen (by simp only [List.length_nil]; omega),
      List.append_assoc, h1 (mid ++ rest),
      tokens_of_cut_column mid rest hmid hstart l1 1 (by omega), hrest, h2]
    simp

/-- Witness for C16 (amended) on the input `é:a;`: the colon starts behind the
two bytes of `é` and is tagged column 3. -/
theorem column_is_bytes_before_witness :
    (line_start [] ∧ 10 ∉ [195, 169] ∧ token_start [195, 169] [58, 97, 59] ∧
      ([] ++ [195, 169] ++ [58, 97, 59]).length < 2147483648) ∧
    ∃ front t back, gamedata_tokenize ([] ++ [195, 169]) [] = some front ∧
      gamedata_tokenize ([] ++ [195, 169] ++ [58, 97, 59]) [] = some (front ++ t :: back) ∧
      t.column = 1 + [195, 169].length :=
  have h1 : line_start [] := Or.inl rfl
  have h2 : token_start [195, 169] [58, 97, 59] := Or.inl ⟨58, [97, 59], rfl, by decide⟩
  ⟨⟨h1, by decide, h2, by decide⟩,
    column_is_bytes_before [] [195, 169] [58, 97, 59] h1 (by decide) h2 (by decide)⟩

end Katacant
